import Mathlib

/-!
# parse_eval.c: expression compiler and stack interpreter

A shallow embedding of `src/parse_eval.c`.

* `int32_t` values are integers, every arithmetic result being brought back
  into the signed 32-bit range by `wrap32` (two's-complement wraparound).
* `uint16_t` counters are naturals reduced modulo 65536 where they can wrap.
* The byte code is a list of naturals (one per byte).
* The text pointer `exp_to_parse` is the list of characters from the pointer
  to the terminating NUL (the NUL itself is not in the list), together with
  its offset from the start of the text.
* The global evaluation stack survives from one evaluation to the next, so
  it is part of the interpreter's input.
* Where the C source leaves the behaviour of the interpreter undefined in a
  way that a caller can reach (the quotient or remainder of `INT32_MIN` by
  `-1`, an index outside the caller's variable array), the embedding gives no
  result: a turn of the interpreter loop is a partial function.
-/

namespace ParseEval

/-! ## Values -/

/-- Conversion of an integer to `int32_t` (two's-complement wraparound). -/
def wrap32 (x : Int) : Int := (x + 2147483648) % 4294967296 - 2147483648

/-- Conversion `(uint32_t)x` of an integer. -/
def toU32 (x : Int) : Nat := (x % 4294967296).toNat

/-- Unary minus on `int32_t`. -/
def c_neg (a : Int) : Int := wrap32 (-a)

/-- Boolean not, the C operator `!`. -/
def c_not (a : Int) : Int := if a = 0 then 1 else 0

/-- Bitwise complement `~(uint32_t)a`, stored back as `int32_t`. -/
def c_compl (a : Int) : Int := wrap32 (Int.ofNat (4294967295 - toU32 a))

/-- Product `arg1 * arg2` on `int32_t`. -/
def c_mul (a b : Int) : Int := wrap32 (a * b)

/-- Quotient `(arg2 == 0) ? 0 : arg1 / arg2`; C division truncates towards zero.
The source guards the divisor 0 only: `INT32_MIN / -1`, whose quotient is not
an `int32_t`, is run as it is, and its behaviour is undefined in C (a trap on
common hosts). There the embedding gives no result. -/
def c_div (a b : Int) : Option Int :=
  if b = 0 then some 0
  else if a = -2147483648 ∧ b = -1 then none
  else some (wrap32 (Int.tdiv a b))

/-- Remainder `(arg2 == 0) ? 0 : arg1 % arg2`, with the sign of the dividend.
As for the quotient, `INT32_MIN % -1` is run by the source and undefined in C
(the same trap): no result. -/
def c_mod (a b : Int) : Option Int :=
  if b = 0 then some 0
  else if a = -2147483648 ∧ b = -1 then none
  else some (wrap32 (Int.tmod a b))

/-- Sum `arg1 + arg2` on `int32_t`. -/
def c_add (a b : Int) : Int := wrap32 (a + b)

/-- Difference `arg1 - arg2` on `int32_t`. -/
def c_sub (a b : Int) : Int := wrap32 (a - b)

/-- Left shift `arg1 << arg2`. A shift count outside `0..31` is undefined in C
and is modelled as giving 0. -/
def c_shl (a b : Int) : Int :=
  if 0 ≤ b ∧ b < 32 then wrap32 (a * 2 ^ b.toNat) else 0

/-- Right shift `arg1 >> arg2`, arithmetic (sign preserving). A shift count
outside `0..31` is undefined in C and is modelled as giving 0. -/
def c_shr (a b : Int) : Int :=
  if 0 ≤ b ∧ b < 32 then a >>> b.toNat else 0

/-- Comparison `arg1 < arg2`. -/
def c_lt (a b : Int) : Int := if a < b then 1 else 0

/-- Comparison `arg1 <= arg2`. -/
def c_le (a b : Int) : Int := if a ≤ b then 1 else 0

/-- Comparison `arg1 > arg2`. -/
def c_gt (a b : Int) : Int := if a > b then 1 else 0

/-- Comparison `arg1 >= arg2`. -/
def c_ge (a b : Int) : Int := if a ≥ b then 1 else 0

/-- Comparison `arg1 == arg2`. -/
def c_eq (a b : Int) : Int := if a = b then 1 else 0

/-- Comparison `arg1 != arg2`. -/
def c_ne (a b : Int) : Int := if a ≠ b then 1 else 0

/-- Bitwise and of the two 32-bit representations. -/
def c_and (a b : Int) : Int := wrap32 (Int.ofNat (toU32 a &&& toU32 b))

/-- Bitwise exclusive or of the two 32-bit representations. -/
def c_xor (a b : Int) : Int := wrap32 (Int.ofNat (toU32 a ^^^ toU32 b))

/-- Bitwise or of the two 32-bit representations. -/
def c_or (a b : Int) : Int := wrap32 (Int.ofNat (toU32 a ||| toU32 b))

/-! ## Opcodes (`enum compiled_exp_op`) -/

def STACK_SIZE : Nat := 20

/-- The number of variables, `MAX_VAR` of `enum compiled_exp_var`. -/
def MAX_VAR : Nat := 4

def OP_CONSTANT : Nat := 0
def OP_VAR : Nat := 1
def OP_NEGATE : Nat := 2
def OP_BOOLEAN_NOT : Nat := 3
def OP_LOGICAL_NOT : Nat := 4
def OP_MULTIPLY : Nat := 5
def OP_DIVIDE : Nat := 6
def OP_MODULO : Nat := 7
def OP_PLUS : Nat := 8
def OP_MINUS : Nat := 9
def OP_LEFT_SHIFT : Nat := 10
def OP_RIGHT_SHIFT : Nat := 11
def OP_LESS_THAN : Nat := 12
def OP_LESS_THAN_OR_EQUAL : Nat := 13
def OP_GREATER_THAN : Nat := 14
def OP_GREATER_THAN_OR_EQUAL : Nat := 15
def OP_EQUAL : Nat := 16
def OP_NOT_EQUAL : Nat := 17
def OP_LOGICAL_AND : Nat := 18
def OP_LOGICAL_XOR : Nat := 19
def OP_LOGICAL_OR : Nat := 20
def OP_ASSIGN : Nat := 21

/-! ## The interpreter -/

/-- The memory the interpreter works on: the global `eval_stack` and
`eval_stack_pointer`, and the caller's array `vars`. Arrays are maps from the
index to the stored value. The caller's array has the `MAX_VAR` slots of the
variables (as `variable_values[MAX_VAR]` of the source) and `vars_extra`
further slots; what the map `vars` gives at an index beyond them is not part
of the array, and the interpreter never uses it (`Machine.vars_size`). -/
structure Machine where
  eval_stack : Nat → Int
  eval_stack_pointer : Nat
  vars : Nat → Int
  vars_extra : Nat

/-- The number of slots of the caller's array `vars`. An access `vars[i]` with
`i` at or beyond it is outside the array: its behaviour is undefined in C (a
store there can overwrite any other object, the global stack and its pointer
included). -/
def Machine.vars_size (m : Machine) : Nat := MAX_VAR + m.vars_extra

/-- Array store `arr[i] = v`. -/
def store (arr : Nat → Int) (i : Nat) (v : Int) : Nat → Int :=
  fun j => if j = i then v else arr j

/-- The function `stack_push`: stores and increments below `STACK_SIZE`, does
nothing at `STACK_SIZE`. -/
def stack_push (val : Int) (m : Machine) : Machine :=
  if m.eval_stack_pointer < STACK_SIZE then
    { m with eval_stack := store m.eval_stack m.eval_stack_pointer val,
             eval_stack_pointer := m.eval_stack_pointer + 1 }
  else m

/-- The function `stack_pop`: decrements the pointer unless it is 0, then
returns the slot the pointer designates. -/
def stack_pop (m : Machine) : Int × Machine :=
  let m1 := if m.eval_stack_pointer > 0 then
      { m with eval_stack_pointer := m.eval_stack_pointer - 1 } else m
  (m1.eval_stack m1.eval_stack_pointer, m1)

/-- A unary opcode: `stack_push(f(stack_pop()))`. -/
def exec_unary (f : Int → Int) (m : Machine) : Machine :=
  let r := stack_pop m
  stack_push (f r.1) r.2

/-- A binary opcode: `arg2 = stack_pop(); arg1 = stack_pop();
stack_push(f(arg1, arg2))`. -/
def exec_binary (f : Int → Int → Int) (m : Machine) : Machine :=
  let r2 := stack_pop m
  let r1 := stack_pop r2.2
  stack_push (f r1.1 r2.1) r1.2

/-- The opcodes `OP_DIVIDE` and `OP_MODULO`: `arg2 = stack_pop();
arg1 = stack_pop(); stack_push((arg2 == 0) ? 0 : f(arg1, arg2))`, with no
result where the division is undefined. -/
def exec_division (f : Int → Int → Option Int) (m : Machine) : Option Machine :=
  let r2 := stack_pop m
  let r1 := stack_pop r2.2
  (f r1.1 r2.1).map (fun v => stack_push v r1.2)

/-- Byte `compiled_exp[i]`; a read past the end of the list gives 0. -/
def byte_at (compiled_exp : List Nat) (i : Nat) : Nat := compiled_exp.getD i 0

/-- One turn of the loop of `eval_compiled`, started with `pc < compiled_len`:
fetches the opcode at `pc` and executes it. Gives the new `pc` (a `uint16_t`)
and the new memory, or `none` when the behaviour of the turn is undefined in
C: a division or remainder of `INT32_MIN` by `-1`, or an access `vars[i]` of
`OP_VAR` or `OP_ASSIGN` outside the caller's array. The indices `pc+1`,
`pc+2`, `pc+3` of the operand bytes of `OP_CONSTANT` are computed in `int`,
without wraparound. -/
def exec_op (compiled_exp : List Nat) (pc : Nat) (m : Machine) : Option (Nat × Machine) :=
  let op := byte_at compiled_exp pc
  let pc := (pc + 1) % 65536
  match op with
  | 0 =>
    some (((pc + 4) % 65536),
      stack_push (wrap32 (Int.ofNat
        (byte_at compiled_exp pc |||
         (byte_at compiled_exp (pc + 1) <<< 8) |||
         (byte_at compiled_exp (pc + 2) <<< 16) |||
         (byte_at compiled_exp (pc + 3) <<< 24)))) m)
  | 1 =>
    if byte_at compiled_exp pc < m.vars_size then
      some ((pc + 1) % 65536, stack_push (m.vars (byte_at compiled_exp pc)) m)
    else none
  | 2 => some (pc, exec_unary c_neg m)
  | 3 => some (pc, exec_unary c_not m)
  | 4 => some (pc, exec_unary c_compl m)
  | 5 => some (pc, exec_binary c_mul m)
  | 6 => (exec_division c_div m).map (fun m1 => (pc, m1))
  | 7 => (exec_division c_mod m).map (fun m1 => (pc, m1))
  | 8 => some (pc, exec_binary c_add m)
  | 9 => some (pc, exec_binary c_sub m)
  | 10 => some (pc, exec_binary c_shl m)
  | 11 => some (pc, exec_binary c_shr m)
  | 12 => some (pc, exec_binary c_lt m)
  | 13 => some (pc, exec_binary c_le m)
  | 14 => some (pc, exec_binary c_gt m)
  | 15 => some (pc, exec_binary c_ge m)
  | 16 => some (pc, exec_binary c_eq m)
  | 17 => some (pc, exec_binary c_ne m)
  | 18 => some (pc, exec_binary c_and m)
  | 19 => some (pc, exec_binary c_xor m)
  | 20 => some (pc, exec_binary c_or m)
  | 21 =>
    if byte_at compiled_exp pc < m.vars_size then
      let r := stack_pop m
      some ((pc + 1) % 65536,
        { r.2 with vars := store r.2.vars (byte_at compiled_exp pc) r.1 })
    else none
  | _ => some (pc, m)

/-- The loop `while (pc < compiled_len) ...` run for at most `n` turns: the
program counter and memory reached, or `none` when the behaviour of one of
these turns is undefined. -/
def eval_steps (compiled_exp : List Nat) (compiled_len : Nat) :
    Nat → Nat × Machine → Option (Nat × Machine)
  | 0, st => some st
  | n + 1, st =>
    if st.1 < compiled_len then
      (exec_op compiled_exp st.1 st.2).bind (eval_steps compiled_exp compiled_len n)
    else some st

/-- The function `eval_compiled`, with a bound `fuel` on the number of turns of
its loop: the returned value and the memory left behind, or `none` when no
value is returned, because the loop has not ended within the bound or because
the behaviour of a turn is undefined (`eval_steps` tells the two apart). The
memory `m` holds the caller's `vars` and what earlier evaluations left in the
global stack. -/
def eval_compiled (fuel : Nat) (compiled_exp : List Nat) (compiled_len : Nat)
    (m : Machine) : Option (Int × Machine) :=
  (eval_steps compiled_exp compiled_len fuel (0, { m with eval_stack_pointer := 0 })).bind
    fun st => if st.1 < compiled_len then none else some (stack_pop st.2)

/-! ## The compiler state -/

/-- The globals of the compiler. `exp_to_parse` is the text from the pointer of
that name to the terminating NUL and `exp_offset` the pointer's distance from
the start of the text; `written` is the bytes stored through
`compile_next_loc` so far, in order (so `compile_next_loc - buffer` is its
length); `parser_error_location` is kept as an offset into the text. -/
structure PState where
  exp_to_parse : List Nat
  exp_offset : Nat
  written : List Nat
  compile_remain_loc : Nat
  current_token : Nat
  current_token_value : Int
  got_parser_error : Bool
  parser_error_location : Nat

/-- The function `parse_error`: records the first error and where the text
pointer stood. -/
def parse_error (s : PState) : PState :=
  if s.got_parser_error then s
  else { s with got_parser_error := true, parser_error_location := s.exp_offset }

/-- The function `emit_op`. -/
def emit_op (op : Nat) (arg : Int) (s : PState) : PState :=
  if s.compile_remain_loc < 1 then parse_error s
  else
    let s1 := { s with written := s.written ++ [op],
                       compile_remain_loc := s.compile_remain_loc - 1 }
    if op = OP_VAR ∨ op = OP_ASSIGN then
      if s1.compile_remain_loc < 1 then parse_error s1
      else { s1 with written := s1.written ++ [toU32 arg % 256],
                     compile_remain_loc := s1.compile_remain_loc - 1 }
    else if op = OP_CONSTANT then
      if s1.compile_remain_loc < 4 then parse_error s1
      else { s1 with written := s1.written ++
                       [toU32 arg % 256, (toU32 arg >>> 8) % 256,
                        (toU32 arg >>> 16) % 256, (toU32 arg >>> 24) % 256],
                     compile_remain_loc := s1.compile_remain_loc - 4 }
    else s1

/-! ## The lexer -/

/-- A pointer into the text: the characters from the pointer to the NUL, and
the pointer's offset from the start of the text. -/
structure Cursor where
  chars : List Nat
  off : Nat

/-- The character `*p`; at the end of the text it is the NUL. -/
def Cursor.peek (p : Cursor) : Nat := p.chars.headD 0

/-- The pointer `p + 1`. -/
def Cursor.inc (p : Cursor) : Cursor := ⟨p.chars.tail, p.off + 1⟩

/-- The loop `while (*p == ' ' || *p == '\t' || *p == '\n' || *p == '\r') ++p`. -/
def skip_space : List Nat → Nat → Cursor
  | [], off => ⟨[], off⟩
  | c :: cs, off =>
    if c = 32 ∨ c = 9 ∨ c = 10 ∨ c = 13 then skip_space cs (off + 1)
    else ⟨c :: cs, off⟩

/-- The loop `while (*p >= '0' && *p <= '9') val = (val * 10) + (*p++ - '0')`
on a `uint32_t` accumulator. -/
def scan_number : Nat → List Nat → Nat → Nat × Cursor
  | val, [], off => (val, ⟨[], off⟩)
  | val, c :: cs, off =>
    if 48 ≤ c ∧ c ≤ 57 then
      scan_number ((val * 10 + (c - 48)) % 4294967296) cs (off + 1)
    else (val, ⟨c :: cs, off⟩)

/-- The characters that are a token by themselves, the first cases of the
`switch` of `next_token`: NUL and `+ - : ; | ^ & * / % ! ~ ( )`. -/
def one_char_token (c : Nat) : Bool :=
  [0, 43, 45, 58, 59, 124, 94, 38, 42, 47, 37, 33, 126, 40, 41].contains c

/-- What one call of `next_token` computes from the text: the token, the
token's value when it has one (numbers and variables), and the pointer after
the token. -/
structure Scanned where
  token : Nat
  value : Option Int
  p : Cursor

/-- The body of `next_token`, from the text pointer to the token. Tokens are
the character codes the source uses: `'0'` = 48 number, `'V'` = 86 variable,
`'='` = 61 for `==`, `'A'` = 65 for `=`, `'U'` = 85 for `<=`, `'L'` = 76 for
`<<`, `'G'` = 71 for `>=`, `'R'` = 82 for `>>`, `'#'` = 35 for `!=`, `'E'` = 69
error, 0 end of text, and the character itself for the one-character tokens. -/
def scan_token (chars : List Nat) (off : Nat) : Scanned :=
  let p := skip_space chars off
  let c := p.peek
  let p := p.inc
  if 48 ≤ c ∧ c ≤ 57 then
    let r := scan_number (c - 48) p.chars p.off
    ⟨48, some (wrap32 (Int.ofNat r.1)), r.2⟩
  else if c = 61 then
    if p.peek = 61 then ⟨61, none, p.inc⟩ else ⟨65, none, p⟩
  else if c = 60 then
    if p.peek = 61 then ⟨85, none, p.inc⟩
    else if p.peek = 60 then ⟨76, none, p.inc⟩
    else ⟨60, none, p⟩
  else if c = 62 then
    if p.peek = 61 then ⟨71, none, p.inc⟩
    else if p.peek = 62 then ⟨82, none, p.inc⟩
    else ⟨62, none, p⟩
  else if c = 33 then
    if p.peek = 61 then ⟨35, none, p.inc⟩ else ⟨33, none, p⟩
  else if one_char_token c then ⟨c, none, p⟩
  else if c = 116 then ⟨86, some 0, p⟩
  else if c = 97 then ⟨86, some 1, p⟩
  else if c = 98 then ⟨86, some 2, p⟩
  else if c = 99 then ⟨86, some 3, p⟩
  else ⟨69, none, p⟩

/-- The function `next_token`: scans one token and stores it in
`current_token`, its value (if it has one) in `current_token_value`, and the
pointer after it in `exp_to_parse`. -/
def next_token (s : PState) : PState :=
  let r := scan_token s.exp_to_parse s.exp_offset
  { s with exp_to_parse := r.p.chars, exp_offset := r.p.off,
           current_token := r.token,
           current_token_value := r.value.getD s.current_token_value }

/-! ## The parser -/

/-- The function `parse_accept`: the returned flag and the new state. -/
def parse_accept (tok : Nat) (s : PState) : Bool × PState :=
  if s.current_token = tok then
    (true, if s.current_token ≠ 0 then next_token s else s)
  else (false, s)

/-- The function `parse_expect`. -/
def parse_expect (tok : Nat) (s : PState) : Bool × PState :=
  let r := parse_accept tok s
  if r.1 then (true, r.2) else (false, parse_error r.2)

/-- The function `parse_exp16`; `exp6` is `parse_exp6`, which the source
reaches by recursion. A parse function gives `none` when its bound on the
recursion depth or on the turns of a loop is used up. -/
def parse_exp16 (exp6 : PState → Option PState) (s : PState) : Option PState :=
  let tok_val := s.current_token_value
  let r := parse_accept 86 s
  if r.1 then some (emit_op OP_VAR tok_val r.2)
  else
    let r := parse_accept 48 r.2
    if r.1 then some (emit_op OP_CONSTANT tok_val r.2)
    else
      let r := parse_expect 40 r.2
      if r.1 then (exp6 r.2).map (fun s4 => (parse_expect 41 s4).2)
      else some r.2

/-- The function `parse_exp15`. -/
def parse_exp15 (exp6 : PState → Option PState) (s : PState) : Option PState :=
  let r := parse_accept 43 s
  if r.1 then parse_exp16 exp6 r.2
  else
    let r := parse_accept 45 r.2
    if r.1 then (parse_exp16 exp6 r.2).map (emit_op OP_NEGATE 0)
    else
      let r := parse_accept 33 r.2
      if r.1 then (parse_exp16 exp6 r.2).map (emit_op OP_BOOLEAN_NOT 0)
      else
        let r := parse_accept 126 r.2
        if r.1 then (parse_exp16 exp6 r.2).map (emit_op OP_LOGICAL_NOT 0)
        else parse_exp16 exp6 r.2

/-- The loop shared by the left-associative levels:
`while (current_token is an operator of the level)
 { op = its opcode; next_token(); sub(); emit_op(op, 0); }`
run for at most `n` turns. `ops` gives the opcode of an operator token of the
level and `none` for every other token. -/
def while_binary (ops : Nat → Option Nat) (sub : PState → Option PState) :
    Nat → PState → Option PState
  | 0, s =>
    match ops s.current_token with
    | none => some s
    | some _ => none
  | n + 1, s =>
    match ops s.current_token with
    | none => some s
    | some op =>
      match sub (next_token s) with
      | none => none
      | some s2 => while_binary ops sub n (emit_op op 0 s2)

/-- The conditional shared by the levels that do not chain:
`if (current_token is an operator of the level)
 { op = its opcode; next_token(); sub(); emit_op(op, 0); }`. -/
def if_binary (ops : Nat → Option Nat) (sub : PState → Option PState)
    (s : PState) : Option PState :=
  match ops s.current_token with
  | none => some s
  | some op => (sub (next_token s)).map (emit_op op 0)

/-- Operators of `parse_exp13`: `*`, `/`, `%`. -/
def ops13 (tok : Nat) : Option Nat :=
  if tok = 42 then some OP_MULTIPLY
  else if tok = 47 then some OP_DIVIDE
  else if tok = 37 then some OP_MODULO
  else none

/-- Operators of `parse_exp12`: `+`, `-`. -/
def ops12 (tok : Nat) : Option Nat :=
  if tok = 43 then some OP_PLUS
  else if tok = 45 then some OP_MINUS
  else none

/-- Operators of `parse_exp11`: `<<` (token `'L'`), `>>` (token `'R'`). -/
def ops11 (tok : Nat) : Option Nat :=
  if tok = 76 then some OP_LEFT_SHIFT
  else if tok = 82 then some OP_RIGHT_SHIFT
  else none

/-- Operators of `parse_exp10`: `<`, `<=` (`'U'`), `>`, `>=` (`'G'`). -/
def ops10 (tok : Nat) : Option Nat :=
  if tok = 60 then some OP_LESS_THAN
  else if tok = 85 then some OP_LESS_THAN_OR_EQUAL
  else if tok = 62 then some OP_GREATER_THAN
  else if tok = 71 then some OP_GREATER_THAN_OR_EQUAL
  else none

/-- Operators of `parse_exp9`: `==` (token `'='`), `!=` (token `'#'`). -/
def ops9 (tok : Nat) : Option Nat :=
  if tok = 61 then some OP_EQUAL
  else if tok = 35 then some OP_NOT_EQUAL
  else none

/-- Operator of `parse_exp8`: `&`. -/
def ops8 (tok : Nat) : Option Nat :=
  if tok = 38 then some OP_LOGICAL_AND else none

/-- Operator of `parse_exp7`: `^`. -/
def ops7 (tok : Nat) : Option Nat :=
  if tok = 94 then some OP_LOGICAL_XOR else none

/-- Operator of `parse_exp6`: `|`. -/
def ops6 (tok : Nat) : Option Nat :=
  if tok = 124 then some OP_LOGICAL_OR else none

/-- The function `parse_exp13`; `n` bounds the turns of its loop. -/
def parse_exp13 (n : Nat) (exp6 : PState → Option PState) (s : PState) :
    Option PState :=
  (parse_exp15 exp6 s).bind (while_binary ops13 (parse_exp15 exp6) n)

/-- The function `parse_exp12`. -/
def parse_exp12 (n : Nat) (exp6 : PState → Option PState) (s : PState) :
    Option PState :=
  (parse_exp13 n exp6 s).bind (while_binary ops12 (parse_exp13 n exp6) n)

/-- The function `parse_exp11`. -/
def parse_exp11 (n : Nat) (exp6 : PState → Option PState) (s : PState) :
    Option PState :=
  (parse_exp12 n exp6 s).bind (if_binary ops11 (parse_exp12 n exp6))

/-- The function `parse_exp10`. -/
def parse_exp10 (n : Nat) (exp6 : PState → Option PState) (s : PState) :
    Option PState :=
  (parse_exp11 n exp6 s).bind (if_binary ops10 (parse_exp11 n exp6))

/-- The function `parse_exp9`. -/
def parse_exp9 (n : Nat) (exp6 : PState → Option PState) (s : PState) :
    Option PState :=
  (parse_exp10 n exp6 s).bind (if_binary ops9 (parse_exp10 n exp6))

/-- The function `parse_exp8`. -/
def parse_exp8 (n : Nat) (exp6 : PState → Option PState) (s : PState) :
    Option PState :=
  (parse_exp9 n exp6 s).bind (while_binary ops8 (parse_exp9 n exp6) n)

/-- The function `parse_exp7`. -/
def parse_exp7 (n : Nat) (exp6 : PState → Option PState) (s : PState) :
    Option PState :=
  (parse_exp8 n exp6 s).bind (while_binary ops7 (parse_exp8 n exp6) n)

/-- The function `parse_exp6`. Its argument bounds the depth of the recursion
through `parse_exp16` and the turns of every loop below it. -/
def parse_exp6 : Nat → PState → Option PState
  | 0, _ => none
  | n + 1, s =>
    (parse_exp7 n (parse_exp6 n) s).bind
      (while_binary ops6 (parse_exp7 n (parse_exp6 n)) n)

/-- The loop `while (parse_accept(':')) ...` of `parse_exp0`, for at most `n`
turns. -/
def parse_exp0_loop (exp6 : PState → Option PState) :
    Nat → PState → Option PState
  | 0, s => if (parse_accept 58 s).1 then none else some s
  | n + 1, s =>
    let r := parse_accept 58 s
    if r.1 then
      let tok_val := toU32 r.2.current_token_value % 256
      let r1 := parse_expect 86 r.2
      if r1.1 then
        let r2 := parse_expect 65 r1.2
        if r2.1 then
          match exp6 r2.2 with
          | none => none
          | some s3 =>
            let r3 := parse_expect 59 s3
            parse_exp0_loop exp6 n
              (if r3.1 then emit_op OP_ASSIGN (Int.ofNat tok_val) r3.2 else r3.2)
        else parse_exp0_loop exp6 n r2.2
      else parse_exp0_loop exp6 n r1.2
    else some r.2

/-- The function `parse_exp0`. -/
def parse_exp0 (n : Nat) (s : PState) : Option PState :=
  (parse_exp0_loop (parse_exp6 n) n s).bind (parse_exp6 n)

/-- The function `start_parse`. -/
def start_parse (n : Nat) (s : PState) : Option PState :=
  (parse_exp0 n (next_token s)).map (fun s1 => (parse_expect 0 s1).2)

/-- What `parse_exp` hands back: the returned `uint16_t`, the value stored in
`*error_pos`, and the globals at the end (the bytes written and the error
flag among them). -/
structure ParseResult where
  ret : Nat
  error_pos : Nat
  final : PState

/-- The globals as `parse_exp` sets them before `start_parse`. The globals it
does not set (`current_token`, `current_token_value`,
`parser_error_location`) are written before they are read; they start at 0. -/
def parse_init (exp : List Nat) (buffer_len : Nat) : PState :=
  { exp_to_parse := exp, exp_offset := 0, written := [],
    compile_remain_loc := buffer_len, current_token := 0,
    current_token_value := 0, got_parser_error := false,
    parser_error_location := 0 }

/-- The function `parse_exp` on the text `exp` (without its NUL) and a buffer
of `buffer_len` bytes. The recursion and loop bound is one more than the
length of the text, which is always enough (`parse_exp_total`). -/
def parse_exp (exp : List Nat) (buffer_len : Nat) : Option ParseResult :=
  (start_parse (exp.length + 1) (parse_init exp buffer_len)).map fun s =>
    if s.got_parser_error then
      { ret := 0, error_pos := s.parser_error_location % 65536, final := s }
    else
      { ret := s.written.length % 65536, error_pos := 0, final := s }

/-- The characters of a string as a text for `parse_exp`. -/
def text (str : String) : List Nat := str.toList.map Char.toNat

/-! ## Reference expressions

Expression trees, their rendering as text and their value, written from the
statement of the compiler's contract and not from the code. -/

/-- Value of a string of decimal digits (most significant first). -/
def decimal (digits : List Nat) : Nat := digits.foldl (fun v d => v * 10 + d) 0

/-- A decimal literal below 2^31: a non-empty string of digits `0..9` whose
value is below 2^31. -/
def IsLiteral (digits : List Nat) : Prop :=
  digits ≠ [] ∧ (∀ d ∈ digits, d < 10) ∧ decimal digits < 2147483648

/-- The text of a literal: the character `'0' + d` for each digit `d`. -/
def literal_text (digits : List Nat) : List Nat := digits.map (fun d => d + 48)

/-- The four variables. -/
inductive Var where
  | t | a | b | c
  deriving DecidableEq, Repr

/-- Slot of a variable in the variable array. -/
def Var.slot : Var → Nat
  | .t => 0 | .a => 1 | .b => 2 | .c => 3

/-- The letter of a variable. -/
def Var.letter : Var → Nat
  | .t => 116 | .a => 97 | .b => 98 | .c => 99

/-- The unary operators `-`, `!`, `~`. -/
inductive UnOp where
  | neg | lnot | compl
  deriving DecidableEq, Repr

/-- The binary operators `* / % + - << >> < <= > >= == != & ^ |`. -/
inductive BinOp where
  | mul | div | mod | add | sub | shl | shr | lt | le | gt | ge | eq | ne
  | band | bxor | bor
  deriving DecidableEq, Repr

/-- Expression trees. -/
inductive Expr where
  | lit (digits : List Nat)
  | var (v : Var)
  | un (op : UnOp) (e : Expr)
  | bin (op : BinOp) (l r : Expr)
  deriving Repr

/-- The text of a unary operator. -/
def UnOp.text : UnOp → List Nat
  | .neg => [45] | .lnot => [33] | .compl => [126]

/-- The text of a binary operator. -/
def BinOp.text : BinOp → List Nat
  | .mul => [42] | .div => [47] | .mod => [37] | .add => [43] | .sub => [45]
  | .shl => [60, 60] | .shr => [62, 62]
  | .lt => [60] | .le => [60, 61] | .gt => [62] | .ge => [62, 61]
  | .eq => [61, 61] | .ne => [33, 61]
  | .band => [38] | .bxor => [94] | .bor => [124]

/-- A tree as text, every operand of an operator wrapped in parentheses:
`-(e)`, `(l)+(r)`. -/
def Expr.render : Expr → List Nat
  | .lit digits => literal_text digits
  | .var v => [v.letter]
  | .un op e => op.text ++ 40 :: (e.render ++ [41])
  | .bin op l r => 40 :: (l.render ++ 41 :: (op.text ++ 40 :: (r.render ++ [41])))

/-- Every literal of the tree is a decimal literal below 2^31. -/
def Expr.Literals : Expr → Prop
  | .lit digits => IsLiteral digits
  | .var _ => True
  | .un _ e => e.Literals
  | .bin _ l r => l.Literals ∧ r.Literals

/-- The value of a unary operator under 32-bit two's-complement semantics. -/
def UnOp.value : UnOp → Int → Int
  | .neg, x => wrap32 (-x)
  | .lnot, x => if x = 0 then 1 else 0
  | .compl, x => -x - 1

/-- The value of a binary operator under 32-bit two's-complement semantics:
wraparound for `* + - <<`, truncating division with 0 for a zero divisor, 0/1
for the comparisons, the operation on the 32 bits for `& ^ |`. The shifts are
meant for shift amounts in `0..31`, the division for quotients that fit. -/
def BinOp.value : BinOp → Int → Int → Int
  | .mul, x, y => wrap32 (x * y)
  | .div, x, y => if y = 0 then 0 else Int.tdiv x y
  | .mod, x, y => if y = 0 then 0 else Int.tmod x y
  | .add, x, y => wrap32 (x + y)
  | .sub, x, y => wrap32 (x - y)
  | .shl, x, y => wrap32 (x * 2 ^ y.toNat)
  | .shr, x, y => x / 2 ^ y.toNat
  | .lt, x, y => if x < y then 1 else 0
  | .le, x, y => if x ≤ y then 1 else 0
  | .gt, x, y => if x > y then 1 else 0
  | .ge, x, y => if x ≥ y then 1 else 0
  | .eq, x, y => if x = y then 1 else 0
  | .ne, x, y => if x ≠ y then 1 else 0
  | .band, x, y => wrap32 (Int.ofNat (toU32 x &&& toU32 y))
  | .bxor, x, y => wrap32 (Int.ofNat (toU32 x ^^^ toU32 y))
  | .bor, x, y => wrap32 (Int.ofNat (toU32 x ||| toU32 y))

/-- The value of a tree for the variable array `vars`. -/
def Expr.value (vars : Nat → Int) : Expr → Int
  | .lit digits => Int.ofNat (decimal digits)
  | .var v => vars v.slot
  | .un op e => op.value (e.value vars)
  | .bin op l r => op.value (l.value vars) (r.value vars)

/-- Every shift amount of the tree is in `0..31` and no division and no
modulo is `INT32_MIN` by `-1`. -/
def Expr.Defined (vars : Nat → Int) : Expr → Prop
  | .lit _ => True
  | .var _ => True
  | .un _ e => e.Defined vars
  | .bin op l r =>
    l.Defined vars ∧ r.Defined vars ∧
    ((op = .shl ∨ op = .shr) → 0 ≤ r.value vars ∧ r.value vars ≤ 31) ∧
    ((op = .div ∨ op = .mod) →
      ¬ (l.value vars = -2147483648 ∧ r.value vars = -1))

/-- Stack slots a tree needs: leaf 1, unary = operand, binary =
max(left, 1 + right). -/
def Expr.slots : Expr → Nat
  | .lit _ => 1
  | .var _ => 1
  | .un _ e => e.slots
  | .bin _ l r => max l.slots (1 + r.slots)

/-- Bytes of code of a tree: 5 for a literal, 2 for a variable, 1 for each
operator. -/
def Expr.code_size : Expr → Nat
  | .lit _ => 5
  | .var _ => 2
  | .un _ e => e.code_size + 1
  | .bin _ l r => l.code_size + r.code_size + 1

/-- Every entry of the variable array is an `int32_t`. -/
def Int32Array (vars : Nat → Int) : Prop :=
  ∀ i, -2147483648 ≤ vars i ∧ vars i < 2147483648

/-- Opcode of a unary operator. -/
def UnOp.opcode : UnOp → Nat
  | .neg => OP_NEGATE | .lnot => OP_BOOLEAN_NOT | .compl => OP_LOGICAL_NOT

/-- Opcode of a binary operator. -/
def BinOp.opcode : BinOp → Nat
  | .mul => OP_MULTIPLY | .div => OP_DIVIDE | .mod => OP_MODULO
  | .add => OP_PLUS | .sub => OP_MINUS
  | .shl => OP_LEFT_SHIFT | .shr => OP_RIGHT_SHIFT
  | .lt => OP_LESS_THAN | .le => OP_LESS_THAN_OR_EQUAL
  | .gt => OP_GREATER_THAN | .ge => OP_GREATER_THAN_OR_EQUAL
  | .eq => OP_EQUAL | .ne => OP_NOT_EQUAL
  | .band => OP_LOGICAL_AND | .bxor => OP_LOGICAL_XOR | .bor => OP_LOGICAL_OR

/-- The four bytes `emit_op` writes for the constant `v`, low byte first. -/
def constant_bytes (v : Int) : List Nat :=
  [toU32 v % 256, (toU32 v >>> 8) % 256, (toU32 v >>> 16) % 256,
   (toU32 v >>> 24) % 256]

/-- The postfix code of a tree: operands first, operator last. -/
def Expr.code : Expr → List Nat
  | .lit digits => OP_CONSTANT :: constant_bytes (Int.ofNat (decimal digits))
  | .var v => [OP_VAR, v.slot]
  | .un op e => e.code ++ [op.opcode]
  | .bin op l r => l.code ++ (r.code ++ [op.opcode])

/-! ## Definitions used by the proofs -/

/-- The C operation the interpreter runs for a binary operator; no result
where the operation is undefined (`c_div`, `c_mod`). -/
def BinOp.run : BinOp → Int → Int → Option Int
  | .div => c_div
  | .mod => c_mod
  | .mul => fun x y => some (c_mul x y)
  | .add => fun x y => some (c_add x y)
  | .sub => fun x y => some (c_sub x y)
  | .shl => fun x y => some (c_shl x y)
  | .shr => fun x y => some (c_shr x y)
  | .lt => fun x y => some (c_lt x y)
  | .le => fun x y => some (c_le x y)
  | .gt => fun x y => some (c_gt x y)
  | .ge => fun x y => some (c_ge x y)
  | .eq => fun x y => some (c_eq x y)
  | .ne => fun x y => some (c_ne x y)
  | .band => fun x y => some (c_and x y)
  | .bxor => fun x y => some (c_xor x y)
  | .bor => fun x y => some (c_or x y)

/-- The C operation the interpreter runs for a unary operator. -/
def UnOp.run : UnOp → Int → Int
  | .neg => c_neg | .lnot => c_not | .compl => c_compl

/-- A value is an `int32_t`. -/
def InRange (x : Int) : Prop := -2147483648 ≤ x ∧ x < 2147483648

/-- The memory `m1` is `m` with the value `v` pushed. -/
def Pushed (m m1 : Machine) (v : Int) : Prop :=
  m1.eval_stack_pointer = m.eval_stack_pointer + 1 ∧
  m1.eval_stack m.eval_stack_pointer = v ∧
  (∀ i, i < m.eval_stack_pointer → m1.eval_stack i = m.eval_stack i) ∧
  m1.vars = m.vars

/-- Bound on the tokens still to be read: 0 once the end of the text has been
read, otherwise one more than the number of characters left. -/
def tokens_left (s : PState) : Nat :=
  if s.current_token = 0 then 0 else s.exp_to_parse.length + 1

/-- The productions of the expression grammar as closure rules on a relation
`E` between the state before and the state after a parse function. -/
structure ExprRules (E : PState → PState → Prop) : Prop where
  var : ∀ s, s.current_token = 86 →
    E s (emit_op OP_VAR s.current_token_value (next_token s))
  const : ∀ s, s.current_token = 48 →
    E s (emit_op OP_CONSTANT s.current_token_value (next_token s))
  paren : ∀ s s1, s.current_token = 40 → E (next_token s) s1 →
    s1.current_token = 41 → E s (next_token s1)
  unclosed : ∀ s s1, s.current_token = 40 → E (next_token s) s1 →
    s1.current_token ≠ 41 → E s (parse_error s1)
  bad : ∀ s, s.current_token ≠ 86 → s.current_token ≠ 48 → s.current_token ≠ 40 →
    E s (parse_error s)
  plus : ∀ s s1, s.current_token = 43 → E (next_token s) s1 → E s s1
  unary : ∀ s s1 op, s.current_token ≠ 0 → 2 ≤ op → op ≤ 4 →
    E (next_token s) s1 → E s (emit_op op 0 s1)
  binary : ∀ s s1 s2 op, E s s1 → s1.current_token ≠ 0 → 5 ≤ op → op ≤ 20 →
    E (next_token s1) s2 → E s (emit_op op 0 s2)

/-- A parse function returns on every state with at most `n` tokens left, its
result is related to its argument by `E`, and it does not add tokens. -/
def Lvl (E : PState → PState → Prop) (n : Nat) (f : PState → Option PState) : Prop :=
  ∀ s, tokens_left s ≤ n →
    ∃ s1, f s = some s1 ∧ E s s1 ∧ tokens_left s1 ≤ tokens_left s

/-- An operator table gives opcodes of binary operators, and none for the end
of the text. -/
def OpsOK (ops : Nat → Option Nat) : Prop :=
  ∀ tok op, ops tok = some op → tok ≠ 0 ∧ 5 ≤ op ∧ op ≤ 20

/-- Closure rules for what every step of the parser preserves. -/
structure StepRules (R : PState → PState → Prop) : Prop where
  refl : ∀ s, R s s
  trans : ∀ a b c, R a b → R b c → R a c
  next : ∀ s, s.current_token ≠ 0 → R s (next_token s)
  emit : ∀ op arg s, R s (emit_op op arg s)
  error : ∀ s, R s (parse_error s)

/-- What every step preserves: the error flag once set and the recorded
location, the sum of the bytes written and the capacity left, and the bytes
already written. -/
def Steps (s s1 : PState) : Prop :=
  (s.got_parser_error = true →
    s1.got_parser_error = true ∧ s1.parser_error_location = s.parser_error_location) ∧
  s1.written.length + s1.compile_remain_loc = s.written.length + s.compile_remain_loc ∧
  (∃ l, s1.written = s.written ++ l)

/-- What parsing an expression achieves: it raises the error flag or writes at
least one byte. -/
def Emits (s s1 : PState) : Prop :=
  Steps s s1 ∧ (s1.got_parser_error = false → s.written.length < s1.written.length)

/-- The text does not go on with a digit. -/
def NoDigit (rest : List Nat) : Prop := ¬ (48 ≤ rest.headD 0 ∧ rest.headD 0 ≤ 57)

/-- One-character tokens that are no prefix of a longer one. -/
def plain_char (c : Nat) : Bool :=
  [43, 45, 58, 59, 124, 94, 38, 42, 47, 37, 126, 40, 41].contains c

/-- The accumulation of `scan_number`. -/
def accumulate (v : Nat) (digits : List Nat) : Nat :=
  digits.foldl (fun v d => (v * 10 + d) % 4294967296) v

/-- Token of a binary operator. -/
def BinOp.token : BinOp → Nat
  | .mul => 42 | .div => 47 | .mod => 37 | .add => 43 | .sub => 45
  | .shl => 76 | .shr => 82
  | .lt => 60 | .le => 85 | .gt => 62 | .ge => 71
  | .eq => 61 | .ne => 35
  | .band => 38 | .bxor => 94 | .bor => 124

/-- Token of a unary operator. -/
def UnOp.token : UnOp → Nat
  | .neg => 45 | .lnot => 33 | .compl => 126

/-- The text ends here or goes on with a closing parenthesis. -/
def Closes (rest : List Nat) : Prop := rest = [] ∨ ∃ r, rest = 41 :: r

/-- A stack of binary levels over a base parse function, loosest level first:
each level is its operator table and whether it loops. -/
def levels (base : PState → Option PState) (k : Nat) :
    List ((Nat → Option Nat) × Bool) → PState → Option PState
  | [] => base
  | (ops, loop) :: tl => fun s =>
    (levels base k tl s).bind
      (match loop with
       | true => while_binary ops (levels base k tl) k
       | false => if_binary ops (levels base k tl))

/-- The levels of `parse_exp6` down to `parse_exp13`. -/
def binary_levels : List ((Nat → Option Nat) × Bool) :=
  [(ops6, true), (ops7, true), (ops8, true), (ops9, false), (ops10, false),
   (ops11, false), (ops12, true), (ops13, true)]

/-- The state `s1` is `s` with the text consumed up to `rest` and `code`
written, without error. -/
def After (s s1 : PState) (rest code : List Nat) : Prop :=
  s1.exp_to_parse = rest ∧ s1.written = s.written ++ code ∧
  s1.compile_remain_loc + code.length = s.compile_remain_loc ∧
  s1.got_parser_error = false

/-- The bytes `emit_op(op, arg)` writes when the buffer has room for them: the
opcode, then one operand byte for `OP_VAR` and `OP_ASSIGN`, four for
`OP_CONSTANT`. -/
def instr_bytes (op : Nat) (arg : Int) : List Nat :=
  if op = OP_VAR ∨ op = OP_ASSIGN then [op, toU32 arg % 256]
  else if op = OP_CONSTANT then op :: constant_bytes arg
  else [op]

/-- Byte code of an expression, in postfix order: a constant, a variable, the
code of an operand followed by a unary opcode, or the codes of two operands
followed by a binary opcode. -/
inductive ExprCode : List Nat → Prop
  | constant (v : Int) : ExprCode (OP_CONSTANT :: constant_bytes v)
  | var (i : Nat) : i ≤ 3 → ExprCode [OP_VAR, i]
  | unary (op : Nat) (c : List Nat) : 2 ≤ op → op ≤ 4 → ExprCode c → ExprCode (c ++ [op])
  | binary (op : Nat) (l r : List Nat) : 5 ≤ op → op ≤ 20 → ExprCode l → ExprCode r →
      ExprCode (l ++ (r ++ [op]))

/-- Byte code of a sequence of assignment statements: for each statement the
code of its expression followed by `OP_ASSIGN` and the variable's slot. -/
inductive AssignCode : List Nat → Prop
  | nil : AssignCode []
  | snoc (pre c : List Nat) (i : Nat) : i ≤ 3 → AssignCode pre → ExprCode c →
      AssignCode (pre ++ (c ++ [OP_ASSIGN, i]))

/-- When the current token is a variable, its value is one of the slots 0..3. -/
def TokenOK (s : PState) : Prop :=
  s.current_token = 86 → 0 ≤ s.current_token_value ∧ s.current_token_value ≤ 3

/-- What parsing an expression achieves: unless the error flag is set at the
end, the bytes written are the code of an expression. -/
def GenExpr (s s1 : PState) : Prop :=
  TokenOK s → TokenOK s1 ∧ Steps s s1 ∧
    (s1.got_parser_error = false → ∃ c, ExprCode c ∧ s1.written = s.written ++ c)

/-- What the loop over the assignment statements achieves: unless the error
flag is set at the end, the bytes written are the code of assignments. -/
def GenAssign (s s1 : PState) : Prop :=
  TokenOK s → TokenOK s1 ∧ Steps s s1 ∧
    (s1.got_parser_error = false → ∃ c, AssignCode c ∧ s1.written = s.written ++ c)

/-- The paths through one turn of the loop of `parse_exp0` as closure rules on
a relation `L` between the state at the start of the loop and the state after
some turns; `E` relates the states around `parse_exp6`. -/
structure AssignRules (L E : PState → PState → Prop) : Prop where
  refl : ∀ s, L s s
  assign : ∀ s0 s s3, L s0 s → s.current_token = 58 → (next_token s).current_token = 86 →
    (next_token (next_token s)).current_token = 65 →
    E (next_token (next_token (next_token s))) s3 → s3.current_token = 59 →
    L s0 (emit_op OP_ASSIGN (Int.ofNat (toU32 (next_token s).current_token_value % 256))
      (next_token s3))
  no_var : ∀ s0 s, L s0 s → s.current_token = 58 → (next_token s).current_token ≠ 86 →
    L s0 (parse_error (next_token s))
  no_equals : ∀ s0 s, L s0 s → s.current_token = 58 → (next_token s).current_token = 86 →
    (next_token (next_token s)).current_token ≠ 65 →
    L s0 (parse_error (next_token (next_token s)))
  no_semicolon : ∀ s0 s s3, L s0 s → s.current_token = 58 →
    (next_token s).current_token = 86 → (next_token (next_token s)).current_token = 65 →
    E (next_token (next_token (next_token s))) s3 → s3.current_token ≠ 59 →
    L s0 (parse_error s3)

/-- The operand bytes that follow an opcode in the stream: four after
`OP_CONSTANT`, one after `OP_VAR` and `OP_ASSIGN`, none after the others. -/
def operand_count (op : Nat) : Nat :=
  if op = OP_CONSTANT then 4 else if op = OP_VAR ∨ op = OP_ASSIGN then 1 else 0

/-- A stream that decodes as a sequence of complete instructions: every opcode
is one of the 22 defined ones and has all its operand bytes, and the operand
of `OP_VAR` and of `OP_ASSIGN` is a slot in 0..3. -/
def well_formed : List Nat → Bool
  | [] => true
  | op :: rest =>
    if op = OP_CONSTANT then
      match rest with
      | _ :: _ :: _ :: _ :: rest4 => well_formed rest4
      | _ => false
    else if op = OP_VAR ∨ op = OP_ASSIGN then
      match rest with
      | i :: rest1 => decide (i ≤ 3) && well_formed rest1
      | _ => false
    else decide (op ≤ 21) && well_formed rest

/-- The turn of the interpreter loop at `pc` stays inside the first
`compiled_len` bytes and inside the variable array: the opcode is a defined
one, its operand bytes are below `compiled_len`, and the operand of `OP_VAR`
and of `OP_ASSIGN`, which indexes `vars`, is in 0..3. -/
def turn_in_bounds (compiled_exp : List Nat) (compiled_len pc : Nat) : Prop :=
  byte_at compiled_exp pc ≤ 21 ∧
  (byte_at compiled_exp pc = OP_CONSTANT → pc + 4 < compiled_len) ∧
  (byte_at compiled_exp pc = OP_VAR ∨ byte_at compiled_exp pc = OP_ASSIGN →
    pc + 1 < compiled_len ∧ byte_at compiled_exp (pc + 1) ≤ 3)

/-- The program counter is at the start of an instruction of a well-formed
stream. -/
def AtInstr (compiled_exp : List Nat) (pc : Nat) : Prop :=
  ∃ pre suffix, compiled_exp = pre ++ suffix ∧ pre.length = pc ∧ well_formed suffix = true

/-- Stack depth after the instructions of a stream, on an unbounded stack and
starting from depth `d`: `OP_CONSTANT` and `OP_VAR` push one value, a unary
opcode pops one and pushes one, a binary opcode pops two and pushes one,
`OP_ASSIGN` pops one. The result is `none` when an instruction would pop more
values than are present, when an instruction lacks operand bytes or when an
opcode is not a defined one. -/
def stack_depth : List Nat → Nat → Option Nat
  | [], d => some d
  | op :: rest, d =>
    if op = OP_CONSTANT then
      match rest with
      | _ :: _ :: _ :: _ :: rest4 => stack_depth rest4 (d + 1)
      | _ => none
    else if op = OP_VAR then
      match rest with
      | _ :: rest1 => stack_depth rest1 (d + 1)
      | _ => none
    else if op = OP_ASSIGN then
      match rest with
      | _ :: rest1 => if 1 ≤ d then stack_depth rest1 (d - 1) else none
      | _ => none
    else if OP_NEGATE ≤ op ∧ op ≤ OP_LOGICAL_NOT then
      if 1 ≤ d then stack_depth rest d else none
    else if OP_MULTIPLY ≤ op ∧ op ≤ OP_LOGICAL_OR then
      if 2 ≤ d then stack_depth rest (d - 1) else none
    else none

/-- Two memories that an evaluation cannot tell apart: same stack pointer,
same variable array (content and size), and the same content in every stack
slot a pop can read (the slots below the pointer, and slot 0). -/
def SameRun (m m' : Machine) : Prop :=
  m.eval_stack_pointer = m'.eval_stack_pointer ∧
  (m.vars = m'.vars ∧ m.vars_extra = m'.vars_extra) ∧
  ∀ i, i < max m.eval_stack_pointer 1 → m.eval_stack i = m'.eval_stack i

/-- Two runs of the interpreter loop that went the same way: the behaviour of
both is undefined, or both stand at the same program counter with memories
that an evaluation cannot tell apart. -/
def SameOutcome (a b : Option (Nat × Machine)) : Prop :=
  (a = none ∧ b = none) ∨
  ∃ st st', a = some st ∧ b = some st' ∧ st.1 = st'.1 ∧ SameRun st.2 st'.2

/-- The parse function that handles a binary operator, by its number:
`parse_exp13` for `* / %`, `parse_exp12` for `+ -`, `parse_exp11` for
`<< >>`, `parse_exp10` for `< <= > >=`, `parse_exp9` for `== !=`,
`parse_exp8` for `&`, `parse_exp7` for `^`, `parse_exp6` for `|`. -/
def BinOp.level : BinOp → Nat
  | .mul => 13 | .div => 13 | .mod => 13
  | .add => 12 | .sub => 12
  | .shl => 11 | .shr => 11
  | .lt => 10 | .le => 10 | .gt => 10 | .ge => 10
  | .eq => 9 | .ne => 9
  | .band => 8 | .bxor => 7 | .bor => 6

/-- The text `a op1 b op2 c`. -/
def chain_text (op1 op2 : BinOp) : List Nat :=
  [97, 32] ++ (op1.text ++ ([32, 98, 32] ++ (op2.text ++ [32, 99])))

/-- The pairs of operators of one level among the shifts, the relational
operators and the equality operators. -/
def chain_pairs : List (BinOp × BinOp) :=
  [(.shl, .shl), (.shl, .shr), (.shr, .shl), (.shr, .shr),
   (.lt, .lt), (.lt, .le), (.lt, .gt), (.lt, .ge),
   (.le, .lt), (.le, .le), (.le, .gt), (.le, .ge),
   (.gt, .lt), (.gt, .le), (.gt, .gt), (.gt, .ge),
   (.ge, .lt), (.ge, .le), (.ge, .gt), (.ge, .ge),
   (.eq, .eq), (.eq, .ne), (.ne, .eq), (.ne, .ne)]

/-- What stays as it is from a state `s` in which the error flag is set to a
later state `s1`: the flag, the recorded error location, the bytes already
written (more may follow them), and the sum of the bytes written and the
capacity left. -/
def ErrorKept (s s1 : PState) : Prop :=
  s1.got_parser_error = true ∧ s1.parser_error_location = s.parser_error_location ∧
  (∃ l, s1.written = s.written ++ l) ∧
  s1.written.length + s1.compile_remain_loc = s.written.length + s.compile_remain_loc

/-- The operands `(arg1, arg2)` that the turn of the interpreter loop at `pc`
pops and hands to `arg1 / arg2` or `arg1 % arg2`, when the opcode at `pc` is
`OP_DIVIDE` or `OP_MODULO`. -/
def division_operands (compiled_exp : List Nat) (pc : Nat) (m : Machine) :
    Option (Int × Int) :=
  if byte_at compiled_exp pc = OP_DIVIDE ∨ byte_at compiled_exp pc = OP_MODULO then
    let r2 := stack_pop m
    let r1 := stack_pop r2.2
    some (r1.1, r2.1)
  else none

/-- The stream of 21 `OP_CONSTANT 1` followed by 20 `OP_PLUS`. -/
def nested_sum_code : List Nat :=
  (List.replicate 21 [OP_CONSTANT, 1, 0, 0, 0]).flatten ++ List.replicate 20 OP_PLUS

/-- The right-nested sum of `n + 2` ones as a tree: `1+(1+(...(1+1)...))`. -/
def nested_sum_tree : Nat → Expr
  | 0 => .bin .add (.lit [1]) (.lit [1])
  | n + 1 => .bin .add (.lit [1]) (nested_sum_tree n)

/-- The right-nested sum of `n + 2` ones as text. -/
def nested_sum_text : Nat → List Nat
  | 0 => [49, 43, 49]
  | n + 1 => 49 :: 43 :: 40 :: (nested_sum_text n ++ [41])

/-- Where the text pointer and the recorded error location can be during a
compilation of the text `exp`, from the first `next_token` on: the pointer is
inside the text or, once the end-of-input token is read, at most one position
past the terminator; it has moved by at least one position; a recorded error
location is between 1 and the length plus 1; and when the text holds no NUL
(it is a C string of that length), end of input is read exactly at the
terminator. -/
def CursorInv (exp : List Nat) (s : PState) : Prop :=
  s.exp_to_parse <:+ exp ∧ 1 ≤ s.exp_offset ∧
  s.exp_offset + s.exp_to_parse.length ≤
    exp.length + (if s.current_token = 0 then 1 else 0) ∧
  (s.got_parser_error = true →
    1 ≤ s.parser_error_location ∧ s.parser_error_location ≤ exp.length + 1) ∧
  ((∀ c ∈ exp, c ≠ 0) →
    (s.current_token = 0 → s.exp_offset = exp.length + 1) ∧
    (s.current_token ≠ 0 → s.exp_offset + s.exp_to_parse.length = exp.length))

/-- A parse action keeps the cursor invariant. -/
def KeepsCursor (exp : List Nat) (s s1 : PState) : Prop :=
  CursorInv exp s → CursorInv exp s1

/-- Two compiler states that have read the same text the same way: same text
pointer, same current token and token value. -/
def SameParse (a b : PState) : Prop :=
  a.exp_to_parse = b.exp_to_parse ∧ a.exp_offset = b.exp_offset ∧
  a.current_token = b.current_token ∧ a.current_token_value = b.current_token_value

/-- The states of two compilations of one text, `b` with a buffer of `M`
bytes: they have read the text the same way; as long as neither has an error
they have written the same bytes; and `b` has no error as long as `a` has none
and what `a` has written fits in `M` bytes. -/
def CapSim (M : Nat) (a b : PState) : Prop :=
  SameParse a b ∧ b.written.length + b.compile_remain_loc = M ∧
  (a.got_parser_error = false → b.got_parser_error = false → b.written = a.written) ∧
  (a.got_parser_error = false → a.written.length ≤ M → b.got_parser_error = false)

/-- A parse function acts the same way on the two compilations. -/
def Resp (M : Nat) (f : PState → Option PState) : Prop :=
  ∀ a b a1, CapSim M a b → f a = some a1 → ∃ b1, f b = some b1 ∧ CapSim M a1 b1

/-! ## Theorems -/

theorem wrap32_of_range (x : Int) (h : InRange x) : wrap32 x = x := by
  unfold InRange at h; unfold wrap32; omega

theorem wrap32_range (x : Int) : InRange (wrap32 x) := by
  unfold wrap32 InRange; omega

theorem wrap32_toU32 (x : Int) : wrap32 (Int.ofNat (toU32 x)) = wrap32 x := by
  unfold wrap32 toU32
  have : ((x % 4294967296).toNat : Int) = x % 4294967296 := Int.toNat_of_nonneg (by omega)
  simp only [Int.ofNat_eq_coe, this]
  omega

theorem toU32_lt (x : Int) : toU32 x < 4294967296 := by
  unfold toU32; omega

theorem or_shift_eq_add (a b i : Nat) (h : b < 2 ^ i) : b ||| a <<< i = 2 ^ i * a + b := by
  rw [Nat.mul_add_lt_is_or h, Nat.or_comm, Nat.shiftLeft_eq, Nat.mul_comm]

theorem u32_bytes (u : Nat) (h : u < 4294967296) :
    (u % 256 ||| ((u >>> 8) % 256) <<< 8 ||| ((u >>> 16) % 256) <<< 16 |||
      ((u >>> 24) % 256) <<< 24) = u := by
  rw [or_shift_eq_add (u >>> 8 % 256) (u % 256) 8 (by omega)]
  rw [or_shift_eq_add (u >>> 16 % 256) _ 16 (by simp only [Nat.shiftRight_eq_div_pow]; omega)]
  rw [or_shift_eq_add (u >>> 24 % 256) _ 24 (by simp only [Nat.shiftRight_eq_div_pow]; omega)]
  simp only [Nat.shiftRight_eq_div_pow]
  omega

theorem tdiv_range (x y : Int) (hx : InRange x) (hy : y ≠ 0)
    (h : ¬ (x = -2147483648 ∧ y = -1)) : InRange (Int.tdiv x y) := by
  unfold InRange at *
  have h1 : (Int.tdiv x y).natAbs = x.natAbs / y.natAbs := Int.natAbs_tdiv x y
  have h2 : x.natAbs / y.natAbs ≤ x.natAbs := Nat.div_le_self _ _
  by_cases hy1 : y.natAbs = 1
  · rcases Int.natAbs_eq y with e | e
    · rw [hy1] at e; subst e; simp; omega
    · rw [hy1] at e; subst e
      have : x ≠ -2147483648 := fun hh => h ⟨hh, rfl⟩
      simp; omega
  · have h3 : x.natAbs / y.natAbs ≤ x.natAbs / 2 := by
      apply Nat.div_le_div_left (by omega) (by omega)
    omega

theorem natAbs_tmod_le (x y : Int) : (Int.tmod x y).natAbs ≤ x.natAbs := by
  cases x <;> cases y <;> simp only [Int.tmod, Int.natAbs_neg, Int.natAbs_ofNat, Int.ofNat_eq_coe,
    Int.natAbs_negSucc, Nat.succ_eq_add_one] <;> exact Nat.mod_le _ _

theorem tmod_nonpos (x y : Int) (hx : x < 0) : Int.tmod x y ≤ 0 := by
  cases x with
  | ofNat m => simp at hx; omega
  | negSucc m =>
    cases y <;> simp only [Int.tmod, Int.ofNat_eq_coe, Nat.succ_eq_add_one] <;> omega

theorem tmod_range (x y : Int) (hx : InRange x) : InRange (Int.tmod x y) := by
  have h2 := natAbs_tmod_le x y
  by_cases hx0 : 0 ≤ x
  · have := @Int.tmod_nonneg x y hx0
    unfold InRange at *
    omega
  · have := tmod_nonpos x y (by omega)
    unfold InRange at *
    omega

theorem shr_range (x : Int) (k : Nat) (hx : InRange x) : InRange (x / 2 ^ k) := by
  unfold InRange at *
  have hp : (0 : Int) < 2 ^ k := by positivity
  constructor
  · rw [Int.le_ediv_iff_mul_le hp]
    have : (1 : Int) ≤ 2 ^ k := hp
    nlinarith
  · rw [Int.ediv_lt_iff_lt_mul hp]
    have : (1 : Int) ≤ 2 ^ k := hp
    nlinarith

theorem unop_agree (op : UnOp) (x : Int) (hx : InRange x) : op.run x = op.value x := by
  cases op
  · rfl
  · rfl
  · simp only [UnOp.run, UnOp.value, c_compl]
    unfold InRange at hx
    unfold wrap32 toU32
    simp only [Int.ofNat_eq_coe]
    omega

theorem binop_agree (op : BinOp) (x y : Int) (hx : InRange x)
    (hs : (op = .shl ∨ op = .shr) → 0 ≤ y ∧ y ≤ 31)
    (hd : (op = .div ∨ op = .mod) → ¬ (x = -2147483648 ∧ y = -1)) :
    op.run x y = some (op.value x y) := by
  cases op
  case div =>
    have hd1 := hd (Or.inl rfl)
    simp only [BinOp.run, BinOp.value, c_div]
    by_cases h : y = 0
    · rw [if_pos h, if_pos h]
    · rw [if_neg h, if_neg h, if_neg hd1, wrap32_of_range _ (tdiv_range x y hx h hd1)]
  case mod =>
    have hd1 := hd (Or.inr rfl)
    simp only [BinOp.run, BinOp.value, c_mod]
    by_cases h : y = 0
    · rw [if_pos h, if_pos h]
    · rw [if_neg h, if_neg h, if_neg hd1, wrap32_of_range _ (tmod_range x y hx)]
  case shl =>
    have := hs (Or.inl rfl)
    simp only [BinOp.run, BinOp.value, c_shl]
    rw [if_pos (by omega)]
  case shr =>
    have := hs (Or.inr rfl)
    simp only [BinOp.run, BinOp.value, c_shr]
    rw [if_pos (by omega), Int.shiftRight_eq_div_pow]
    norm_cast
  all_goals rfl

theorem unop_range (op : UnOp) (x : Int) (hx : InRange x) : InRange (op.value x) := by
  cases op
  · exact wrap32_range _
  · simp only [UnOp.value]; split_ifs <;> simp [InRange]
  · simp only [UnOp.value]; unfold InRange at *; omega

theorem binop_range (op : BinOp) (x y : Int) (hx : InRange x)
    (hd : (op = .div ∨ op = .mod) → ¬ (x = -2147483648 ∧ y = -1)) :
    InRange (op.value x y) := by
  cases op
  case div =>
    simp only [BinOp.value]
    split_ifs with h
    · simp [InRange]
    · exact tdiv_range x y hx h (hd (Or.inl rfl))
  case mod =>
    simp only [BinOp.value]
    split_ifs with h
    · simp [InRange]
    · exact tmod_range x y hx
  case shr => exact shr_range x _ hx
  case mul => exact wrap32_range _
  case add => exact wrap32_range _
  case sub => exact wrap32_range _
  case shl => exact wrap32_range _
  case band => exact wrap32_range _
  case bxor => exact wrap32_range _
  case bor => exact wrap32_range _
  all_goals (simp only [BinOp.value]; split_ifs <;> simp [InRange])

theorem value_range (vars : Nat → Int) (hv : Int32Array vars) (e : Expr)
    (hl : e.Literals) (hd : e.Defined vars) : InRange (e.value vars) := by
  induction e with
  | lit ds =>
    have := hl.2.2
    simp only [Expr.value, InRange, Int.ofNat_eq_coe]
    omega
  | var v => exact hv _
  | un op e ih => exact unop_range op _ (ih hl hd)
  | bin op l r ihl ihr =>
    exact binop_range op _ _ (ihl hl.1 hd.1) hd.2.2.2

theorem pushed_push (m : Machine) (v : Int) (h : m.eval_stack_pointer < 20) :
    Pushed m (stack_push v m) v := by
  unfold Pushed stack_push STACK_SIZE
  rw [if_pos h]
  refine ⟨rfl, by simp [store], ?_, rfl⟩
  intro i hi
  simp only [store]
  rw [if_neg (by omega)]

theorem pushed_unary (f : Int → Int) (m m1 : Machine) (x : Int) (h : Pushed m m1 x)
    (hsp : m.eval_stack_pointer < 20) : Pushed m (exec_unary f m1) (f x) := by
  obtain ⟨h1, h2, h3, h4⟩ := h
  unfold Pushed exec_unary stack_push stack_pop STACK_SIZE
  simp only [h1, gt_iff_lt, Nat.zero_lt_succ, ↓reduceIte, Nat.add_sub_cancel, hsp, store, h2,
    true_and, h4, and_true]
  intro i hi
  rw [if_neg (by omega)]
  exact h3 i hi

theorem pushed_binary (f : Int → Int → Int) (m m1 m2 : Machine) (x y : Int)
    (hx : Pushed m m1 x) (hy : Pushed m1 m2 y) (hsp : m.eval_stack_pointer < 20) :
    Pushed m (exec_binary f m2) (f x y) := by
  obtain ⟨h1, h2, h3, h4⟩ := hx
  obtain ⟨k1, k2, k3, k4⟩ := hy
  have e1 : m2.eval_stack m.eval_stack_pointer = x := by
    rw [k3 _ (by omega)]; exact h2
  have e2 : m2.eval_stack (m.eval_stack_pointer + 1) = y := by
    rw [← h1]; exact k2
  unfold Pushed exec_binary stack_push stack_pop STACK_SIZE
  simp only [k1, h1, gt_iff_lt, Nat.zero_lt_succ, ↓reduceIte, Nat.add_sub_cancel, hsp, store,
    e1, e2, true_and, k4, h4, and_true]
  intro i hi
  rw [if_neg (by omega), k3 i (by omega)]
  exact h3 i hi

theorem exec_division_total (f : Int → Int → Int) (m : Machine) :
    exec_division (fun x y => some (f x y)) m = some (exec_binary f m) := rfl

theorem exec_division_some (f : Int → Int → Option Int) (m : Machine) (v : Int)
    (h : f (stack_pop (stack_pop m).2).1 (stack_pop m).1 = some v) :
    exec_division f m = some (exec_binary (fun _ _ => v) m) := by
  unfold exec_division exec_binary
  simp only [h, Option.map_some']

theorem pushed_division (f : Int → Int → Option Int) (m m1 m2 : Machine) (x y v : Int)
    (hx : Pushed m m1 x) (hy : Pushed m1 m2 y) (hsp : m.eval_stack_pointer < 20)
    (hf : f x y = some v) :
    ∃ m3, exec_division f m2 = some m3 ∧ Pushed m m3 v := by
  have e1 : m2.eval_stack m.eval_stack_pointer = x := by
    rw [hy.2.2.1 _ (by have := hx.1; omega)]; exact hx.2.1
  have e2 : m2.eval_stack (m.eval_stack_pointer + 1) = y := by
    rw [← hx.1]; exact hy.2.1
  have p2 : (stack_pop m2).1 = y := by
    unfold stack_pop
    simp only [hy.1, hx.1, gt_iff_lt, Nat.zero_lt_succ, ↓reduceIte, Nat.add_sub_cancel, e2]
  have p1 : (stack_pop (stack_pop m2).2).1 = x := by
    unfold stack_pop
    simp only [hy.1, hx.1, gt_iff_lt, Nat.zero_lt_succ, ↓reduceIte, Nat.add_sub_cancel, e1]
  refine ⟨_, exec_division_some f m2 v (by rw [p1, p2]; exact hf), ?_⟩
  exact pushed_binary (fun _ _ => v) m m1 m2 x y hx hy hsp

theorem byte_at_append (pre l : List Nat) (i : Nat) :
    byte_at (pre ++ l) (pre.length + i) = byte_at l i := by
  unfold byte_at
  simp [List.getD_eq_getElem?_getD, List.getElem?_append_right]

theorem byte_at_append_zero (pre l : List Nat) :
    byte_at (pre ++ l) pre.length = byte_at l 0 := by
  have := byte_at_append pre l 0
  simpa using this

theorem eval_steps_done (code : List Nat) (len n : Nat) (st : Nat × Machine)
    (h : ¬ st.1 < len) : eval_steps code len n st = some st := by
  cases n with
  | zero => rfl
  | succ n => simp only [eval_steps, if_neg h]

theorem eval_steps_add (code : List Nat) (len a b : Nat) (st : Nat × Machine) :
    eval_steps code len (a + b) st =
      (eval_steps code len a st).bind (eval_steps code len b) := by
  induction a generalizing st with
  | zero => simp [eval_steps]
  | succ a ih =>
    rw [Nat.add_right_comm]
    by_cases h : st.1 < len
    · simp only [eval_steps, if_pos h]
      cases hop : exec_op code st.1 st.2 with
      | none => rfl
      | some st1 => exact ih st1
    · simp only [eval_steps, if_neg h, Option.some_bind]
      rw [eval_steps_done _ _ _ _ h]

theorem eval_steps_one (code : List Nat) (len : Nat) (pc : Nat) (m : Machine)
    (h : pc < len) : eval_steps code len 1 (pc, m) = exec_op code pc m := by
  simp only [eval_steps, if_pos h]
  cases exec_op code pc m <;> rfl

theorem eval_steps_succ (code : List Nat) (len n : Nat) (st : Nat × Machine) :
    eval_steps code len (n + 1) st =
      (eval_steps code len n st).bind (eval_steps code len 1) :=
  eval_steps_add code len n 1 st

/-- The run that reaches `st1` in `a` turns and goes on from there. -/
theorem eval_steps_trans (code : List Nat) (len a b : Nat) (st st1 : Nat × Machine)
    (h : eval_steps code len a st = some st1) :
    eval_steps code len (a + b) st = eval_steps code len b st1 := by
  rw [eval_steps_add, h, Option.some_bind]

theorem code_length (e : Expr) : e.code.length = e.code_size := by
  induction e with
  | lit ds => simp [Expr.code, Expr.code_size, constant_bytes]
  | var v => simp [Expr.code, Expr.code_size]
  | un op e ih => simp [Expr.code, Expr.code_size, ih]
  | bin op l r ihl ihr => simp [Expr.code, Expr.code_size, ihl, ihr]; omega

theorem exec_op_constant (pre post : List Nat) (v : Int) (m : Machine)
    (h : pre.length + 5 ≤ 65535) :
    exec_op (pre ++ (OP_CONSTANT :: constant_bytes v ++ post)) pre.length m =
      some (pre.length + 5, stack_push (wrap32 v) m) := by
  have hb : ∀ i, byte_at (pre ++ (OP_CONSTANT :: constant_bytes v ++ post)) (pre.length + i) =
      byte_at (OP_CONSTANT :: constant_bytes v ++ post) i := fun i => byte_at_append _ _ i
  have e0 : (pre.length + 1) % 65536 = pre.length + 1 := Nat.mod_eq_of_lt (by omega)
  have e1 : (pre.length + 1 + 4) % 65536 = pre.length + 5 := Nat.mod_eq_of_lt (by omega)
  unfold exec_op
  simp only [byte_at_append_zero, e0, e1, Nat.add_assoc, hb]
  simp only [byte_at, OP_CONSTANT, constant_bytes, List.cons_append, List.getD_cons_zero,
    List.getD_cons_succ, Nat.reduceAdd, List.nil_append]
  rw [u32_bytes _ (toU32_lt v), wrap32_toU32]

theorem exec_op_var (pre post : List Nat) (i : Nat) (m : Machine)
    (h : pre.length + 2 ≤ 65535) (hi : i < m.vars_size) :
    exec_op (pre ++ (OP_VAR :: i :: post)) pre.length m =
      some (pre.length + 2, stack_push (m.vars i) m) := by
  have hb : ∀ i', byte_at (pre ++ (OP_VAR :: i :: post)) (pre.length + i') =
      byte_at (OP_VAR :: i :: post) i' := fun i => byte_at_append _ _ i
  have e0 : (pre.length + 1) % 65536 = pre.length + 1 := Nat.mod_eq_of_lt (by omega)
  have e1 : (pre.length + 1 + 1) % 65536 = pre.length + 2 := Nat.mod_eq_of_lt (by omega)
  unfold exec_op
  simp only [byte_at_append_zero, e0, e1, hb]
  simp only [byte_at, OP_VAR, List.getD_cons_zero, List.getD_cons_succ, hi, if_true]

theorem slot_lt_vars_size (v : Var) (m : Machine) : v.slot < m.vars_size := by
  unfold Machine.vars_size MAX_VAR
  cases v <;> simp [Var.slot] <;> omega

theorem exec_op_unary (pre post : List Nat) (op : UnOp) (m : Machine)
    (h : pre.length + 1 ≤ 65535) :
    exec_op (pre ++ (op.opcode :: post)) pre.length m =
      some (pre.length + 1, exec_unary op.run m) := by
  have e0 : (pre.length + 1) % 65536 = pre.length + 1 := Nat.mod_eq_of_lt (by omega)
  unfold exec_op
  simp only [byte_at_append_zero, e0]
  cases op <;> rfl

theorem exec_op_binary (pre post : List Nat) (op : BinOp) (m : Machine)
    (h : pre.length + 1 ≤ 65535) :
    exec_op (pre ++ (op.opcode :: post)) pre.length m =
      (exec_division op.run m).map (fun m1 => (pre.length + 1, m1)) := by
  have e0 : (pre.length + 1) % 65536 = pre.length + 1 := Nat.mod_eq_of_lt (by omega)
  unfold exec_op
  simp only [byte_at_append_zero, e0]
  cases op <;> rfl

theorem run_code (e : Expr) : ∀ (pre post : List Nat) (len : Nat) (m : Machine),
    e.Literals → Int32Array m.vars → e.Defined m.vars →
    m.eval_stack_pointer + e.slots ≤ 20 →
    pre.length + e.code.length ≤ len → len ≤ 65535 →
    ∃ k m1, k ≤ e.code.length ∧
      eval_steps (pre ++ (e.code ++ post)) len k (pre.length, m) =
        some (pre.length + e.code.length, m1) ∧
      Pushed m m1 (e.value m.vars) := by
  induction e with
  | lit ds =>
    intro pre post len m hl hv hd hs hlen h16
    refine ⟨1, stack_push (Int.ofNat (decimal ds)) m, ?_, ?_, ?_⟩
    · simp [Expr.code, constant_bytes]
    · have hlen5 : pre.length + 5 ≤ len := by
        simpa [Expr.code, constant_bytes] using hlen
      rw [eval_steps_one _ _ _ _ (by omega)]
      simp only [Expr.code]
      rw [exec_op_constant _ _ _ _ (by omega)]
      have : wrap32 (Int.ofNat (decimal ds)) = Int.ofNat (decimal ds) := by
        apply wrap32_of_range
        have := hl.2.2
        simp only [InRange, Int.ofNat_eq_coe]
        omega
      simp only [Int.ofNat_eq_coe] at this
      simp [this, constant_bytes]
    · apply pushed_push
      simp only [Expr.slots] at hs
      omega
  | var v =>
    intro pre post len m hl hv hd hs hlen h16
    refine ⟨1, stack_push (m.vars v.slot) m, ?_, ?_, ?_⟩
    · simp [Expr.code]
    · have hlen2 : pre.length + 2 ≤ len := by simpa [Expr.code] using hlen
      rw [eval_steps_one _ _ _ _ (by omega)]
      simp only [Expr.code, List.cons_append, List.nil_append]
      rw [exec_op_var _ _ _ _ (by omega) (slot_lt_vars_size v m)]
      simp
    · apply pushed_push
      simp only [Expr.slots] at hs
      omega
  | un op e ih =>
    intro pre post len m hl hv hd hs hlen h16
    have hlen1 : pre.length + e.code.length + 1 ≤ len := by
      simpa [Expr.code, Nat.add_assoc] using hlen
    obtain ⟨k, m1, hk, hrun, hp⟩ := ih pre (op.opcode :: post) len m hl hv hd hs (by omega) h16
    refine ⟨k + 1, exec_unary op.run m1, ?_, ?_, ?_⟩
    · simp [Expr.code]; omega
    · simp only [Expr.code, List.append_assoc, List.singleton_append]
      rw [eval_steps_trans _ _ _ _ _ _ hrun, eval_steps_one _ _ _ _ (by omega)]
      have := exec_op_unary (pre ++ e.code) post op m1 (by simp; omega)
      simp only [List.append_assoc, List.length_append] at this
      rw [this]
      simp [Nat.add_assoc]
    · have hr := value_range m.vars hv e hl hd
      simp only [Expr.value]
      rw [← unop_agree op _ hr]
      apply pushed_unary _ _ _ _ hp
      have : 1 ≤ e.slots := by
        clear ih hl hd hs hlen hlen1 hk hrun hp hr
        induction e <;> simp [Expr.slots] <;> omega
      simp only [Expr.slots] at hs
      omega
  | bin op l r ihl ihr =>
    intro pre post len m hl hv hd hs hlen h16
    have hlen1 : pre.length + l.code.length + r.code.length + 1 ≤ len := by
      simpa [Expr.code, Nat.add_assoc] using hlen
    simp only [Expr.slots] at hs
    obtain ⟨k1, m1, hk1, hrun1, hp1⟩ :=
      ihl pre (r.code ++ (op.opcode :: post)) len m hl.1 hv hd.1 (by omega) (by omega) h16
    have hv1 : Int32Array m1.vars := by rw [hp1.2.2.2]; exact hv
    have hd1 : r.Defined m1.vars := by rw [hp1.2.2.2]; exact hd.2.1
    obtain ⟨k2, m2, hk2, hrun2, hp2⟩ :=
      ihr (pre ++ l.code) (op.opcode :: post) len m1 hl.2 hv1 hd1
        (by rw [hp1.1]; omega) (by simp; omega) h16
    have hr1 := value_range m.vars hv l hl.1 hd.1
    have hp2' := hp2
    rw [hp1.2.2.2] at hp2'
    obtain ⟨m3, hm3, hp3⟩ := pushed_division op.run m m1 m2 _ _ _ hp1 hp2' (by omega)
      (binop_agree op _ _ hr1 hd.2.2.1 hd.2.2.2)
    refine ⟨k1 + k2 + 1, m3, ?_, ?_, ?_⟩
    · simp [Expr.code]; omega
    · simp only [Expr.code, List.append_assoc, List.singleton_append]
      rw [eval_steps_trans _ _ (k1 + k2) 1 _ _
        (by rw [eval_steps_trans _ _ _ _ _ _ hrun1]
            simpa only [List.append_assoc, List.length_append] using hrun2)]
      rw [eval_steps_one _ _ _ _ (by omega)]
      have := exec_op_binary (pre ++ (l.code ++ r.code)) post op m2 (by simp; omega)
      simp only [List.append_assoc, List.length_append, ← Nat.add_assoc] at this
      rw [this, hm3]
      simp [Nat.add_assoc]
    · exact hp3

@[simp] theorem parse_error_exp_to_parse (s : PState) :
    (parse_error s).exp_to_parse = s.exp_to_parse := by
  unfold parse_error; split_ifs <;> rfl
@[simp] theorem parse_error_exp_offset (s : PState) :
    (parse_error s).exp_offset = s.exp_offset := by
  unfold parse_error; split_ifs <;> rfl
@[simp] theorem parse_error_written (s : PState) :
    (parse_error s).written = s.written := by
  unfold parse_error; split_ifs <;> rfl
@[simp] theorem parse_error_remain (s : PState) :
    (parse_error s).compile_remain_loc = s.compile_remain_loc := by
  unfold parse_error; split_ifs <;> rfl
@[simp] theorem parse_error_token (s : PState) :
    (parse_error s).current_token = s.current_token := by
  unfold parse_error; split_ifs <;> rfl
@[simp] theorem parse_error_token_value (s : PState) :
    (parse_error s).current_token_value = s.current_token_value := by
  unfold parse_error; split_ifs <;> rfl
@[simp] theorem parse_error_flag (s : PState) :
    (parse_error s).got_parser_error = true := by
  unfold parse_error; split_ifs with h
  · exact h
  · rfl

@[simp] theorem emit_op_exp_to_parse (op : Nat) (arg : Int) (s : PState) :
    (emit_op op arg s).exp_to_parse = s.exp_to_parse := by
  unfold emit_op; dsimp only; split_ifs <;> simp
@[simp] theorem emit_op_exp_offset (op : Nat) (arg : Int) (s : PState) :
    (emit_op op arg s).exp_offset = s.exp_offset := by
  unfold emit_op; dsimp only; split_ifs <;> simp
@[simp] theorem emit_op_token (op : Nat) (arg : Int) (s : PState) :
    (emit_op op arg s).current_token = s.current_token := by
  unfold emit_op; dsimp only; split_ifs <;> simp
@[simp] theorem emit_op_token_value (op : Nat) (arg : Int) (s : PState) :
    (emit_op op arg s).current_token_value = s.current_token_value := by
  unfold emit_op; dsimp only; split_ifs <;> simp

@[simp] theorem next_token_written (s : PState) :
    (next_token s).written = s.written := rfl
@[simp] theorem next_token_remain (s : PState) :
    (next_token s).compile_remain_loc = s.compile_remain_loc := rfl
@[simp] theorem next_token_flag (s : PState) :
    (next_token s).got_parser_error = s.got_parser_error := rfl
@[simp] theorem next_token_location (s : PState) :
    (next_token s).parser_error_location = s.parser_error_location := rfl

theorem skip_space_length (l : List Nat) (off : Nat) :
    (skip_space l off).chars.length ≤ l.length := by
  induction l generalizing off with
  | nil => simp [skip_space]
  | cons c cs ih =>
    unfold skip_space
    split_ifs
    · have := ih (off + 1); simp; omega
    · simp

theorem scan_number_length (v : Nat) (l : List Nat) (off : Nat) :
    (scan_number v l off).2.chars.length ≤ l.length := by
  induction l generalizing v off with
  | nil => simp [scan_number]
  | cons c cs ih =>
    unfold scan_number
    split_ifs
    · have := ih ((v * 10 + (c - 48)) % 4294967296) (off + 1); simp; omega
    · simp

theorem ite_cases {α : Type} (P : α → Prop) (c : Prop) [Decidable c] (a b : α)
    (ha : P a) (hb : P b) : P (if c then a else b) := by
  split_ifs <;> assumption

theorem scan_token_pointer (chars : List Nat) (off : Nat) :
    (scan_token chars off).p = (skip_space chars off).inc ∨
    (scan_token chars off).p = (skip_space chars off).inc.inc ∨
    (scan_token chars off).p =
      (scan_number ((skip_space chars off).peek - 48) (skip_space chars off).inc.chars
        (skip_space chars off).inc.off).2 := by
  have key : ∀ Q : Scanned → Prop,
      (∀ t v, Q ⟨t, v, (skip_space chars off).inc⟩) →
      (∀ t v, Q ⟨t, v, (skip_space chars off).inc.inc⟩) →
      (∀ t v, Q ⟨t, v, (scan_number ((skip_space chars off).peek - 48)
        (skip_space chars off).inc.chars (skip_space chars off).inc.off).2⟩) →
      Q (scan_token chars off) := by
    intro Q h1 h2 h3
    unfold scan_token
    dsimp only
    repeat' apply ite_cases Q
    all_goals first | apply h1 | apply h2 | apply h3
  exact key (fun r => r.p = _ ∨ r.p = _ ∨ r.p = _) (fun _ _ => Or.inl rfl)
    (fun _ _ => Or.inr (Or.inl rfl)) (fun _ _ => Or.inr (Or.inr rfl))

theorem scan_token_end (chars : List Nat) (off : Nat)
    (h : (skip_space chars off).chars = []) : (scan_token chars off).token = 0 := by
  unfold scan_token
  simp [Cursor.peek, h, one_char_token]

theorem scan_token_shorter (chars : List Nat) (off : Nat)
    (h : (scan_token chars off).token ≠ 0) :
    (scan_token chars off).p.chars.length < chars.length := by
  have h1 := skip_space_length chars off
  have h2 : (skip_space chars off).chars ≠ [] := fun h0 => h (scan_token_end chars off h0)
  have h3 : (skip_space chars off).inc.chars.length + 1 = (skip_space chars off).chars.length := by
    cases hc : (skip_space chars off).chars with
    | nil => exact absurd hc h2
    | cons c cs => simp [Cursor.inc, hc]
  have h4 : (skip_space chars off).inc.inc.chars.length ≤
      (skip_space chars off).inc.chars.length := by
    simp [Cursor.inc]
  have h5 := scan_number_length ((skip_space chars off).peek - 48)
    (skip_space chars off).inc.chars (skip_space chars off).inc.off
  rcases scan_token_pointer chars off with e | e | e <;> rw [e] <;> omega

theorem next_token_shorter (s : PState) (h : (next_token s).current_token ≠ 0) :
    (next_token s).exp_to_parse.length < s.exp_to_parse.length :=
  scan_token_shorter _ _ h

theorem tokens_left_next (s : PState) (h : s.current_token ≠ 0) :
    tokens_left (next_token s) < tokens_left s := by
  unfold tokens_left
  rw [if_neg h]
  split_ifs with h0
  · omega
  · have := next_token_shorter s h0
    omega

@[simp] theorem tokens_left_emit (op : Nat) (arg : Int) (s : PState) :
    tokens_left (emit_op op arg s) = tokens_left s := by
  simp [tokens_left]

@[simp] theorem tokens_left_error (s : PState) :
    tokens_left (parse_error s) = tokens_left s := by
  simp [tokens_left]

theorem parse_accept_eq (tok : Nat) (s : PState) (h : s.current_token = tok) (h0 : tok ≠ 0) :
    parse_accept tok s = (true, next_token s) := by
  unfold parse_accept
  rw [if_pos h, if_pos (by rw [h]; exact h0)]

theorem parse_accept_ne (tok : Nat) (s : PState) (h : s.current_token ≠ tok) :
    parse_accept tok s = (false, s) := by
  unfold parse_accept
  rw [if_neg h]

theorem parse_expect_eq (tok : Nat) (s : PState) (h : s.current_token = tok) (h0 : tok ≠ 0) :
    parse_expect tok s = (true, next_token s) := by
  unfold parse_expect
  rw [parse_accept_eq tok s h h0]
  rfl

theorem parse_expect_ne (tok : Nat) (s : PState) (h : s.current_token ≠ tok) :
    parse_expect tok s = (false, parse_error s) := by
  unfold parse_expect
  rw [parse_accept_ne tok s h]
  rfl

theorem tokens_left_zero (s : PState) (h : tokens_left s = 0) : s.current_token = 0 := by
  unfold tokens_left at h
  split_ifs at h with h0
  · exact h0

theorem lvl16 {E : PState → PState → Prop} (hE : ExprRules E) (n : Nat)
    (exp6 : PState → Option PState)
    (h6 : ∀ s, tokens_left s < n →
      ∃ s1, exp6 s = some s1 ∧ E s s1 ∧ tokens_left s1 ≤ tokens_left s) :
    Lvl E n (parse_exp16 exp6) := by
  intro s hs
  unfold parse_exp16
  by_cases hV : s.current_token = 86
  · rw [parse_accept_eq 86 s hV (by decide)]
    refine ⟨_, rfl, hE.var s hV, ?_⟩
    have := tokens_left_next s (by rw [hV]; decide)
    dsimp only
    rw [tokens_left_emit]; omega
  · rw [parse_accept_ne 86 s hV]
    by_cases hN : s.current_token = 48
    · dsimp only
      rw [parse_accept_eq 48 s hN (by decide)]
      refine ⟨_, rfl, hE.const s hN, ?_⟩
      have := tokens_left_next s (by rw [hN]; decide)
      dsimp only
      rw [tokens_left_emit]; omega
    · dsimp only
      rw [parse_accept_ne 48 s hN]
      by_cases hP : s.current_token = 40
      · dsimp only
        rw [parse_expect_eq 40 s hP (by decide)]
        have hlt := tokens_left_next s (by rw [hP]; decide)
        obtain ⟨s1, h1, hE1, hm1⟩ := h6 (next_token s) (by omega)
        dsimp only
        rw [if_pos rfl, h1]
        by_cases hC : s1.current_token = 41
        · rw [Option.map_some', parse_expect_eq 41 s1 hC (by decide)]
          refine ⟨_, rfl, hE.paren s s1 hP hE1 hC, ?_⟩
          have := tokens_left_next s1 (by rw [hC]; decide)
          dsimp only; omega
        · rw [Option.map_some', parse_expect_ne 41 s1 hC]
          refine ⟨_, rfl, hE.unclosed s s1 hP hE1 hC, ?_⟩
          dsimp only; rw [tokens_left_error]; omega
      · dsimp only
        rw [parse_expect_ne 40 s hP]
        refine ⟨_, rfl, hE.bad s hV hN hP, ?_⟩
        dsimp only; rw [tokens_left_error]

theorem lvl15 {E : PState → PState → Prop} (hE : ExprRules E) (n : Nat)
    (exp6 : PState → Option PState)
    (h6 : ∀ s, tokens_left s < n →
      ∃ s1, exp6 s = some s1 ∧ E s s1 ∧ tokens_left s1 ≤ tokens_left s) :
    Lvl E n (parse_exp15 exp6) := by
  have h16 := lvl16 hE n exp6 h6
  have un : ∀ s op, s.current_token ≠ 0 → 2 ≤ op → op ≤ 4 → tokens_left s ≤ n →
      ∃ s1, (parse_exp16 exp6 (next_token s)).map (emit_op op 0) = some s1 ∧ E s s1 ∧
        tokens_left s1 ≤ tokens_left s := by
    intro s op h0 h2 h4 hs
    have hlt := tokens_left_next s h0
    obtain ⟨s1, h1, hE1, hm1⟩ := h16 (next_token s) (by omega)
    rw [h1]
    refine ⟨_, rfl, hE.unary s s1 op h0 h2 h4 hE1, ?_⟩
    rw [tokens_left_emit]; omega
  intro s hs
  unfold parse_exp15
  by_cases hp : s.current_token = 43
  · rw [parse_accept_eq 43 s hp (by decide)]
    have hlt := tokens_left_next s (by rw [hp]; decide)
    obtain ⟨s1, h1, hE1, hm1⟩ := h16 (next_token s) (by omega)
    dsimp only
    rw [if_pos rfl, h1]
    exact ⟨_, rfl, hE.plus s s1 hp hE1, by omega⟩
  · rw [parse_accept_ne 43 s hp]
    dsimp only
    by_cases hm : s.current_token = 45
    · rw [parse_accept_eq 45 s hm (by decide)]
      exact un s OP_NEGATE (by rw [hm]; decide) (by decide) (by decide) hs
    · rw [parse_accept_ne 45 s hm]
      dsimp only
      by_cases hb : s.current_token = 33
      · rw [parse_accept_eq 33 s hb (by decide)]
        exact un s OP_BOOLEAN_NOT (by rw [hb]; decide) (by decide) (by decide) hs
      · rw [parse_accept_ne 33 s hb]
        dsimp only
        by_cases ht : s.current_token = 126
        · rw [parse_accept_eq 126 s ht (by decide)]
          exact un s OP_LOGICAL_NOT (by rw [ht]; decide) (by decide) (by decide) hs
        · rw [parse_accept_ne 126 s ht]
          exact h16 s hs

theorem while_lvl {E : PState → PState → Prop} (hE : ExprRules E) (ops : Nat → Option Nat)
    (hops : OpsOK ops) (sub : PState → Option PState) (n : Nat) (hsub : Lvl E n sub) :
    ∀ k s0 s, E s0 s → tokens_left s ≤ k → tokens_left s ≤ n →
      ∃ s1, while_binary ops sub k s = some s1 ∧ E s0 s1 ∧
        tokens_left s1 ≤ tokens_left s := by
  intro k
  induction k with
  | zero =>
    intro s0 s h0 hk hn
    unfold while_binary
    cases hop : ops s.current_token with
    | none => exact ⟨s, rfl, h0, le_refl _⟩
    | some op =>
      exact absurd (tokens_left_zero s (by omega)) (hops _ _ hop).1
  | succ k ih =>
    intro s0 s h0 hk hn
    unfold while_binary
    cases hop : ops s.current_token with
    | none => exact ⟨s, rfl, h0, le_refl _⟩
    | some op =>
      obtain ⟨ht, h5, h20⟩ := hops _ _ hop
      have hlt := tokens_left_next s ht
      obtain ⟨s2, h2, hE2, hm2⟩ := hsub (next_token s) (by omega)
      dsimp only
      rw [h2]
      obtain ⟨s3, h3, hE3, hm3⟩ := ih s0 (emit_op op 0 s2)
        (hE.binary s0 s s2 op h0 ht h5 h20 hE2)
        (by rw [tokens_left_emit]; omega) (by rw [tokens_left_emit]; omega)
      refine ⟨s3, h3, hE3, ?_⟩
      rw [tokens_left_emit] at hm3
      omega

theorem if_lvl {E : PState → PState → Prop} (hE : ExprRules E) (ops : Nat → Option Nat)
    (hops : OpsOK ops) (sub : PState → Option PState) (n : Nat) (hsub : Lvl E n sub)
    (s0 s : PState) (h0 : E s0 s) (hn : tokens_left s ≤ n) :
    ∃ s1, if_binary ops sub s = some s1 ∧ E s0 s1 ∧ tokens_left s1 ≤ tokens_left s := by
  unfold if_binary
  cases hop : ops s.current_token with
  | none => exact ⟨s, rfl, h0, le_refl _⟩
  | some op =>
    obtain ⟨ht, h5, h20⟩ := hops _ _ hop
    have hlt := tokens_left_next s ht
    obtain ⟨s2, h2, hE2, hm2⟩ := hsub (next_token s) (by omega)
    dsimp only
    rw [h2]
    refine ⟨_, rfl, hE.binary s0 s s2 op h0 ht h5 h20 hE2, ?_⟩
    rw [tokens_left_emit]; omega

theorem lvl_while {E : PState → PState → Prop} (hE : ExprRules E) (ops : Nat → Option Nat)
    (hops : OpsOK ops) (sub : PState → Option PState) (n k : Nat) (hk : n ≤ k)
    (hsub : Lvl E n sub) :
    Lvl E n (fun s => (sub s).bind (while_binary ops sub k)) := by
  intro s hs
  obtain ⟨s1, h1, hE1, hm1⟩ := hsub s hs
  obtain ⟨s2, h2, hE2, hm2⟩ := while_lvl hE ops hops sub n hsub k s s1 hE1 (by omega) (by omega)
  refine ⟨s2, ?_, hE2, by omega⟩
  simp only [h1, Option.some_bind, h2]

theorem lvl_if {E : PState → PState → Prop} (hE : ExprRules E) (ops : Nat → Option Nat)
    (hops : OpsOK ops) (sub : PState → Option PState) (n : Nat)
    (hsub : Lvl E n sub) :
    Lvl E n (fun s => (sub s).bind (if_binary ops sub)) := by
  intro s hs
  obtain ⟨s1, h1, hE1, hm1⟩ := hsub s hs
  obtain ⟨s2, h2, hE2, hm2⟩ := if_lvl hE ops hops sub n hsub s s1 hE1 (by omega)
  refine ⟨s2, ?_, hE2, by omega⟩
  simp only [h1, Option.some_bind, h2]

theorem opsOK13 : OpsOK ops13 := by
  intro tok op h; unfold ops13 at h
  split_ifs at h <;> simp only [Option.some.injEq, OP_MULTIPLY, OP_DIVIDE, OP_MODULO] at h <;> subst h <;> simp_all
theorem opsOK12 : OpsOK ops12 := by
  intro tok op h; unfold ops12 at h
  split_ifs at h <;> simp only [Option.some.injEq, OP_PLUS, OP_MINUS] at h <;> subst h <;> simp_all
theorem opsOK11 : OpsOK ops11 := by
  intro tok op h; unfold ops11 at h
  split_ifs at h <;> simp only [Option.some.injEq, OP_LEFT_SHIFT, OP_RIGHT_SHIFT] at h <;> subst h <;> simp_all
theorem opsOK10 : OpsOK ops10 := by
  intro tok op h; unfold ops10 at h
  split_ifs at h <;> simp only [Option.some.injEq, OP_LESS_THAN, OP_LESS_THAN_OR_EQUAL, OP_GREATER_THAN,
    OP_GREATER_THAN_OR_EQUAL] at h <;> subst h <;> simp_all
theorem opsOK9 : OpsOK ops9 := by
  intro tok op h; unfold ops9 at h
  split_ifs at h <;> simp only [Option.some.injEq, OP_EQUAL, OP_NOT_EQUAL] at h <;> subst h <;> simp_all
theorem opsOK8 : OpsOK ops8 := by
  intro tok op h; unfold ops8 at h
  split_ifs at h <;> simp only [Option.some.injEq, OP_LOGICAL_AND] at h <;> subst h <;> simp_all
theorem opsOK7 : OpsOK ops7 := by
  intro tok op h; unfold ops7 at h
  split_ifs at h <;> simp only [Option.some.injEq, OP_LOGICAL_XOR] at h <;> subst h <;> simp_all
theorem opsOK6 : OpsOK ops6 := by
  intro tok op h; unfold ops6 at h
  split_ifs at h <;> simp only [Option.some.injEq, OP_LOGICAL_OR] at h <;> subst h <;> simp_all

theorem lvl7 {E : PState → PState → Prop} (hE : ExprRules E) (n k : Nat) (hk : n ≤ k)
    (exp6 : PState → Option PState)
    (h6 : ∀ s, tokens_left s < n →
      ∃ s1, exp6 s = some s1 ∧ E s s1 ∧ tokens_left s1 ≤ tokens_left s) :
    Lvl E n (parse_exp7 k exp6) := by
  have h15 := lvl15 hE n exp6 h6
  have h13 : Lvl E n (parse_exp13 k exp6) := lvl_while hE ops13 opsOK13 _ n k hk h15
  have h12 : Lvl E n (parse_exp12 k exp6) := lvl_while hE ops12 opsOK12 _ n k hk h13
  have h11 : Lvl E n (parse_exp11 k exp6) := lvl_if hE ops11 opsOK11 _ n h12
  have h10 : Lvl E n (parse_exp10 k exp6) := lvl_if hE ops10 opsOK10 _ n h11
  have h9 : Lvl E n (parse_exp9 k exp6) := lvl_if hE ops9 opsOK9 _ n h10
  have h8 : Lvl E n (parse_exp8 k exp6) := lvl_while hE ops8 opsOK8 _ n k hk h9
  exact lvl_while hE ops7 opsOK7 _ n k hk h8

/-- Induction over the grammar: `parse_exp6` returns whenever its bound exceeds
the tokens left, and relates its argument to its result by any relation closed
under the productions. -/
theorem parse_exp6_rules {E : PState → PState → Prop} (hE : ExprRules E) :
    ∀ n s, tokens_left s < n →
      ∃ s1, parse_exp6 n s = some s1 ∧ E s s1 ∧ tokens_left s1 ≤ tokens_left s := by
  intro n
  induction n with
  | zero => intro s hs; omega
  | succ n ih =>
    have h7 := lvl7 hE n n (le_refl _) (parse_exp6 n) ih
    have h6 := lvl_while hE ops6 opsOK6 _ n n (le_refl _) h7
    intro s hs
    exact h6 s (by omega)

theorem StepRules.toExprRules {R : PState → PState → Prop} (h : StepRules R) :
    ExprRules R where
  var s hs := h.trans _ _ _ (h.next s (by rw [hs]; decide)) (h.emit _ _ _)
  const s hs := h.trans _ _ _ (h.next s (by rw [hs]; decide)) (h.emit _ _ _)
  paren s s1 hs h1 hc :=
    h.trans _ _ _ (h.trans _ _ _ (h.next s (by rw [hs]; decide)) h1)
      (h.next s1 (by rw [hc]; decide))
  unclosed s s1 hs h1 _ :=
    h.trans _ _ _ (h.trans _ _ _ (h.next s (by rw [hs]; decide)) h1) (h.error s1)
  bad s _ _ _ := h.error s
  plus s s1 hs h1 := h.trans _ _ _ (h.next s (by rw [hs]; decide)) h1
  unary s s1 op h0 _ _ h1 := h.trans _ _ _ (h.trans _ _ _ (h.next s h0) h1) (h.emit _ _ _)
  binary s s1 s2 op h1 h0 _ _ h2 :=
    h.trans _ _ _ (h.trans _ _ _ (h.trans _ _ _ h1 (h.next s1 h0)) h2) (h.emit _ _ _)

theorem accept_step {R : PState → PState → Prop} (hR : StepRules R) (tok : Nat) (s : PState) :
    R s (parse_accept tok s).2 ∧ tokens_left (parse_accept tok s).2 ≤ tokens_left s := by
  unfold parse_accept
  split_ifs with h1 h2
  · exact ⟨hR.next s h2, le_of_lt (tokens_left_next s h2)⟩
  · exact ⟨hR.refl s, le_refl _⟩
  · exact ⟨hR.refl s, le_refl _⟩

theorem expect_step {R : PState → PState → Prop} (hR : StepRules R) (tok : Nat) (s : PState) :
    R s (parse_expect tok s).2 ∧ tokens_left (parse_expect tok s).2 ≤ tokens_left s := by
  have h := accept_step hR tok s
  unfold parse_expect
  dsimp only
  split_ifs
  · exact h
  · exact ⟨hR.trans _ _ _ h.1 (hR.error _), by rw [tokens_left_error]; exact h.2⟩

theorem exp0_loop_steps {R : PState → PState → Prop} (hR : StepRules R) (n : Nat)
    (exp6 : PState → Option PState)
    (h6 : ∀ s, tokens_left s < n →
      ∃ s1, exp6 s = some s1 ∧ R s s1 ∧ tokens_left s1 ≤ tokens_left s) :
    ∀ k s0 s, R s0 s → tokens_left s ≤ k → tokens_left s < n →
      ∃ s1, parse_exp0_loop exp6 k s = some s1 ∧ R s0 s1 ∧
        tokens_left s1 ≤ tokens_left s := by
  intro k
  induction k with
  | zero =>
    intro s0 s h0 hk hn
    unfold parse_exp0_loop
    have ht := tokens_left_zero s (by omega)
    rw [parse_accept_ne 58 s (by rw [ht]; decide)]
    exact ⟨s, by simp, h0, le_refl _⟩
  | succ k ih =>
    intro s0 s h0 hk hn
    unfold parse_exp0_loop
    by_cases hc : s.current_token = 58
    · rw [parse_accept_eq 58 s hc (by decide)]
      dsimp only
      rw [if_pos rfl]
      have hlt := tokens_left_next s (by rw [hc]; decide)
      have hn1 := hR.next s (by rw [hc]; decide)
      have e1 := expect_step hR 86 (next_token s)
      have e2 := expect_step hR 65 (parse_expect 86 (next_token s)).2
      split_ifs with a1 a2
      · obtain ⟨s3, h3, hR3, hm3⟩ := h6 (parse_expect 65 (parse_expect 86 (next_token s)).2).2
          (by omega)
        rw [h3]
        dsimp only
        have e3 := expect_step hR 59 s3
        have hs3 : R s0 (parse_expect 59 s3).2 :=
          hR.trans _ _ _ (hR.trans _ _ _ (hR.trans _ _ _ (hR.trans _ _ _
            (hR.trans _ _ _ h0 hn1) e1.1) e2.1) hR3) e3.1
        split_ifs
        · obtain ⟨s4, h4, hR4, hm4⟩ := ih s0
            (emit_op OP_ASSIGN (Int.ofNat (toU32 (next_token s).current_token_value % 256))
              (parse_expect 59 s3).2) (hR.trans _ _ _ hs3 (hR.emit _ _ _))
            (by rw [tokens_left_emit]; omega) (by rw [tokens_left_emit]; omega)
          rw [tokens_left_emit] at hm4
          exact ⟨s4, h4, hR4, by omega⟩
        · obtain ⟨s4, h4, hR4, hm4⟩ := ih s0 _ hs3 (by omega) (by omega)
          exact ⟨s4, h4, hR4, by omega⟩
      · obtain ⟨s4, h4, hR4, hm4⟩ := ih s0 _
          (hR.trans _ _ _ (hR.trans _ _ _ (hR.trans _ _ _ h0 hn1) e1.1) e2.1)
          (by omega) (by omega)
        exact ⟨s4, h4, hR4, by omega⟩
      · obtain ⟨s4, h4, hR4, hm4⟩ := ih s0 _
          (hR.trans _ _ _ (hR.trans _ _ _ h0 hn1) e1.1) (by omega) (by omega)
        exact ⟨s4, h4, hR4, by omega⟩
    · rw [parse_accept_ne 58 s hc]
      exact ⟨s, by simp, h0, le_refl _⟩

theorem tokens_left_first (s : PState) :
    tokens_left (next_token s) ≤ s.exp_to_parse.length := by
  unfold tokens_left
  split_ifs with h
  · omega
  · have := next_token_shorter s h
    omega

/-- Induction over a whole compilation: `start_parse` returns, the statements
before the final expression are related by `R`, the final expression by `E`. -/
theorem start_parse_rules {R E : PState → PState → Prop} (hR : StepRules R)
    (hE : ExprRules E) (s : PState) (n : Nat) (hn : s.exp_to_parse.length < n) :
    ∃ s1 s2, start_parse n s = some (parse_expect 0 s2).2 ∧
      R (next_token s) s1 ∧ E s1 s2 := by
  have hf := tokens_left_first s
  obtain ⟨s1, h1, hR1, hm1⟩ := exp0_loop_steps hR n (parse_exp6 n)
    (parse_exp6_rules hR.toExprRules n) n (next_token s) (next_token s) (hR.refl _)
    (by omega) (by omega)
  obtain ⟨s2, h2, hE2, hm2⟩ := parse_exp6_rules hE n s1 (by omega)
  refine ⟨s1, s2, ?_, hR1, hE2⟩
  unfold start_parse parse_exp0
  simp only [h1, Option.some_bind, h2, Option.map_some']

theorem steps_error (s : PState) : Steps s (parse_error s) := by
  unfold Steps parse_error
  split_ifs with h
  · exact ⟨fun _ => ⟨h, rfl⟩, rfl, [], by simp⟩
  · exact ⟨fun h1 => absurd h1 h, rfl, [], by simp⟩

theorem steps_trans (a b c : PState) (h1 : Steps a b) (h2 : Steps b c) : Steps a c := by
  obtain ⟨a1, a2, l1, a3⟩ := h1
  obtain ⟨b1, b2, l2, b3⟩ := h2
  refine ⟨fun h => ?_, by omega, l1 ++ l2, by rw [b3, a3, List.append_assoc]⟩
  obtain ⟨e1, e2⟩ := a1 h
  obtain ⟨e3, e4⟩ := b1 e1
  exact ⟨e3, by rw [e4, e2]⟩

theorem emits_emit (op : Nat) (arg : Int) (s : PState) : Emits s (emit_op op arg s) := by
  have he := steps_error s
  unfold emit_op
  dsimp only
  split_ifs with h1 h2 h3 h4 h5
  · exact ⟨he, by simp⟩
  · refine ⟨steps_trans _ _ _ ?_ (steps_error _), by simp⟩
    exact ⟨fun h => ⟨h, rfl⟩, by simp; omega, [op], rfl⟩
  · exact ⟨⟨fun h => ⟨h, rfl⟩, by simp; omega, _, List.append_assoc _ _ _⟩, by simp⟩
  · refine ⟨steps_trans _ _ _ ?_ (steps_error _), by simp⟩
    exact ⟨fun h => ⟨h, rfl⟩, by simp; omega, [op], rfl⟩
  · exact ⟨⟨fun h => ⟨h, rfl⟩, by simp; omega, _, List.append_assoc _ _ _⟩, by simp⟩
  · exact ⟨⟨fun h => ⟨h, rfl⟩, by simp; omega, _, rfl⟩, by simp⟩

theorem stepRules_steps : StepRules Steps where
  refl s := ⟨fun h => ⟨h, rfl⟩, rfl, [], by simp⟩
  trans := steps_trans
  next s _ := ⟨fun h => ⟨h, rfl⟩, rfl, [], by simp⟩
  emit op arg s := (emits_emit op arg s).1
  error := steps_error

theorem emits_left (a b c : PState) (h1 : Steps a b) (h2 : Emits b c) : Emits a c := by
  refine ⟨steps_trans _ _ _ h1 h2.1, fun h => ?_⟩
  have := h2.2 h
  obtain ⟨l, hl⟩ := h1.2.2
  rw [hl] at this
  simp at this
  omega

theorem emits_right (a b c : PState) (h1 : Emits a b) (h2 : Steps b c) : Emits a c := by
  refine ⟨steps_trans _ _ _ h1.1 h2, fun h => ?_⟩
  have hb : b.got_parser_error = false := by
    cases hb : b.got_parser_error with
    | false => rfl
    | true => rw [(h2.1 hb).1] at h; exact absurd h (by decide)
  have := h1.2 hb
  obtain ⟨l, hl⟩ := h2.2.2
  rw [hl]
  simp
  omega

theorem emits_error (s : PState) : Emits s (parse_error s) :=
  ⟨steps_error s, by simp⟩

theorem exprRules_emits : ExprRules Emits where
  var s hs := emits_left _ _ _ (stepRules_steps.next s (by rw [hs]; decide)) (emits_emit _ _ _)
  const s hs := emits_left _ _ _ (stepRules_steps.next s (by rw [hs]; decide)) (emits_emit _ _ _)
  paren s s1 hs h1 hc :=
    emits_right _ _ _ (emits_left _ _ _ (stepRules_steps.next s (by rw [hs]; decide)) h1)
      (stepRules_steps.next s1 (by rw [hc]; decide))
  unclosed s s1 hs h1 _ :=
    emits_right _ _ _ (emits_left _ _ _ (stepRules_steps.next s (by rw [hs]; decide)) h1)
      (steps_error s1)
  bad s _ _ _ := emits_error s
  plus s s1 hs h1 := emits_left _ _ _ (stepRules_steps.next s (by rw [hs]; decide)) h1
  unary s s1 op h0 _ _ h1 :=
    emits_right _ _ _ (emits_left _ _ _ (stepRules_steps.next s h0) h1)
      (stepRules_steps.emit _ _ _)
  binary s s1 s2 op h1 h0 _ _ h2 :=
    emits_right _ _ _ (emits_right _ _ _ (emits_right _ _ _ h1 (stepRules_steps.next s1 h0)) h2.1)
      (stepRules_steps.emit _ _ _)

/-- A compilation from the initial state: it ends, and at the end the error
flag is set or at least one byte and at most `buffer_len` bytes are written. -/
theorem start_parse_end (exp : List Nat) (buffer_len : Nat) :
    ∃ s, start_parse (exp.length + 1) (parse_init exp buffer_len) = some s ∧
      s.written.length + s.compile_remain_loc = buffer_len ∧
      (s.got_parser_error = false → 0 < s.written.length) := by
  obtain ⟨s1, s2, h, hR, hE⟩ := start_parse_rules stepRules_steps exprRules_emits
    (parse_init exp buffer_len) (exp.length + 1) (by simp [parse_init])
  have h3 := (expect_step stepRules_steps 0 s2).1
  have hall : Emits (next_token (parse_init exp buffer_len)) (parse_expect 0 s2).2 :=
    emits_right _ _ _ (emits_left _ _ _ hR hE) h3
  refine ⟨_, h, ?_, fun he => ?_⟩
  · have := hall.1.2.1
    simpa [parse_init] using this
  · have := hall.2 he
    omega

/-- The bound `parse_exp` uses is enough: `parse_exp` always returns. -/
theorem parse_exp_total (exp : List Nat) (buffer_len : Nat) :
    ∃ r, parse_exp exp buffer_len = some r := by
  obtain ⟨s, h, _⟩ := start_parse_end exp buffer_len
  unfold parse_exp
  rw [h]
  exact ⟨_, rfl⟩

/-- C2. For every text and every capacity (a `uint16_t`), `parse_exp` returns;
it returns 0 exactly when the error flag is set at the end (the flag is never
cleared once raised), and otherwise the number of bytes written, which is
positive and at most the capacity. -/
theorem parse_exp_return (exp : List Nat) (buffer_len : Nat) (hcap : buffer_len < 65536) :
    ∃ r, parse_exp exp buffer_len = some r ∧
      (r.ret = 0 ↔ r.final.got_parser_error = true) ∧
      (r.final.got_parser_error = false →
        r.ret = r.final.written.length ∧ 0 < r.ret ∧ r.ret ≤ buffer_len) := by
  obtain ⟨s, h, hsum, hpos⟩ := start_parse_end exp buffer_len
  unfold parse_exp
  rw [h, Option.map_some']
  refine ⟨_, rfl, ?_⟩
  cases he : s.got_parser_error with
  | true => simp [he]
  | false =>
    have hp := hpos he
    have hm : s.written.length % 65536 = s.written.length := Nat.mod_eq_of_lt (by omega)
    simp only [he, Bool.false_eq_true, ↓reduceIte, hm, iff_false, forall_const, true_and]
    omega

/-- C3. With capacity 0 `parse_exp` fails on every text, empty or not: it
returns 0 with the error flag set, and no byte is written. -/
theorem parse_exp_capacity_zero (exp : List Nat) :
    ∃ r, parse_exp exp 0 = some r ∧ r.ret = 0 ∧ r.final.got_parser_error = true ∧
      r.final.written = [] := by
  obtain ⟨s, h, hsum, hpos⟩ := start_parse_end exp 0
  have hw : s.written = [] := List.length_eq_zero.mp (by omega)
  have he : s.got_parser_error = true := by
    cases he : s.got_parser_error with
    | true => rfl
    | false => have := hpos he; omega
  unfold parse_exp
  rw [h, Option.map_some']
  exact ⟨_, rfl, by simp [he], by simp [he], by simp [he, hw]⟩

theorem scan_token_nil (off : Nat) : scan_token [] off = ⟨0, none, ⟨[], off + 1⟩⟩ := by
  simp [scan_token, skip_space, Cursor.peek, Cursor.inc, one_char_token]

theorem scan_token_space (c : Nat) (rest : List Nat) (off : Nat)
    (h : c = 32 ∨ c = 9 ∨ c = 10 ∨ c = 13) :
    scan_token (c :: rest) off = scan_token rest (off + 1) := by
  unfold scan_token
  simp only [skip_space, if_pos h]

theorem skip_space_cons (c : Nat) (rest : List Nat) (off : Nat)
    (h : ¬ (c = 32 ∨ c = 9 ∨ c = 10 ∨ c = 13)) :
    skip_space (c :: rest) off = ⟨c :: rest, off⟩ := by
  simp only [skip_space, if_neg h]

theorem scan_token_plain (c : Nat) (rest : List Nat) (off : Nat) (h : plain_char c = true) :
    scan_token (c :: rest) off = ⟨c, none, ⟨rest, off + 1⟩⟩ := by
  have h : c = 43 ∨ c = 45 ∨ c = 58 ∨ c = 59 ∨ c = 124 ∨ c = 94 ∨ c = 38 ∨ c = 42 ∨ c = 47 ∨
      c = 37 ∨ c = 126 ∨ c = 40 ∨ c = 41 := by
    simpa [plain_char] using h
  rcases h with h | h | h | h | h | h | h | h | h | h | h | h | h <;> subst h <;>
    simp [scan_token, skip_space, Cursor.peek, Cursor.inc, one_char_token]

theorem scan_token_letter (rest : List Nat) (off : Nat) :
    scan_token (116 :: rest) off = ⟨86, some 0, ⟨rest, off + 1⟩⟩ ∧
    scan_token (97 :: rest) off = ⟨86, some 1, ⟨rest, off + 1⟩⟩ ∧
    scan_token (98 :: rest) off = ⟨86, some 2, ⟨rest, off + 1⟩⟩ ∧
    scan_token (99 :: rest) off = ⟨86, some 3, ⟨rest, off + 1⟩⟩ := by
  refine ⟨?_, ?_, ?_, ?_⟩ <;>
    simp [scan_token, skip_space, Cursor.peek, Cursor.inc, one_char_token]

theorem scan_number_literal (digits rest : List Nat) (hd : ∀ d ∈ digits, d < 10)
    (hr : NoDigit rest) : ∀ (v off : Nat),
    scan_number v (literal_text digits ++ rest) off =
      (accumulate v digits, ⟨rest, off + digits.length⟩) := by
  induction digits with
  | nil =>
    intro v off
    cases rest with
    | nil => simp [literal_text, scan_number, accumulate]
    | cons c cs =>
      have : ¬ (48 ≤ c ∧ c ≤ 57) := by simpa [NoDigit] using hr
      simp [literal_text, scan_number, accumulate, this]
  | cons d ds ih =>
    intro v off
    have hd' : d < 10 := hd d (by simp)
    have h1 : 48 ≤ d + 48 ∧ d + 48 ≤ 57 := by omega
    have := ih (fun x hx => hd x (by simp [hx])) ((v * 10 + d) % 4294967296) (off + 1)
    simp only [literal_text] at this
    simp only [literal_text, List.map_cons, List.cons_append, scan_number, if_pos h1,
      Nat.add_sub_cancel]
    refine Eq.trans this ?_
    simp [accumulate, Nat.add_assoc, Nat.add_comm 1]

theorem foldl_mod (digits : List Nat) : ∀ v w, v % 4294967296 = w % 4294967296 →
    accumulate v digits % 4294967296 = (digits.foldl (fun v d => v * 10 + d) w) % 4294967296 := by
  induction digits with
  | nil => intro v w h; simpa [accumulate] using h
  | cons d ds ih =>
    intro v w h
    simp only [accumulate, List.foldl_cons]
    apply ih
    omega

theorem accumulate_lt (digits : List Nat) (v : Nat) (hv : v < 4294967296) :
    accumulate v digits < 4294967296 := by
  induction digits generalizing v with
  | nil => simpa [accumulate] using hv
  | cons d ds ih =>
    simp only [accumulate, List.foldl_cons]
    exact ih _ (Nat.mod_lt _ (by decide))

theorem scan_token_literal (digits rest : List Nat) (off : Nat) (hl : IsLiteral digits)
    (hr : NoDigit rest) :
    scan_token (literal_text digits ++ rest) off =
      ⟨48, some (Int.ofNat (decimal digits)), ⟨rest, off + digits.length⟩⟩ := by
  obtain ⟨hne, hd, hv⟩ := hl
  cases digits with
  | nil => exact absurd rfl hne
  | cons d ds =>
    have hd' : d < 10 := hd d (by simp)
    have h1 : 48 ≤ d + 48 ∧ d + 48 ≤ 57 := by omega
    have hsp : ¬ (d + 48 = 32 ∨ d + 48 = 9 ∨ d + 48 = 10 ∨ d + 48 = 13) := by omega
    have hs := scan_number_literal ds rest (fun x hx => hd x (by simp [hx])) hr d (off + 1)
    unfold scan_token
    simp only [literal_text, List.map_cons, List.cons_append, skip_space_cons _ _ _ hsp,
      Cursor.peek, Cursor.inc, List.headD_cons, List.tail_cons, if_pos h1, Nat.add_sub_cancel]
    simp only [literal_text] at hs
    rw [hs]
    have hacc : accumulate d ds = decimal (d :: ds) := by
      have h2 := foldl_mod ds d d rfl
      have h3 := accumulate_lt ds d (by omega)
      have h4 : decimal (d :: ds) = ds.foldl (fun v d => v * 10 + d) d := by
        simp [decimal]
      rw [← h4] at h2
      omega
    have hw : wrap32 (Int.ofNat (decimal (d :: ds))) = Int.ofNat (decimal (d :: ds)) := by
      unfold wrap32
      simp only [Int.ofNat_eq_coe]
      omega
    simp only [hacc, hw, List.length_cons]
    simp [Nat.add_assoc, Nat.add_comm 1]

theorem scan_token_literal_end (digits : List Nat) (off : Nat) (hl : IsLiteral digits) :
    scan_token (literal_text digits) off =
      ⟨48, some (Int.ofNat (decimal digits)), ⟨[], off + digits.length⟩⟩ := by
  have := scan_token_literal digits [] off hl (by simp [NoDigit])
  simpa using this

theorem scan_token_binop (op : BinOp) (rest : List Nat) (off : Nat) :
    scan_token (op.text ++ 40 :: rest) off =
      ⟨op.token, none, ⟨40 :: rest, off + op.text.length⟩⟩ := by
  cases op <;>
    simp [BinOp.text, BinOp.token, scan_token, skip_space, Cursor.peek, Cursor.inc,
      one_char_token]

theorem scan_token_unop (op : UnOp) (rest : List Nat) (off : Nat) :
    scan_token (op.text ++ 40 :: rest) off =
      ⟨op.token, none, ⟨40 :: rest, off + 1⟩⟩ := by
  cases op <;>
    simp [UnOp.text, UnOp.token, scan_token, skip_space, Cursor.peek, Cursor.inc,
      one_char_token]

theorem scan_token_closes (rest : List Nat) (off : Nat) (h : Closes rest) :
    (scan_token rest off).token = 0 ∨ (scan_token rest off).token = 41 := by
  rcases h with h | ⟨r, h⟩
  · subst h; left; rw [scan_token_nil]
  · subst h; right; rw [scan_token_plain 41 r off (by decide)]

theorem closes_noDigit (rest : List Nat) (h : Closes rest) : NoDigit rest := by
  rcases h with h | ⟨r, h⟩ <;> subst h <;> simp [NoDigit]

theorem next_token_eq (s : PState) (tok : Nat) (v : Option Int) (chars : List Nat)
    (off : Nat) (h : scan_token s.exp_to_parse s.exp_offset = ⟨tok, v, ⟨chars, off⟩⟩) :
    next_token s = { s with exp_to_parse := chars, exp_offset := off,
                            current_token := tok,
                            current_token_value := v.getD s.current_token_value } := by
  unfold next_token
  rw [h]

theorem emit_op_plain (op : Nat) (arg : Int) (s : PState) (h : 1 ≤ s.compile_remain_loc)
    (h0 : op ≠ 0) (h1 : op ≠ 1) (h21 : op ≠ 21) :
    emit_op op arg s = { s with written := s.written ++ [op],
                                compile_remain_loc := s.compile_remain_loc - 1 } := by
  have a1 : ¬ s.compile_remain_loc < 1 := by omega
  unfold emit_op
  simp only [OP_VAR, OP_ASSIGN, OP_CONSTANT, a1, h0, h1, h21, or_self, if_false]

theorem emit_op_constant (arg : Int) (s : PState) (h : 5 ≤ s.compile_remain_loc) :
    emit_op OP_CONSTANT arg s =
      { s with written := s.written ++ OP_CONSTANT :: constant_bytes arg,
               compile_remain_loc := s.compile_remain_loc - 5 } := by
  have a1 : ¬ s.compile_remain_loc < 1 := by omega
  have a2 : ¬ s.compile_remain_loc - 1 < 4 := by omega
  unfold emit_op
  simp only [OP_VAR, OP_ASSIGN, OP_CONSTANT, a1, a2, if_false, OfNat.zero_ne_ofNat,
    OfNat.ofNat_ne_zero, or_self, if_true, constant_bytes, List.append_assoc,
    List.singleton_append, Nat.sub_sub, Nat.reduceAdd, Nat.reduceEqDiff]

theorem emit_op_var (arg : Int) (s : PState) (h : 2 ≤ s.compile_remain_loc) :
    emit_op OP_VAR arg s =
      { s with written := s.written ++ [OP_VAR, toU32 arg % 256],
               compile_remain_loc := s.compile_remain_loc - 2 } := by
  have a1 : ¬ s.compile_remain_loc < 1 := by omega
  have a2 : ¬ s.compile_remain_loc - 1 < 1 := by omega
  unfold emit_op
  simp only [OP_VAR, OP_ASSIGN, OP_CONSTANT, a1, a2, if_false, true_or, if_true,
    List.append_assoc, List.singleton_append, Nat.sub_sub, Nat.reduceAdd]

theorem emit_op_assign (arg : Int) (s : PState) (h : 2 ≤ s.compile_remain_loc) :
    emit_op OP_ASSIGN arg s =
      { s with written := s.written ++ [OP_ASSIGN, toU32 arg % 256],
               compile_remain_loc := s.compile_remain_loc - 2 } := by
  have a1 : ¬ s.compile_remain_loc < 1 := by omega
  have a2 : ¬ s.compile_remain_loc - 1 < 1 := by omega
  unfold emit_op
  simp only [OP_VAR, OP_ASSIGN, OP_CONSTANT, a1, a2, if_false, or_true, if_true,
    List.append_assoc, List.singleton_append, Nat.sub_sub, Nat.reduceAdd]

theorem exp16_paren (exp6 : PState → Option PState) (s s4 : PState)
    (h : s.current_token = 40) (h6 : exp6 (next_token s) = some s4)
    (h4 : s4.current_token = 41) : parse_exp16 exp6 s = some (next_token s4) := by
  simp [parse_exp16, parse_accept_ne 86 s (by rw [h]; decide),
    parse_accept_ne 48 s (by rw [h]; decide), parse_expect_eq 40 s h (by decide), h6,
    parse_expect_eq 41 s4 h4 (by decide)]

theorem exp16_const (exp6 : PState → Option PState) (s : PState)
    (h : s.current_token = 48) :
    parse_exp16 exp6 s = some (emit_op OP_CONSTANT s.current_token_value (next_token s)) := by
  simp [parse_exp16, parse_accept_ne 86 s (by rw [h]; decide),
    parse_accept_eq 48 s h (by decide)]

theorem exp16_var (exp6 : PState → Option PState) (s : PState)
    (h : s.current_token = 86) :
    parse_exp16 exp6 s = some (emit_op OP_VAR s.current_token_value (next_token s)) := by
  simp [parse_exp16, parse_accept_eq 86 s h (by decide)]

theorem exp15_atom (exp6 : PState → Option PState) (s : PState)
    (h : s.current_token = 40 ∨ s.current_token = 48 ∨ s.current_token = 86) :
    parse_exp15 exp6 s = parse_exp16 exp6 s := by
  simp [parse_exp15, parse_accept_ne 43 s (by omega), parse_accept_ne 45 s (by omega),
    parse_accept_ne 33 s (by omega), parse_accept_ne 126 s (by omega)]

theorem exp15_unary (exp6 : PState → Option PState) (op : UnOp) (s : PState)
    (h : s.current_token = op.token) :
    parse_exp15 exp6 s = (parse_exp16 exp6 (next_token s)).map (emit_op op.opcode 0) := by
  cases op
  · simp only [UnOp.token] at h
    simp [parse_exp15, parse_accept_ne 43 s (by omega), parse_accept_eq 45 s h (by decide),
      UnOp.opcode]
  · simp only [UnOp.token] at h
    simp [parse_exp15, parse_accept_ne 43 s (by omega), parse_accept_ne 45 s (by omega),
      parse_accept_eq 33 s h (by decide), UnOp.opcode]
  · simp only [UnOp.token] at h
    simp [parse_exp15, parse_accept_ne 43 s (by omega), parse_accept_ne 45 s (by omega),
      parse_accept_ne 33 s (by omega), parse_accept_eq 126 s h (by decide), UnOp.opcode]

theorem while_skip (ops : Nat → Option Nat) (sub : PState → Option PState) (k : Nat)
    (s : PState) (h : ops s.current_token = none) : while_binary ops sub k s = some s := by
  cases k <;> simp only [while_binary, h]

theorem while_once (ops : Nat → Option Nat) (sub : PState → Option PState) (k : Nat)
    (s s2 : PState) (op : Nat) (h : ops s.current_token = some op)
    (h2 : sub (next_token s) = some s2) (h3 : ops s2.current_token = none) :
    while_binary ops sub (k + 1) s = some (emit_op op 0 s2) := by
  simp only [while_binary, h, h2]
  exact while_skip ops sub k _ (by rw [emit_op_token]; exact h3)

theorem if_skip (ops : Nat → Option Nat) (sub : PState → Option PState)
    (s : PState) (h : ops s.current_token = none) : if_binary ops sub s = some s := by
  simp only [if_binary, h]

theorem if_once (ops : Nat → Option Nat) (sub : PState → Option PState)
    (s s2 : PState) (op : Nat) (h : ops s.current_token = some op)
    (h2 : sub (next_token s) = some s2) :
    if_binary ops sub s = some (emit_op op 0 s2) := by
  simp only [if_binary, h, h2, Option.map_some']

/-- An operand followed by the end of the text or a closing parenthesis goes
through every level unchanged. -/
theorem levels_closing (k : Nat) (exp6 : PState → Option PState) (s s1 : PState)
    (h : parse_exp15 exp6 s = some s1)
    (ht : s1.current_token = 0 ∨ s1.current_token = 41) :
    (parse_exp7 k exp6 s).bind (while_binary ops6 (parse_exp7 k exp6) k) = some s1 := by
  have e13 : parse_exp13 k exp6 s = some s1 := by
    unfold parse_exp13
    rw [h, Option.some_bind]
    exact while_skip _ _ _ _ (by rcases ht with h | h <;> rw [h] <;> rfl)
  have e12 : parse_exp12 k exp6 s = some s1 := by
    unfold parse_exp12
    rw [e13, Option.some_bind]
    exact while_skip _ _ _ _ (by rcases ht with h | h <;> rw [h] <;> rfl)
  have e11 : parse_exp11 k exp6 s = some s1 := by
    unfold parse_exp11
    rw [e12, Option.some_bind]
    exact if_skip _ _ _ (by rcases ht with h | h <;> rw [h] <;> rfl)
  have e10 : parse_exp10 k exp6 s = some s1 := by
    unfold parse_exp10
    rw [e11, Option.some_bind]
    exact if_skip _ _ _ (by rcases ht with h | h <;> rw [h] <;> rfl)
  have e9 : parse_exp9 k exp6 s = some s1 := by
    unfold parse_exp9
    rw [e10, Option.some_bind]
    exact if_skip _ _ _ (by rcases ht with h | h <;> rw [h] <;> rfl)
  have e8 : parse_exp8 k exp6 s = some s1 := by
    unfold parse_exp8
    rw [e9, Option.some_bind]
    exact while_skip _ _ _ _ (by rcases ht with h | h <;> rw [h] <;> rfl)
  have e7 : parse_exp7 k exp6 s = some s1 := by
    unfold parse_exp7
    rw [e8, Option.some_bind]
    exact while_skip _ _ _ _ (by rcases ht with h | h <;> rw [h] <;> rfl)
  rw [e7, Option.some_bind]
  exact while_skip _ _ _ _ (by rcases ht with h | h <;> rw [h] <;> rfl)

theorem levels_exp6 (k : Nat) (exp6 : PState → Option PState) (s : PState) :
    (parse_exp7 k exp6 s).bind (while_binary ops6 (parse_exp7 k exp6) k) =
      levels (parse_exp15 exp6) k binary_levels s := rfl

theorem levels_pass (base : PState → Option PState) (k : Nat) (s s1 : PState)
    (h : base s = some s1) :
    ∀ l : List ((Nat → Option Nat) × Bool), (∀ x ∈ l, x.1 s1.current_token = none) →
      levels base k l s = some s1 := by
  intro l
  induction l with
  | nil => intro _; exact h
  | cons x tl ih =>
    intro hx
    obtain ⟨ops, loop⟩ := x
    have h1 := ih (fun y hy => hx y (by simp [hy]))
    have h2 : ops s1.current_token = none := hx (ops, loop) (by simp)
    simp only [levels, h1, Option.some_bind]
    cases loop
    · exact if_skip _ _ _ h2
    · exact while_skip _ _ _ _ h2

theorem levels_once (base : PState → Option PState) (k : Nat) (s sL sR : PState)
    (opc : Nat) (ops : Nat → Option Nat) (loop : Bool)
    (l2 : List ((Nat → Option Nat) × Bool))
    (hL : base s = some sL) (hR : base (next_token sL) = some sR)
    (hop : ops sL.current_token = some opc)
    (h2L : ∀ x ∈ l2, x.1 sL.current_token = none)
    (h2R : ∀ x ∈ l2, x.1 sR.current_token = none)
    (hopR : ops sR.current_token = none) :
    ∀ l1 : List ((Nat → Option Nat) × Bool), (∀ x ∈ l1, x.1 sR.current_token = none) →
      levels base (k + 1) (l1 ++ (ops, loop) :: l2) s = some (emit_op opc 0 sR) := by
  intro l1
  induction l1 with
  | nil =>
    intro _
    have a := levels_pass base (k + 1) s sL hL l2 h2L
    have b := levels_pass base (k + 1) (next_token sL) sR hR l2 h2R
    simp only [List.nil_append, levels, a, Option.some_bind]
    cases loop
    · exact if_once _ _ _ _ _ hop b
    · exact while_once _ _ _ _ _ _ hop b hopR
  | cons x tl ih =>
    intro hx
    obtain ⟨ops1, loop1⟩ := x
    have h1 := ih (fun y hy => hx y (by simp [hy]))
    have h2 : ops1 (emit_op opc 0 sR).current_token = none := by
      rw [emit_op_token]; exact hx (ops1, loop1) (by simp)
    rw [List.cons_append]
    show (levels base (k + 1) (tl ++ (ops, loop) :: l2) s).bind _ = _
    rw [h1, Option.some_bind]
    cases loop1
    · exact if_skip _ _ _ h2
    · exact while_skip _ _ _ _ h2

theorem closing_tables (tok : Nat) (h : tok = 0 ∨ tok = 41) :
    ∀ x ∈ binary_levels, x.1 tok = none := by
  rcases h with h | h <;> subst h <;> decide

/-- An operand followed by the end of the text or a closing parenthesis goes
through every level unchanged. -/
theorem levels_operand (k : Nat) (exp6 : PState → Option PState) (s s1 : PState)
    (h : parse_exp15 exp6 s = some s1)
    (ht : s1.current_token = 0 ∨ s1.current_token = 41) :
    (parse_exp7 k exp6 s).bind (while_binary ops6 (parse_exp7 k exp6) k) = some s1 := by
  rw [levels_exp6]
  exact levels_pass _ k s s1 h _ (closing_tables _ ht)

/-- Two operands with a binary operator between them, followed by the end of
the text or a closing parenthesis: the operator's level emits its opcode after
the second operand. -/
theorem levels_binary (op : BinOp) (k : Nat) (exp6 : PState → Option PState)
    (s sL sR : PState) (hL : parse_exp15 exp6 s = some sL)
    (hLt : sL.current_token = op.token)
    (hR : parse_exp15 exp6 (next_token sL) = some sR)
    (hRt : sR.current_token = 0 ∨ sR.current_token = 41) :
    (parse_exp7 (k + 1) exp6 s).bind
        (while_binary ops6 (parse_exp7 (k + 1) exp6) (k + 1)) =
      some (emit_op op.opcode 0 sR) := by
  rw [levels_exp6]
  have hc := closing_tables _ hRt
  have key : ∀ (l1 l2 : List ((Nat → Option Nat) × Bool)) (ops : Nat → Option Nat)
      (loop : Bool), binary_levels = l1 ++ (ops, loop) :: l2 →
      ops op.token = some op.opcode → (∀ x ∈ l2, x.1 op.token = none) →
      levels (parse_exp15 exp6) (k + 1) binary_levels s = some (emit_op op.opcode 0 sR) := by
    intro l1 l2 ops loop hsplit hop h2
    rw [hsplit]
    rw [hsplit] at hc
    exact levels_once _ k s sL sR _ ops loop l2 hL hR (by rw [hLt]; exact hop)
      (by rw [hLt]; exact h2) (fun x hx => hc x (by simp [hx])) (hc (ops, loop) (by simp))
      l1 (fun x hx => hc x (by simp [hx]))
  cases op
  case mul => exact key [(ops6, true), (ops7, true), (ops8, true), (ops9, false), (ops10, false),
    (ops11, false), (ops12, true)] [] ops13 true rfl rfl (by decide)
  case div => exact key [(ops6, true), (ops7, true), (ops8, true), (ops9, false), (ops10, false),
    (ops11, false), (ops12, true)] [] ops13 true rfl rfl (by decide)
  case mod => exact key [(ops6, true), (ops7, true), (ops8, true), (ops9, false), (ops10, false),
    (ops11, false), (ops12, true)] [] ops13 true rfl rfl (by decide)
  case add => exact key [(ops6, true), (ops7, true), (ops8, true), (ops9, false), (ops10, false),
    (ops11, false)] [(ops13, true)] ops12 true rfl rfl (by decide)
  case sub => exact key [(ops6, true), (ops7, true), (ops8, true), (ops9, false), (ops10, false),
    (ops11, false)] [(ops13, true)] ops12 true rfl rfl (by decide)
  case shl => exact key [(ops6, true), (ops7, true), (ops8, true), (ops9, false),
    (ops10, false)] [(ops12, true), (ops13, true)] ops11 false rfl rfl (by decide)
  case shr => exact key [(ops6, true), (ops7, true), (ops8, true), (ops9, false),
    (ops10, false)] [(ops12, true), (ops13, true)] ops11 false rfl rfl (by decide)
  case lt => exact key [(ops6, true), (ops7, true), (ops8, true),
    (ops9, false)] [(ops11, false), (ops12, true), (ops13, true)] ops10 false rfl rfl (by decide)
  case le => exact key [(ops6, true), (ops7, true), (ops8, true),
    (ops9, false)] [(ops11, false), (ops12, true), (ops13, true)] ops10 false rfl rfl (by decide)
  case gt => exact key [(ops6, true), (ops7, true), (ops8, true),
    (ops9, false)] [(ops11, false), (ops12, true), (ops13, true)] ops10 false rfl rfl (by decide)
  case ge => exact key [(ops6, true), (ops7, true), (ops8, true),
    (ops9, false)] [(ops11, false), (ops12, true), (ops13, true)] ops10 false rfl rfl (by decide)
  case eq => exact key [(ops6, true), (ops7, true), (ops8, true)] [(ops10, false),
    (ops11, false), (ops12, true), (ops13, true)] ops9 false rfl rfl (by decide)
  case ne => exact key [(ops6, true), (ops7, true), (ops8, true)] [(ops10, false),
    (ops11, false), (ops12, true), (ops13, true)] ops9 false rfl rfl (by decide)
  case band => exact key [(ops6, true), (ops7, true)] [(ops9, false), (ops10, false),
    (ops11, false), (ops12, true), (ops13, true)] ops8 true rfl rfl (by decide)
  case bxor => exact key [(ops6, true)] [(ops8, true), (ops9, false), (ops10, false),
    (ops11, false), (ops12, true), (ops13, true)] ops7 true rfl rfl (by decide)
  case bor => exact key [] [(ops7, true), (ops8, true), (ops9, false), (ops10, false),
    (ops11, false), (ops12, true), (ops13, true)] ops6 true rfl rfl (by decide)

theorem emit_next_constant (v : Int) (s : PState) (h : 5 ≤ s.compile_remain_loc) :
    emit_op OP_CONSTANT v (next_token s) =
      next_token { s with written := s.written ++ OP_CONSTANT :: constant_bytes v,
                          compile_remain_loc := s.compile_remain_loc - 5 } := by
  rw [emit_op_constant v (next_token s) h]
  rfl

theorem emit_next_var (v : Int) (s : PState) (h : 2 ≤ s.compile_remain_loc) :
    emit_op OP_VAR v (next_token s) =
      next_token { s with written := s.written ++ [OP_VAR, toU32 v % 256],
                          compile_remain_loc := s.compile_remain_loc - 2 } := by
  rw [emit_op_var v (next_token s) h]
  rfl

theorem emit_next_plain (op : Nat) (s : PState) (h : 1 ≤ s.compile_remain_loc)
    (h0 : op ≠ 0) (h1 : op ≠ 1) (h21 : op ≠ 21) :
    emit_op op 0 (next_token s) =
      next_token { s with written := s.written ++ [op],
                          compile_remain_loc := s.compile_remain_loc - 1 } := by
  rw [emit_op_plain op 0 (next_token s) h h0 h1 h21]
  rfl

theorem next_token_closes (s : PState) (h : Closes s.exp_to_parse) :
    (next_token s).current_token = 0 ∨ (next_token s).current_token = 41 :=
  scan_token_closes _ _ h

theorem next_token_cons (s : PState) (c : Nat) (rest : List Nat)
    (h : s.exp_to_parse = c :: rest) (hc : plain_char c = true) :
    (next_token s).current_token = c ∧ (next_token s).exp_to_parse = rest := by
  have := scan_token_plain c rest s.exp_offset hc
  unfold next_token
  rw [h, this]
  exact ⟨rfl, rfl⟩

theorem binop_opcode (op : BinOp) : op.opcode ≠ 0 ∧ op.opcode ≠ 1 ∧ op.opcode ≠ 21 := by
  cases op <;> decide

theorem unop_opcode (op : UnOp) : op.opcode ≠ 0 ∧ op.opcode ≠ 1 ∧ op.opcode ≠ 21 := by
  cases op <;> decide

/-- An operand in parentheses: `parse_exp16` consumes `( e )` when `exp6`
consumes `e`. -/
theorem exp16_operand (exp6 : PState → Option PState) (e : Expr) (rest : List Nat)
    (s0 : PState)
    (h6 : ∀ s, s.exp_to_parse = e.render ++ 41 :: rest → s.got_parser_error = false →
      e.code.length ≤ s.compile_remain_loc →
      ∃ s1, exp6 (next_token s) = some (next_token s1) ∧ After s s1 (41 :: rest) e.code)
    (h0 : s0.exp_to_parse = 40 :: (e.render ++ 41 :: rest))
    (he : s0.got_parser_error = false) (hr : e.code.length ≤ s0.compile_remain_loc) :
    ∃ s1, parse_exp16 exp6 (next_token s0) = some (next_token s1) ∧ After s0 s1 rest e.code := by
  obtain ⟨ht, hx⟩ := next_token_cons s0 40 _ h0 (by decide)
  obtain ⟨s1, h1, a1, a2, a3, a4⟩ := h6 (next_token s0) hx he hr
  obtain ⟨ht1, hx1⟩ := next_token_cons s1 41 _ a1 (by decide)
  exact ⟨next_token s1, exp16_paren exp6 _ _ ht h1 ht1, hx1, a2, a3, a4⟩

theorem render_length_pos (e : Expr) (h : e.Literals) : 1 ≤ e.render.length := by
  cases e with
  | lit ds =>
    have := h.1
    cases ds with
    | nil => exact absurd rfl this
    | cons d ds => simp [Expr.render, literal_text]
  | var v => simp [Expr.render]
  | un op e => simp [Expr.render]; omega
  | bin op l r => simp [Expr.render]

theorem parse_render (e : Expr) : ∀ (k : Nat) (rest : List Nat) (s0 : PState),
    e.Literals → Closes rest → s0.exp_to_parse = e.render ++ rest →
    s0.got_parser_error = false → e.code.length ≤ s0.compile_remain_loc →
    e.render.length ≤ k →
    ∃ s1, parse_exp6 (k + 1) (next_token s0) = some (next_token s1) ∧
      After s0 s1 rest e.code := by
  induction e with
  | lit ds =>
    intro k rest s0 hl hc h0 he hr hk
    have hscan := scan_token_literal ds rest s0.exp_offset hl (closes_noDigit rest hc)
    rw [← show s0.exp_to_parse = literal_text ds ++ rest from h0] at hscan
    have hA := next_token_eq s0 _ _ _ _ hscan
    simp only [Option.getD_some] at hA
    have hr5 : 5 ≤ s0.compile_remain_loc := by
      simpa [Expr.code, constant_bytes] using hr
    have h15 : parse_exp15 (parse_exp6 k) (next_token s0) =
        some (emit_op OP_CONSTANT (Int.ofNat (decimal ds)) (next_token (next_token s0))) := by
      rw [exp15_atom _ _ (by rw [hA]; simp), exp16_const _ _ (by rw [hA])]
      rw [hA]
    rw [emit_next_constant _ _ (by rw [hA]; exact hr5)] at h15
    have hres : parse_exp6 (k + 1) (next_token s0) = _ :=
      levels_operand k _ _ _ h15 (next_token_closes _ (by rw [hA]; exact hc))
    refine ⟨_, hres, ?_⟩
    rw [hA]
    exact ⟨rfl, rfl, by simp [Expr.code, constant_bytes]; omega, he⟩
  | var v =>
    intro k rest s0 hl hc h0 he hr hk
    have hr2 : 2 ≤ s0.compile_remain_loc := by simpa [Expr.code] using hr
    have hscan : scan_token (v.letter :: rest) s0.exp_offset =
        ⟨86, some (Int.ofNat v.slot), ⟨rest, s0.exp_offset + 1⟩⟩ := by
      have := scan_token_letter rest s0.exp_offset
      cases v
      · exact this.1
      · exact this.2.1
      · exact this.2.2.1
      · exact this.2.2.2
    rw [← show s0.exp_to_parse = v.letter :: rest from h0] at hscan
    have hA := next_token_eq s0 _ _ _ _ hscan
    simp only [Option.getD_some] at hA
    have h15 : parse_exp15 (parse_exp6 k) (next_token s0) =
        some (emit_op OP_VAR (Int.ofNat v.slot) (next_token (next_token s0))) := by
      rw [exp15_atom _ _ (by rw [hA]; simp), exp16_var _ _ (by rw [hA])]
      rw [hA]
    rw [emit_next_var _ _ (by rw [hA]; exact hr2)] at h15
    have hres : parse_exp6 (k + 1) (next_token s0) = _ :=
      levels_operand k _ _ _ h15 (next_token_closes _ (by rw [hA]; exact hc))
    refine ⟨_, hres, ?_⟩
    rw [hA]
    refine ⟨rfl, ?_, by simp [Expr.code]; omega, he⟩
    cases v <;> simp [Expr.code, Var.slot, toU32]
  | un op e ih =>
    intro k rest s0 hl hc h0 he hr hk
    have hr1 : e.code.length + 1 ≤ s0.compile_remain_loc := by simpa [Expr.code] using hr
    have hk1 : e.render.length + 3 ≤ k := by
      have : (Expr.un op e).render.length = e.render.length + 3 := by
        cases op <;> simp [Expr.render, UnOp.text]
      omega
    obtain ⟨k, rfl⟩ : ∃ k', k = k' + 1 := ⟨k - 1, by omega⟩
    have h0' : s0.exp_to_parse = op.text ++ 40 :: (e.render ++ 41 :: rest) := by
      rw [h0]; simp [Expr.render]
    have hscan := scan_token_unop op (e.render ++ 41 :: rest) s0.exp_offset
    rw [← h0'] at hscan
    have hA := next_token_eq s0 _ _ _ _ hscan
    simp only [Option.getD_none] at hA
    have hAx : (next_token s0).exp_to_parse = 40 :: (e.render ++ 41 :: rest) := by rw [hA]
    obtain ⟨s1, h16, a1, a2, a3, a4⟩ := exp16_operand (parse_exp6 (k + 1)) e rest (next_token s0)
      (fun s hs hse hsr => ih k (41 :: rest) s hl (Or.inr ⟨rest, rfl⟩) hs hse hsr (by omega))
      hAx he (by simp; omega)
    have h15 : parse_exp15 (parse_exp6 (k + 1)) (next_token s0) =
        some (emit_op op.opcode 0 (next_token s1)) := by
      rw [exp15_unary _ op _ (by rw [hA]), h16, Option.map_some']
    have hop := unop_opcode op
    simp only [next_token_remain, next_token_written] at a2 a3
    rw [emit_next_plain _ _ (by omega) hop.1 hop.2.1 hop.2.2] at h15
    have hres : parse_exp6 (k + 1 + 1) (next_token s0) = _ :=
      levels_operand (k + 1) _ _ _ h15 (next_token_closes _ (a1 ▸ hc))
    refine ⟨_, hres, a1, ?_, ?_, a4⟩
    · simp [a2, Expr.code]
    · simp [Expr.code]; omega
  | bin op l r ihl ihr =>
    intro k rest s0 hl hc h0 he hr hk
    have hr1 : l.code.length + r.code.length + 1 ≤ s0.compile_remain_loc := by
      simpa [Expr.code, Nat.add_assoc] using hr
    have hk1 : l.render.length + r.render.length + 5 ≤ k := by
      have : l.render.length + r.render.length + 5 ≤ (Expr.bin op l r).render.length := by
        cases op <;> simp [Expr.render, BinOp.text] <;> omega
      omega
    obtain ⟨k, rfl⟩ : ∃ k', k = k' + 1 := ⟨k - 1, by omega⟩
    have h0' : s0.exp_to_parse =
        40 :: (l.render ++ 41 :: (op.text ++ 40 :: (r.render ++ 41 :: rest))) := by
      rw [h0]; simp [Expr.render]
    obtain ⟨s1, h16, a1, a2, a3, a4⟩ := exp16_operand (parse_exp6 (k + 1)) l _ s0
      (fun s hs hse hsr => ihl k _ s hl.1 (Or.inr ⟨_, rfl⟩) hs hse hsr (by omega))
      h0' he (by omega)
    have hscan := scan_token_binop op (r.render ++ 41 :: rest) s1.exp_offset
    rw [← a1] at hscan
    have hB := next_token_eq s1 _ _ _ _ hscan
    simp only [Option.getD_none] at hB
    have hBx : (next_token s1).exp_to_parse = 40 :: (r.render ++ 41 :: rest) := by rw [hB]
    have hBt : (next_token s1).current_token = op.token := by rw [hB]
    obtain ⟨s2, h16r, b1, b2, b3, b4⟩ := exp16_operand (parse_exp6 (k + 1)) r rest
      (next_token s1)
      (fun s hs hse hsr => ihr k _ s hl.2 (Or.inr ⟨_, rfl⟩) hs hse hsr (by omega))
      hBx a4 (by simp; omega)
    simp only [next_token_remain, next_token_written] at b2 b3
    have hA40 : (next_token s0).current_token = 40 := (next_token_cons s0 40 _ h0' (by decide)).1
    have hC40 : (next_token (next_token s1)).current_token = 40 :=
      (next_token_cons (next_token s1) 40 _ hBx (by decide)).1
    have hL : parse_exp15 (parse_exp6 (k + 1)) (next_token s0) = some (next_token s1) := by
      rw [exp15_atom _ _ (Or.inl hA40), h16]
    have hR : parse_exp15 (parse_exp6 (k + 1)) (next_token (next_token s1)) =
        some (next_token s2) := by
      rw [exp15_atom _ _ (Or.inl hC40), h16r]
    have hcl := next_token_closes s2 (b1 ▸ hc)
    have hlev := levels_binary op k (parse_exp6 (k + 1)) _ _ _ hL hBt hR hcl
    have hop := binop_opcode op
    rw [emit_next_plain _ _ (by omega) hop.1 hop.2.1 hop.2.2] at hlev
    have hres : parse_exp6 (k + 1 + 1) (next_token s0) = _ := hlev
    refine ⟨_, hres, b1, ?_, ?_, b4⟩
    · simp [b2, a2, Expr.code]
    · simp [Expr.code]; omega

/-- A run that has left the loop stays where it is with more turns allowed. -/
theorem eval_steps_mono (code : List Nat) (len k fuel : Nat) (st st1 : Nat × Machine)
    (h : eval_steps code len k st = some st1) (hend : ¬ st1.1 < len) (hk : k ≤ fuel) :
    eval_steps code len fuel st = some st1 := by
  have : fuel = k + (fuel - k) := by omega
  rw [this, eval_steps_trans _ _ _ _ _ _ h]
  exact eval_steps_done _ _ _ _ hend

/-- What `eval_compiled` returns when its loop ends within the turns allowed. -/
theorem eval_compiled_of_steps (code : List Nat) (len k fuel : Nat) (m : Machine)
    (st1 : Nat × Machine)
    (h : eval_steps code len k (0, { m with eval_stack_pointer := 0 }) = some st1)
    (hend : ¬ st1.1 < len) (hk : k ≤ fuel) :
    eval_compiled fuel code len m = some (stack_pop st1.2) := by
  unfold eval_compiled
  rw [eval_steps_mono _ _ _ _ _ _ h hend hk, Option.some_bind, if_neg hend]

/-- Running the code of a tree from an empty stack returns the tree's value. -/
theorem eval_code (e : Expr) (m : Machine) (fuel : Nat) (hl : e.Literals)
    (hv : Int32Array m.vars) (hd : e.Defined m.vars) (hs : e.slots ≤ 20)
    (h16 : e.code.length ≤ 65535) (hf : e.code.length ≤ fuel) :
    ∃ m1, eval_compiled fuel e.code e.code.length m = some (e.value m.vars, m1) := by
  obtain ⟨k, m1, hk, hrun, hp⟩ := run_code e [] [] e.code.length
    { m with eval_stack_pointer := 0 } hl hv hd (by simpa using hs) (by simp) h16
  simp only [List.nil_append, List.append_nil, List.length_nil, Nat.zero_add] at hrun
  obtain ⟨p1, p2, p3, p4⟩ := hp
  simp only [Nat.zero_add] at p1 p2
  refine ⟨{ m1 with eval_stack_pointer := 0 }, ?_⟩
  rw [eval_compiled_of_steps _ _ k fuel m _ hrun (by simp) (by omega)]
  simp only [stack_pop, p1, gt_iff_lt, zero_lt_one, if_true, Nat.sub_self, p2]

theorem exp0_loop_skip (exp6 : PState → Option PState) (n : Nat) (s : PState)
    (h : s.current_token ≠ 58) : parse_exp0_loop exp6 n s = some s := by
  cases n <;> simp [parse_exp0_loop, parse_accept_ne 58 s h]

theorem first_token (e : Expr) (rest : List Nat) (off : Nat) (hl : e.Literals)
    (hc : Closes rest) : (scan_token (e.render ++ rest) off).token ≠ 58 := by
  cases e with
  | lit ds =>
    simp only [Expr.render]
    rw [scan_token_literal ds rest off hl (closes_noDigit rest hc)]
    simp
  | var v =>
    have := scan_token_letter rest off
    cases v <;> simp [Expr.render, Var.letter, this]
  | un op e =>
    have := scan_token_unop op (e.render ++ 41 :: rest) off
    simp only [Expr.render, List.append_assoc, List.cons_append, List.singleton_append,
      List.nil_append] at this ⊢
    rw [this]
    cases op <;> simp [UnOp.token]
  | bin op l r =>
    simp only [Expr.render, List.cons_append]
    rw [scan_token_plain 40 _ off (by decide)]
    simp

/-- The compiler on the rendering of a tree: it succeeds and writes the
postfix code of the tree. -/
theorem parse_exp_render (e : Expr) (buffer_len : Nat) (hl : e.Literals)
    (hsz : e.code_size ≤ buffer_len) :
    ∃ s, start_parse (e.render.length + 1) (parse_init e.render buffer_len) = some s ∧
      s.got_parser_error = false ∧ s.written = e.code := by
  obtain ⟨s1, h6, a1, a2, a3, a4⟩ := parse_render e e.render.length []
    (parse_init e.render buffer_len) hl (Or.inl rfl) (by simp [parse_init]) rfl
    (by rw [code_length]; exact hsz) (le_refl _)
  have ht : (next_token (parse_init e.render buffer_len)).current_token ≠ 58 := by
    have := first_token e [] 0 hl (Or.inl rfl)
    simpa [next_token, parse_init] using this
  have h0 : (next_token s1).current_token = 0 := by
    unfold next_token
    rw [a1, scan_token_nil]
  have hx : parse_expect 0 (next_token s1) = (true, next_token s1) := by
    simp [parse_expect, parse_accept, h0]
  refine ⟨next_token s1, ?_, a4, ?_⟩
  · unfold start_parse parse_exp0
    rw [exp0_loop_skip _ _ _ ht, Option.some_bind, h6, Option.map_some', hx]
  · simpa [parse_init] using a2

/-- Compiler and interpreter agree with the reference evaluator: for a tree
of decimal literals below 2^31, variables, unary and binary operators, rendered
with every operand in parentheses, `parse_exp` with a buffer large enough for
its code succeeds, and `eval_compiled` on the bytes written returns the tree's
value for every `int32_t` variable array, when the tree needs at most 20 stack
slots, every shift amount is in `0..31` and no division and no modulo is
`INT32_MIN` by `-1` (`Expr.Defined`). The proviso on the modulo cannot be
dropped: the interpreter runs `INT32_MIN % -1` as it does `INT32_MIN / -1`. -/
theorem compile_eval_agree (e : Expr) (buffer_len : Nat) (hl : e.Literals)
    (hcap : buffer_len < 65536) (hsz : e.code_size ≤ buffer_len) :
    ∃ r, parse_exp e.render buffer_len = some r ∧
      r.final.got_parser_error = false ∧ r.ret = e.code_size ∧
      r.final.written.length = r.ret ∧
      ∀ m : Machine, Int32Array m.vars → e.Defined m.vars → e.slots ≤ 20 →
        ∀ fuel, r.ret ≤ fuel →
          ∃ m1, eval_compiled fuel r.final.written r.ret m = some (e.value m.vars, m1) := by
  obtain ⟨s, hs, he, hw⟩ := parse_exp_render e buffer_len hl hsz
  have hlen : e.code.length = e.code_size := code_length e
  have hmod : e.code_size % 65536 = e.code_size := Nat.mod_eq_of_lt (by omega)
  unfold parse_exp
  rw [hs, Option.map_some']
  refine ⟨_, rfl, ?_⟩
  simp only [he, Bool.false_eq_true, if_false, hw, hlen, hmod, true_and]
  intro m hv hd hsl fuel hf
  have := eval_code e m fuel hl hv hd hsl (by omega) (by omega)
  rwa [hlen] at this

theorem next_token_mk (x : List Nat) (o : Nat) (w : List Nat) (r t : Nat) (v : Int)
    (e : Bool) (l : Nat) :
    next_token ⟨x, o, w, r, t, v, e, l⟩ =
      ⟨(scan_token x o).p.chars, (scan_token x o).p.off, w, r, (scan_token x o).token,
        (scan_token x o).value.getD v, e, l⟩ := rfl

theorem parse_error_mk (x : List Nat) (o : Nat) (w : List Nat) (r t : Nat) (v : Int)
    (e : Bool) (l : Nat) :
    parse_error ⟨x, o, w, r, t, v, e, l⟩ =
      if e = true then ⟨x, o, w, r, t, v, e, l⟩ else ⟨x, o, w, r, t, v, true, o⟩ := rfl

theorem parse_accept_mk (tok : Nat) (x : List Nat) (o : Nat) (w : List Nat) (r t : Nat)
    (v : Int) (e : Bool) (l : Nat) :
    parse_accept tok ⟨x, o, w, r, t, v, e, l⟩ =
      if t = tok then
        (true, if t ≠ 0 then next_token ⟨x, o, w, r, t, v, e, l⟩ else ⟨x, o, w, r, t, v, e, l⟩)
      else (false, ⟨x, o, w, r, t, v, e, l⟩) := rfl

theorem parse_expect_mk (tok : Nat) (x : List Nat) (o : Nat) (w : List Nat) (r t : Nat)
    (v : Int) (e : Bool) (l : Nat) :
    parse_expect tok ⟨x, o, w, r, t, v, e, l⟩ =
      if t = tok then
        (true, if t ≠ 0 then next_token ⟨x, o, w, r, t, v, e, l⟩ else ⟨x, o, w, r, t, v, e, l⟩)
      else (false, parse_error ⟨x, o, w, r, t, v, e, l⟩) := by
  unfold parse_expect
  rw [parse_accept_mk]
  split_ifs <;> rfl

theorem parse_exp16_mk (exp6 : PState → Option PState) (x : List Nat) (o : Nat)
    (w : List Nat) (r t : Nat) (v : Int) (e : Bool) (l : Nat) :
    parse_exp16 exp6 ⟨x, o, w, r, t, v, e, l⟩ =
      if t = 86 then some (emit_op OP_VAR v (next_token ⟨x, o, w, r, t, v, e, l⟩))
      else if t = 48 then some (emit_op OP_CONSTANT v (next_token ⟨x, o, w, r, t, v, e, l⟩))
      else if t = 40 then
        (exp6 (next_token ⟨x, o, w, r, t, v, e, l⟩)).map (fun s4 => (parse_expect 41 s4).2)
      else some (parse_error ⟨x, o, w, r, t, v, e, l⟩) := by
  by_cases h1 : t = 86
  · subst h1; simp [parse_exp16, parse_accept]
  · by_cases h2 : t = 48
    · subst h2; simp [parse_exp16, parse_accept]
    · by_cases h3 : t = 40
      · subst h3; simp [parse_exp16, parse_accept, parse_expect]
      · simp [parse_exp16, parse_accept, parse_expect, h1, h2, h3]

theorem parse_exp15_mk (exp6 : PState → Option PState) (x : List Nat) (o : Nat)
    (w : List Nat) (r t : Nat) (v : Int) (e : Bool) (l : Nat) :
    parse_exp15 exp6 ⟨x, o, w, r, t, v, e, l⟩ =
      if t = 43 then parse_exp16 exp6 (next_token ⟨x, o, w, r, t, v, e, l⟩)
      else if t = 45 then
        (parse_exp16 exp6 (next_token ⟨x, o, w, r, t, v, e, l⟩)).map (emit_op OP_NEGATE 0)
      else if t = 33 then
        (parse_exp16 exp6 (next_token ⟨x, o, w, r, t, v, e, l⟩)).map (emit_op OP_BOOLEAN_NOT 0)
      else if t = 126 then
        (parse_exp16 exp6 (next_token ⟨x, o, w, r, t, v, e, l⟩)).map (emit_op OP_LOGICAL_NOT 0)
      else parse_exp16 exp6 ⟨x, o, w, r, t, v, e, l⟩ := by
  by_cases h1 : t = 43
  · subst h1; simp [parse_exp15, parse_accept]
  · by_cases h2 : t = 45
    · subst h2; simp [parse_exp15, parse_accept]
    · by_cases h3 : t = 33
      · subst h3; simp [parse_exp15, parse_accept]
      · by_cases h4 : t = 126
        · subst h4; simp [parse_exp15, parse_accept]
        · simp [parse_exp15, parse_accept, h1, h2, h3, h4]

theorem while_binary_mk (ops : Nat → Option Nat) (sub : PState → Option PState) (k : Nat)
    (x : List Nat) (o : Nat) (w : List Nat) (r t : Nat) (v : Int) (e : Bool) (l : Nat) :
    while_binary ops sub (k + 1) ⟨x, o, w, r, t, v, e, l⟩ =
      match ops t with
      | none => some ⟨x, o, w, r, t, v, e, l⟩
      | some op =>
        (sub (next_token ⟨x, o, w, r, t, v, e, l⟩)).bind
          (fun s2 => while_binary ops sub k (emit_op op 0 s2)) := by
  simp only [while_binary]
  cases ops t with
  | none => rfl
  | some op => cases sub (next_token ⟨x, o, w, r, t, v, e, l⟩) <;> rfl

theorem if_binary_mk (ops : Nat → Option Nat) (sub : PState → Option PState)
    (x : List Nat) (o : Nat) (w : List Nat) (r t : Nat) (v : Int) (e : Bool) (l : Nat) :
    if_binary ops sub ⟨x, o, w, r, t, v, e, l⟩ =
      match ops t with
      | none => some ⟨x, o, w, r, t, v, e, l⟩
      | some op => (sub (next_token ⟨x, o, w, r, t, v, e, l⟩)).map (emit_op op 0) := rfl

theorem parse_exp13_mk (n : Nat) (exp6 : PState → Option PState) (x : List Nat) (o : Nat)
    (w : List Nat) (r t : Nat) (v : Int) (e : Bool) (l : Nat) :
    parse_exp13 n exp6 ⟨x, o, w, r, t, v, e, l⟩ =
      (parse_exp15 exp6 ⟨x, o, w, r, t, v, e, l⟩).bind
        (while_binary ops13 (parse_exp15 exp6) n) := rfl

theorem parse_exp12_mk (n : Nat) (exp6 : PState → Option PState) (x : List Nat) (o : Nat)
    (w : List Nat) (r t : Nat) (v : Int) (e : Bool) (l : Nat) :
    parse_exp12 n exp6 ⟨x, o, w, r, t, v, e, l⟩ =
      (parse_exp13 n exp6 ⟨x, o, w, r, t, v, e, l⟩).bind
        (while_binary ops12 (parse_exp13 n exp6) n) := rfl

theorem parse_exp11_mk (n : Nat) (exp6 : PState → Option PState) (x : List Nat) (o : Nat)
    (w : List Nat) (r t : Nat) (v : Int) (e : Bool) (l : Nat) :
    parse_exp11 n exp6 ⟨x, o, w, r, t, v, e, l⟩ =
      (parse_exp12 n exp6 ⟨x, o, w, r, t, v, e, l⟩).bind
        (if_binary ops11 (parse_exp12 n exp6)) := rfl

theorem parse_exp10_mk (n : Nat) (exp6 : PState → Option PState) (x : List Nat) (o : Nat)
    (w : List Nat) (r t : Nat) (v : Int) (e : Bool) (l : Nat) :
    parse_exp10 n exp6 ⟨x, o, w, r, t, v, e, l⟩ =
      (parse_exp11 n exp6 ⟨x, o, w, r, t, v, e, l⟩).bind
        (if_binary ops10 (parse_exp11 n exp6)) := rfl

theorem parse_exp9_mk (n : Nat) (exp6 : PState → Option PState) (x : List Nat) (o : Nat)
    (w : List Nat) (r t : Nat) (v : Int) (e : Bool) (l : Nat) :
    parse_exp9 n exp6 ⟨x, o, w, r, t, v, e, l⟩ =
      (parse_exp10 n exp6 ⟨x, o, w, r, t, v, e, l⟩).bind
        (if_binary ops9 (parse_exp10 n exp6)) := rfl

theorem parse_exp8_mk (n : Nat) (exp6 : PState → Option PState) (x : List Nat) (o : Nat)
    (w : List Nat) (r t : Nat) (v : Int) (e : Bool) (l : Nat) :
    parse_exp8 n exp6 ⟨x, o, w, r, t, v, e, l⟩ =
      (parse_exp9 n exp6 ⟨x, o, w, r, t, v, e, l⟩).bind
        (while_binary ops8 (parse_exp9 n exp6) n) := rfl

theorem parse_exp7_mk (n : Nat) (exp6 : PState → Option PState) (x : List Nat) (o : Nat)
    (w : List Nat) (r t : Nat) (v : Int) (e : Bool) (l : Nat) :
    parse_exp7 n exp6 ⟨x, o, w, r, t, v, e, l⟩ =
      (parse_exp8 n exp6 ⟨x, o, w, r, t, v, e, l⟩).bind
        (while_binary ops7 (parse_exp8 n exp6) n) := rfl

theorem parse_exp6_mk (n : Nat) (x : List Nat) (o : Nat)
    (w : List Nat) (r t : Nat) (v : Int) (e : Bool) (l : Nat) :
    parse_exp6 (n + 1) ⟨x, o, w, r, t, v, e, l⟩ =
      (parse_exp7 n (parse_exp6 n) ⟨x, o, w, r, t, v, e, l⟩).bind
        (while_binary ops6 (parse_exp7 n (parse_exp6 n)) n) := rfl

theorem parse_exp0_loop_mk (exp6 : PState → Option PState) (n : Nat) (x : List Nat) (o : Nat)
    (w : List Nat) (r t : Nat) (v : Int) (e : Bool) (l : Nat) :
    parse_exp0_loop exp6 (n + 1) ⟨x, o, w, r, t, v, e, l⟩ =
      if t = 58 then
        (let s1 := next_token ⟨x, o, w, r, t, v, e, l⟩
         let tok_val := toU32 s1.current_token_value % 256
         let r1 := parse_expect 86 s1
         if r1.1 then
           let r2 := parse_expect 65 r1.2
           if r2.1 then
             (exp6 r2.2).bind (fun s3 =>
               let r3 := parse_expect 59 s3
               parse_exp0_loop exp6 n
                 (if r3.1 then emit_op OP_ASSIGN (Int.ofNat tok_val) r3.2 else r3.2))
           else parse_exp0_loop exp6 n r2.2
         else parse_exp0_loop exp6 n r1.2)
      else some ⟨x, o, w, r, t, v, e, l⟩ := by
  by_cases h1 : t = 58
  · subst h1
    have h58 : (58 : Nat) ≠ 0 := by decide
    simp only [parse_exp0_loop, parse_accept, if_true, h58, ne_eq, not_false_eq_true]
    split_ifs
    · cases exp6 (parse_expect 65 (parse_expect 86
        (next_token ⟨x, o, w, r, 58, v, e, l⟩)).2).2 <;> rfl
    · rfl
    · rfl
  · simp [parse_exp0_loop, parse_accept, h1]

theorem parse_exp0_mk (n : Nat) (x : List Nat) (o : Nat)
    (w : List Nat) (r t : Nat) (v : Int) (e : Bool) (l : Nat) :
    parse_exp0 n ⟨x, o, w, r, t, v, e, l⟩ =
      (parse_exp0_loop (parse_exp6 n) n ⟨x, o, w, r, t, v, e, l⟩).bind (parse_exp6 n) := rfl

theorem skip_space_off (l : List Nat) (off : Nat) : off ≤ (skip_space l off).off := by
  induction l generalizing off with
  | nil => simp [skip_space]
  | cons c cs ih =>
    unfold skip_space
    split_ifs
    · have := ih (off + 1); omega
    · simp

theorem scan_number_off (v : Nat) (l : List Nat) (off : Nat) :
    off ≤ (scan_number v l off).2.off := by
  induction l generalizing v off with
  | nil => simp [scan_number]
  | cons c cs ih =>
    unfold scan_number
    split_ifs
    · have := ih ((v * 10 + (c - 48)) % 4294967296) (off + 1); omega
    · simp

/-- The pointer after a token is beyond the pointer before it. -/
theorem scan_token_off (chars : List Nat) (off : Nat) : off < (scan_token chars off).p.off := by
  have h1 := skip_space_off chars off
  have h2 := scan_number_off ((skip_space chars off).peek - 48) (skip_space chars off).inc.chars
    (skip_space chars off).inc.off
  have h3 : (skip_space chars off).inc.off = (skip_space chars off).off + 1 := rfl
  have h4 : (skip_space chars off).inc.inc.off = (skip_space chars off).off + 2 := rfl
  rcases scan_token_pointer chars off with e | e | e <;> rw [e] <;> omega

theorem text_stray : text "1 + * 2" = [49, 32, 43, 32, 42, 32, 50] := by decide

theorem stray_ample (c : Nat) :
    ∃ r, parse_exp [49, 32, 43, 32, 42, 32, 50] (c + 12) = some r ∧ r.ret = 0 ∧
      r.final.got_parser_error = true ∧ r.error_pos = 5 := by
  simp [parse_exp, parse_init, start_parse, next_token_mk, parse_error_mk,
    parse_expect_mk, parse_exp16_mk, parse_exp15_mk, while_binary_mk, if_binary_mk,
    parse_exp13_mk, parse_exp12_mk, parse_exp11_mk, parse_exp10_mk, parse_exp9_mk, parse_exp8_mk,
    parse_exp7_mk, parse_exp6_mk, parse_exp0_loop_mk, parse_exp0_mk,
    ops6, ops7, ops8, ops9, ops10, ops11, ops12, ops13,
    scan_token, skip_space, scan_number, Cursor.peek, Cursor.inc, one_char_token,
    emit_op_constant, emit_op_plain, OP_MULTIPLY, OP_PLUS]

set_option maxRecDepth 8000 in
theorem stray_tight : ∀ cap ∈ [5, 6, 7, 8, 9, 10, 11],
    (parse_exp [49, 32, 43, 32, 42, 32, 50] cap).map
      (fun r => (r.ret, r.final.got_parser_error, r.error_pos)) = some (0, true, 5) := by
  decide

/-- C4, as the code has it. The offset reported for a token that cannot start
an operand is the offset just after that token, where the text pointer stands
once the token has been read, and not the offset of the token's first
character: on `1 + * 2` with a capacity of at least 5 bytes `parse_exp` fails
and reports offset 5, one past the stray `*` at offset 4. In general
`parse_exp16` on such a token records the pointer left by `next_token`, which
is beyond the pointer at which the token was read. -/
theorem error_offset_after_token (buffer_len : Nat) (hcap : 5 ≤ buffer_len) :
    (∃ r, parse_exp (text "1 + * 2") buffer_len = some r ∧ r.ret = 0 ∧
      r.final.got_parser_error = true ∧ r.error_pos = 5) ∧
    (∀ (exp6 : PState → Option PState) (s0 : PState),
      (next_token s0).current_token ≠ 86 → (next_token s0).current_token ≠ 48 →
      (next_token s0).current_token ≠ 40 → s0.got_parser_error = false →
      ∃ s2, parse_exp16 exp6 (next_token s0) = some s2 ∧ s2.got_parser_error = true ∧
        s2.parser_error_location = (next_token s0).exp_offset ∧
        s0.exp_offset < s2.parser_error_location) := by
  constructor
  · rw [text_stray]
    by_cases h : buffer_len < 12
    · have hm : buffer_len ∈ [5, 6, 7, 8, 9, 10, 11] := by
        simp only [List.mem_cons, List.mem_singleton, List.not_mem_nil, or_false]
        omega
      have := stray_tight buffer_len hm
      obtain ⟨r, hr⟩ := parse_exp_total [49, 32, 43, 32, 42, 32, 50] buffer_len
      rw [hr] at this
      simp only [Option.map_some', Option.some.injEq, Prod.mk.injEq] at this
      exact ⟨r, hr, this.1, this.2.1, this.2.2⟩
    · obtain ⟨c, rfl⟩ : ∃ c, buffer_len = c + 12 := ⟨buffer_len - 12, by omega⟩
      exact stray_ample c
  · intro exp6 s0 h86 h48 h40 he
    refine ⟨parse_error (next_token s0), ?_, parse_error_flag _, ?_, ?_⟩
    · simp [parse_exp16, parse_accept_ne 86 _ h86, parse_accept_ne 48 _ h48,
        parse_expect_ne 40 _ h40]
    · simp [parse_error, he]
    · simp only [parse_error, next_token_flag, he, Bool.false_eq_true, if_false]
      exact scan_token_off _ _

/-- Witness for C4: a buffer of 256 bytes. -/
theorem error_offset_after_token_witness :
    (5 : Nat) ≤ 256 ∧
    (∃ r, parse_exp (text "1 + * 2") 256 = some r ∧ r.ret = 0 ∧
      r.final.got_parser_error = true ∧ r.error_pos = 5) :=
  ⟨by decide, (error_offset_after_token 256 (by decide)).1⟩

/-- C4 as stated fails: on `1 + * 2` the stray `*` is the character at offset 4
and `parse_exp` reports offset 5. -/
theorem error_offset_counterexample :
    (text "1 + * 2").get? 4 = some 42 ∧
    (parse_exp (text "1 + * 2") 256).map (fun r => (r.ret, r.error_pos)) = some (0, 5) := by
  decide

/-- A compilation that ends without error having written the code of a tree:
what `parse_exp` returns and what `eval_compiled` makes of it. -/
theorem compiled_as (exp : List Nat) (buffer_len : Nat) (e : Expr) (s : PState)
    (hs : start_parse (exp.length + 1) (parse_init exp buffer_len) = some s)
    (he : s.got_parser_error = false) (hw : s.written = e.code) (hl : e.Literals)
    (h16 : e.code_size ≤ 65535) :
    ∃ r, parse_exp exp buffer_len = some r ∧ r.final.got_parser_error = false ∧
      r.ret = e.code_size ∧ r.final.written = e.code ∧
      ∀ m : Machine, Int32Array m.vars → e.Defined m.vars → e.slots ≤ 20 →
        ∀ fuel, e.code_size ≤ fuel →
          ∃ m1, eval_compiled fuel r.final.written r.ret m = some (e.value m.vars, m1) := by
  have hlen : e.code.length = e.code_size := code_length e
  have hmod : e.code_size % 65536 = e.code_size := Nat.mod_eq_of_lt (by omega)
  unfold parse_exp
  rw [hs, Option.map_some']
  refine ⟨_, rfl, ?_⟩
  simp only [he, Bool.false_eq_true, if_false, hw, hlen, hmod, true_and]
  intro m hv hd hsl fuel hf
  have := eval_code e m fuel hl hv hd hsl (by omega) (by omega)
  rwa [hlen] at this

theorem parse_add_mul (x y z : List Nat) (hx : IsLiteral x) (hy : IsLiteral y)
    (hz : IsLiteral z) (c : Nat) :
    ∃ s, start_parse
        ((literal_text x ++ 43 :: (literal_text y ++ 42 :: literal_text z)).length + 1)
        (parse_init (literal_text x ++ 43 :: (literal_text y ++ 42 :: literal_text z))
          (c + 17)) = some s ∧ s.got_parser_error = false ∧
      s.written = (Expr.bin .add (.lit x) (.bin .mul (.lit y) (.lit z))).code := by
  have hx1 : 1 ≤ x.length := List.length_pos.mpr hx.1
  obtain ⟨N, hN⟩ : ∃ N,
      (literal_text x ++ 43 :: (literal_text y ++ 42 :: literal_text z)).length + 1 = N + 4 :=
    ⟨x.length + y.length + z.length - 1, by simp [literal_text]; omega⟩
  rw [hN]
  simp [parse_init, start_parse, next_token_mk, parse_error_mk,
    parse_expect_mk, parse_exp16_mk, parse_exp15_mk, while_binary_mk, if_binary_mk,
    parse_exp13_mk, parse_exp12_mk, parse_exp11_mk, parse_exp10_mk, parse_exp9_mk, parse_exp8_mk,
    parse_exp7_mk, parse_exp6_mk, parse_exp0_loop_mk, parse_exp0_mk,
    ops6, ops7, ops8, ops9, ops10, ops11, ops12, ops13,
    scan_token_literal, scan_token_literal_end, scan_token_plain, scan_token_nil, plain_char,
    NoDigit, hx, hy, hz,
    emit_op_constant, emit_op_plain, OP_MULTIPLY, OP_PLUS, Expr.code, BinOp.opcode]

theorem parse_paren_add_mul (x y z : List Nat) (hx : IsLiteral x) (hy : IsLiteral y)
    (hz : IsLiteral z) (c : Nat) :
    ∃ s, start_parse
        ((40 :: (literal_text x ++ 43 :: (literal_text y ++ 41 :: 42 :: literal_text z))).length
          + 1)
        (parse_init (40 :: (literal_text x ++ 43 :: (literal_text y ++ 41 :: 42 :: literal_text z)))
          (c + 17)) = some s ∧ s.got_parser_error = false ∧
      s.written = (Expr.bin .mul (.bin .add (.lit x) (.lit y)) (.lit z)).code := by
  have hx1 : 1 ≤ x.length := List.length_pos.mpr hx.1
  obtain ⟨N, hN⟩ : ∃ N,
      (40 :: (literal_text x ++ 43 :: (literal_text y ++ 41 :: 42 :: literal_text z))).length + 1
        = N + 6 :=
    ⟨x.length + y.length + z.length - 1, by simp [literal_text]; omega⟩
  rw [hN]
  simp [parse_init, start_parse, next_token_mk, parse_error_mk,
    parse_expect_mk, parse_exp16_mk, parse_exp15_mk, while_binary_mk, if_binary_mk,
    parse_exp13_mk, parse_exp12_mk, parse_exp11_mk, parse_exp10_mk, parse_exp9_mk, parse_exp8_mk,
    parse_exp7_mk, parse_exp6_mk, parse_exp0_loop_mk, parse_exp0_mk,
    ops6, ops7, ops8, ops9, ops10, ops11, ops12, ops13,
    scan_token_literal, scan_token_literal_end, scan_token_plain, scan_token_nil, plain_char,
    NoDigit, hx, hy, hz,
    emit_op_constant, emit_op_plain, OP_MULTIPLY, OP_PLUS, Expr.code, BinOp.opcode]

/-- C5. Multiplication binds tighter than addition: for decimal literals `x`,
`y`, `z` below 2^31, a buffer of at least 17 bytes and every `int32_t` variable
array, `parse_exp` succeeds on `x+y*z` and on `(x+y)*z`, and `eval_compiled`
returns `x + (y*z)` for the first and `(x+y)*z` for the second, in 32-bit
wraparound arithmetic. -/
theorem precedence_mul_add (x y z : List Nat) (buffer_len : Nat) (hx : IsLiteral x)
    (hy : IsLiteral y) (hz : IsLiteral z) (hcap : 17 ≤ buffer_len) :
    (∃ r, parse_exp (literal_text x ++ 43 :: (literal_text y ++ 42 :: literal_text z))
        buffer_len = some r ∧ r.final.got_parser_error = false ∧ r.ret = 17 ∧
      ∀ m : Machine, Int32Array m.vars → ∀ fuel, 17 ≤ fuel →
        ∃ m1, eval_compiled fuel r.final.written r.ret m =
          some (wrap32 (Int.ofNat (decimal x) +
            wrap32 (Int.ofNat (decimal y) * Int.ofNat (decimal z))), m1)) ∧
    (∃ r, parse_exp
        (40 :: (literal_text x ++ 43 :: (literal_text y ++ 41 :: 42 :: literal_text z)))
        buffer_len = some r ∧ r.final.got_parser_error = false ∧ r.ret = 17 ∧
      ∀ m : Machine, Int32Array m.vars → ∀ fuel, 17 ≤ fuel →
        ∃ m1, eval_compiled fuel r.final.written r.ret m =
          some (wrap32 (wrap32 (Int.ofNat (decimal x) + Int.ofNat (decimal y)) *
            Int.ofNat (decimal z)), m1)) := by
  obtain ⟨c, rfl⟩ : ∃ c, buffer_len = c + 17 := ⟨buffer_len - 17, by omega⟩
  constructor
  · obtain ⟨s, hs, he, hw⟩ := parse_add_mul x y z hx hy hz c
    obtain ⟨r, hr, h1, h2, _, h4⟩ := compiled_as _ _ _ s hs he hw ⟨hx, hy, hz⟩ (by simp [Expr.code_size])
    refine ⟨r, hr, h1, h2, fun m hv fuel hf => ?_⟩
    exact h4 m hv (by simp [Expr.Defined]) (by simp [Expr.slots]) fuel hf
  · obtain ⟨s, hs, he, hw⟩ := parse_paren_add_mul x y z hx hy hz c
    obtain ⟨r, hr, h1, h2, _, h4⟩ := compiled_as _ _ _ s hs he hw ⟨⟨hx, hy⟩, hz⟩ (by simp [Expr.code_size])
    refine ⟨r, hr, h1, h2, fun m hv fuel hf => ?_⟩
    exact h4 m hv (by simp [Expr.Defined]) (by simp [Expr.slots]) fuel hf

/-- Witness for C5: `1+2*3` gives 7 and `(1+2)*3` gives 9. -/
theorem precedence_mul_add_witness :
    (∃ r, parse_exp (text "1+2*3") 256 = some r ∧ r.final.got_parser_error = false ∧
      r.ret = 17 ∧
      ∀ m : Machine, Int32Array m.vars → ∀ fuel, 17 ≤ fuel →
        ∃ m1, eval_compiled fuel r.final.written r.ret m = some (7, m1)) ∧
    (∃ r, parse_exp (text "(1+2)*3") 256 = some r ∧ r.final.got_parser_error = false ∧
      r.ret = 17 ∧
      ∀ m : Machine, Int32Array m.vars → ∀ fuel, 17 ≤ fuel →
        ∃ m1, eval_compiled fuel r.final.written r.ret m = some (9, m1)) :=
  precedence_mul_add [1] [2] [3] 256 ⟨by decide, by decide, by decide⟩
    ⟨by decide, by decide, by decide⟩ ⟨by decide, by decide, by decide⟩ (by decide)

theorem parse_sub_sub (x y z : List Nat) (hx : IsLiteral x) (hy : IsLiteral y)
    (hz : IsLiteral z) (c : Nat) :
    ∃ s, start_parse
        ((literal_text x ++ 45 :: (literal_text y ++ 45 :: literal_text z)).length + 1)
        (parse_init (literal_text x ++ 45 :: (literal_text y ++ 45 :: literal_text z))
          (c + 17)) = some s ∧ s.got_parser_error = false ∧
      s.written = (Expr.bin .sub (.bin .sub (.lit x) (.lit y)) (.lit z)).code := by
  have hx1 : 1 ≤ x.length := List.length_pos.mpr hx.1
  obtain ⟨N, hN⟩ : ∃ N,
      (literal_text x ++ 45 :: (literal_text y ++ 45 :: literal_text z)).length + 1 = N + 4 :=
    ⟨x.length + y.length + z.length - 1, by simp [literal_text]; omega⟩
  rw [hN]
  simp [parse_init, start_parse, next_token_mk, parse_error_mk,
    parse_expect_mk, parse_exp16_mk, parse_exp15_mk, while_binary_mk, if_binary_mk,
    parse_exp13_mk, parse_exp12_mk, parse_exp11_mk, parse_exp10_mk, parse_exp9_mk, parse_exp8_mk,
    parse_exp7_mk, parse_exp6_mk, parse_exp0_loop_mk, parse_exp0_mk,
    ops6, ops7, ops8, ops9, ops10, ops11, ops12, ops13,
    scan_token_literal, scan_token_literal_end, scan_token_plain, scan_token_nil, plain_char,
    NoDigit, hx, hy, hz,
    emit_op_constant, emit_op_plain, OP_MINUS, Expr.code, BinOp.opcode]

/-- C6. Subtraction is left-associative: for decimal literals `x`, `y`, `z`
below 2^31, a buffer of at least 17 bytes and every `int32_t` variable array,
`parse_exp` succeeds on `x-y-z` and `eval_compiled` returns `(x-y)-z` in 32-bit
wraparound arithmetic. -/
theorem subtraction_left_assoc (x y z : List Nat) (buffer_len : Nat) (hx : IsLiteral x)
    (hy : IsLiteral y) (hz : IsLiteral z) (hcap : 17 ≤ buffer_len) :
    ∃ r, parse_exp (literal_text x ++ 45 :: (literal_text y ++ 45 :: literal_text z))
        buffer_len = some r ∧ r.final.got_parser_error = false ∧ r.ret = 17 ∧
      ∀ m : Machine, Int32Array m.vars → ∀ fuel, 17 ≤ fuel →
        ∃ m1, eval_compiled fuel r.final.written r.ret m =
          some (wrap32 (wrap32 (Int.ofNat (decimal x) - Int.ofNat (decimal y)) -
            Int.ofNat (decimal z)), m1) := by
  obtain ⟨c, rfl⟩ : ∃ c, buffer_len = c + 17 := ⟨buffer_len - 17, by omega⟩
  obtain ⟨s, hs, he, hw⟩ := parse_sub_sub x y z hx hy hz c
  obtain ⟨r, hr, h1, h2, _, h4⟩ := compiled_as _ _ _ s hs he hw ⟨⟨hx, hy⟩, hz⟩
    (by simp [Expr.code_size])
  refine ⟨r, hr, h1, h2, fun m hv fuel hf => ?_⟩
  exact h4 m hv (by simp [Expr.Defined]) (by simp [Expr.slots]) fuel hf

/-- Witness for C6: `10-3-2` gives 5, where `10-(3-2)` would be 9. -/
theorem subtraction_left_assoc_witness :
    (∃ r, parse_exp (text "10-3-2") 256 = some r ∧ r.final.got_parser_error = false ∧
      r.ret = 17 ∧
      ∀ m : Machine, Int32Array m.vars → ∀ fuel, 17 ≤ fuel →
        ∃ m1, eval_compiled fuel r.final.written r.ret m = some (5, m1)) ∧
    wrap32 (10 - wrap32 (3 - 2)) = 9 :=
  ⟨subtraction_left_assoc [1, 0] [3] [2] 256 ⟨by decide, by decide, by decide⟩
    ⟨by decide, by decide, by decide⟩ ⟨by decide, by decide, by decide⟩ (by decide),
   by decide⟩

theorem parse_div_zero (n : List Nat) (hn : IsLiteral n) (c : Nat) :
    ∃ s, start_parse ((literal_text n ++ [47, 48]).length + 1)
        (parse_init (literal_text n ++ [47, 48]) (c + 11)) = some s ∧
      s.got_parser_error = false ∧
      s.written = (Expr.bin .div (.lit n) (.lit [0])).code := by
  have hn1 : 1 ≤ n.length := List.length_pos.mpr hn.1
  have h0 : ∀ o, scan_token [48] o = ⟨48, some (Int.ofNat (decimal [0])), ⟨[], o + 1⟩⟩ :=
    fun o => scan_token_literal_end [0] o ⟨by decide, by decide, by decide⟩
  obtain ⟨N, hN⟩ : ∃ N, (literal_text n ++ [47, 48]).length + 1 = N + 4 :=
    ⟨n.length - 1, by simp [literal_text]; omega⟩
  rw [hN]
  simp [parse_init, start_parse, next_token_mk, parse_error_mk,
    parse_expect_mk, parse_exp16_mk, parse_exp15_mk, while_binary_mk, if_binary_mk,
    parse_exp13_mk, parse_exp12_mk, parse_exp11_mk, parse_exp10_mk, parse_exp9_mk, parse_exp8_mk,
    parse_exp7_mk, parse_exp6_mk, parse_exp0_loop_mk, parse_exp0_mk,
    ops6, ops7, ops8, ops9, ops10, ops11, ops12, ops13,
    scan_token_literal, h0, scan_token_plain, scan_token_nil, plain_char,
    NoDigit, hn,
    emit_op_constant, emit_op_plain, OP_DIVIDE, Expr.code, BinOp.opcode]

theorem parse_mod_zero (n : List Nat) (hn : IsLiteral n) (c : Nat) :
    ∃ s, start_parse ((literal_text n ++ [37, 48]).length + 1)
        (parse_init (literal_text n ++ [37, 48]) (c + 11)) = some s ∧
      s.got_parser_error = false ∧
      s.written = (Expr.bin .mod (.lit n) (.lit [0])).code := by
  have hn1 : 1 ≤ n.length := List.length_pos.mpr hn.1
  have h0 : ∀ o, scan_token [48] o = ⟨48, some (Int.ofNat (decimal [0])), ⟨[], o + 1⟩⟩ :=
    fun o => scan_token_literal_end [0] o ⟨by decide, by decide, by decide⟩
  obtain ⟨N, hN⟩ : ∃ N, (literal_text n ++ [37, 48]).length + 1 = N + 4 :=
    ⟨n.length - 1, by simp [literal_text]; omega⟩
  rw [hN]
  simp [parse_init, start_parse, next_token_mk, parse_error_mk,
    parse_expect_mk, parse_exp16_mk, parse_exp15_mk, while_binary_mk, if_binary_mk,
    parse_exp13_mk, parse_exp12_mk, parse_exp11_mk, parse_exp10_mk, parse_exp9_mk, parse_exp8_mk,
    parse_exp7_mk, parse_exp6_mk, parse_exp0_loop_mk, parse_exp0_mk,
    ops6, ops7, ops8, ops9, ops10, ops11, ops12, ops13,
    scan_token_literal, h0, scan_token_plain, scan_token_nil, plain_char,
    NoDigit, hn,
    emit_op_constant, emit_op_plain, OP_MODULO, Expr.code, BinOp.opcode]

/-- C8. Division and modulo by zero yield 0. Whenever the loop of
`eval_compiled` executes `OP_DIVIDE` or `OP_MODULO` and the right-hand operand
it pops is 0, it pushes 0, whatever the left-hand operand is. In particular,
for a decimal literal `n` below 2^31 and a buffer of at least 11 bytes, `n/0`
and `n%0` compile and evaluate to 0. -/
theorem division_by_zero (n : List Nat) (buffer_len : Nat) (hn : IsLiteral n)
    (hcap : 11 ≤ buffer_len) :
    (∀ (compiled_exp : List Nat) (pc : Nat) (m : Machine),
      (byte_at compiled_exp pc = OP_DIVIDE ∨ byte_at compiled_exp pc = OP_MODULO) →
      (stack_pop m).1 = 0 →
      (exec_op compiled_exp pc m).map Prod.snd =
        some (stack_push 0 (stack_pop (stack_pop m).2).2)) ∧
    (∃ r, parse_exp (literal_text n ++ [47, 48]) buffer_len = some r ∧
      r.final.got_parser_error = false ∧ r.ret = 11 ∧
      ∀ m : Machine, Int32Array m.vars → ∀ fuel, 11 ≤ fuel →
        ∃ m1, eval_compiled fuel r.final.written r.ret m = some (0, m1)) ∧
    (∃ r, parse_exp (literal_text n ++ [37, 48]) buffer_len = some r ∧
      r.final.got_parser_error = false ∧ r.ret = 11 ∧
      ∀ m : Machine, Int32Array m.vars → ∀ fuel, 11 ≤ fuel →
        ∃ m1, eval_compiled fuel r.final.written r.ret m = some (0, m1)) := by
  obtain ⟨c, rfl⟩ : ∃ c, buffer_len = c + 11 := ⟨buffer_len - 11, by omega⟩
  have hz : IsLiteral [0] := ⟨by decide, by decide, by decide⟩
  refine ⟨?_, ?_, ?_⟩
  · intro code pc m hop h0
    rcases hop with hop | hop
    · simp only [exec_op, hop, OP_DIVIDE, exec_division, h0, c_div, if_true, Option.map_some',
        Option.map_map]
    · simp only [exec_op, hop, OP_MODULO, exec_division, h0, c_mod, if_true, Option.map_some',
        Option.map_map]
  · obtain ⟨s, hs, he, hw⟩ := parse_div_zero n hn c
    obtain ⟨r, hr, h1, h2, _, h4⟩ := compiled_as _ _ _ s hs he hw ⟨hn, hz⟩
      (by simp [Expr.code_size])
    refine ⟨r, hr, h1, h2, fun m hv fuel hf => ?_⟩
    have := h4 m hv (by simp [Expr.Defined, Expr.value, decimal]) (by simp [Expr.slots]) fuel hf
    simpa [Expr.value, BinOp.value, decimal] using this
  · obtain ⟨s, hs, he, hw⟩ := parse_mod_zero n hn c
    obtain ⟨r, hr, h1, h2, _, h4⟩ := compiled_as _ _ _ s hs he hw ⟨hn, hz⟩
      (by simp [Expr.code_size])
    refine ⟨r, hr, h1, h2, fun m hv fuel hf => ?_⟩
    have := h4 m hv (by simp [Expr.Defined, Expr.value, decimal]) (by simp [Expr.slots]) fuel hf
    simpa [Expr.value, BinOp.value, decimal] using this

/-- Witness for C8: `5/0` and `5%0`. -/
theorem division_by_zero_witness :
    (∃ r, parse_exp (text "5/0") 256 = some r ∧
      r.final.got_parser_error = false ∧ r.ret = 11 ∧
      ∀ m : Machine, Int32Array m.vars → ∀ fuel, 11 ≤ fuel →
        ∃ m1, eval_compiled fuel r.final.written r.ret m = some (0, m1)) ∧
    (∃ r, parse_exp (text "5%0") 256 = some r ∧
      r.final.got_parser_error = false ∧ r.ret = 11 ∧
      ∀ m : Machine, Int32Array m.vars → ∀ fuel, 11 ≤ fuel →
        ∃ m1, eval_compiled fuel r.final.written r.ret m = some (0, m1)) :=
  (division_by_zero [5] 256 ⟨by decide, by decide, by decide⟩ (by decide)).2

theorem scan_token_assign_space (rest : List Nat) (o : Nat) :
    scan_token (61 :: 32 :: rest) o = ⟨65, none, ⟨32 :: rest, o + 1⟩⟩ := by
  simp [scan_token, skip_space, Cursor.peek, Cursor.inc]

theorem scan_token_t (rest : List Nat) (o : Nat) :
    scan_token (116 :: rest) o = ⟨86, some 0, ⟨rest, o + 1⟩⟩ :=
  (scan_token_letter rest o).1

theorem parse_assign_text (n : List Nat) (hn : IsLiteral n) (c : Nat) :
    ∃ s, start_parse
        ((58 :: 32 :: 116 :: 32 :: 61 :: 32 ::
          (literal_text n ++ [32, 59, 32, 116, 32, 43, 32, 49])).length + 1)
        (parse_init (58 :: 32 :: 116 :: 32 :: 61 :: 32 ::
          (literal_text n ++ [32, 59, 32, 116, 32, 43, 32, 49])) (c + 15)) = some s ∧
      s.got_parser_error = false ∧
      s.written = (Expr.lit n).code ++
        ([OP_ASSIGN, 0] ++ (Expr.bin .add (.var .t) (.lit [1])).code) := by
  have hn1 : 1 ≤ n.length := List.length_pos.mpr hn.1
  have h1 : ∀ o, scan_token [49] o = ⟨48, some (Int.ofNat (decimal [1])), ⟨[], o + 1⟩⟩ :=
    fun o => scan_token_literal_end [1] o ⟨by decide, by decide, by decide⟩
  have hsp : ∀ (rest : List Nat) (o : Nat), scan_token (32 :: rest) o = scan_token rest (o + 1) :=
    fun rest o => scan_token_space 32 rest o (Or.inl rfl)
  have hu0 : toU32 0 = 0 := by decide
  obtain ⟨N, hN⟩ : ∃ N, (58 :: 32 :: 116 :: 32 :: 61 :: 32 ::
      (literal_text n ++ [32, 59, 32, 116, 32, 43, 32, 49])).length + 1 = N + 6 :=
    ⟨n.length + 9, by simp [literal_text]⟩
  rw [hN]
  simp [parse_init, start_parse, next_token_mk, parse_error_mk,
    parse_expect_mk, parse_exp16_mk, parse_exp15_mk, while_binary_mk, if_binary_mk,
    parse_exp13_mk, parse_exp12_mk, parse_exp11_mk, parse_exp10_mk, parse_exp9_mk, parse_exp8_mk,
    parse_exp7_mk, parse_exp6_mk, parse_exp0_loop_mk, parse_exp0_mk,
    ops6, ops7, ops8, ops9, ops10, ops11, ops12, ops13,
    scan_token_literal, h1, hsp, scan_token_plain, scan_token_nil, scan_token_assign_space,
    scan_token_t, plain_char, NoDigit, hn, hu0,
    emit_op_constant, emit_op_plain, emit_op_var, emit_op_assign, OP_PLUS, Expr.code,
    BinOp.opcode, Var.slot]

theorem exec_op_assign (pre post : List Nat) (i : Nat) (m : Machine)
    (h : pre.length + 2 ≤ 65535) (hi : i < m.vars_size) :
    exec_op (pre ++ (OP_ASSIGN :: i :: post)) pre.length m =
      some (pre.length + 2,
        { (stack_pop m).2 with vars := store (stack_pop m).2.vars i (stack_pop m).1 }) := by
  have hb : ∀ j, byte_at (pre ++ (OP_ASSIGN :: i :: post)) (pre.length + j) =
      byte_at (OP_ASSIGN :: i :: post) j := fun j => byte_at_append _ _ j
  have e0 : (pre.length + 1) % 65536 = pre.length + 1 := Nat.mod_eq_of_lt (by omega)
  have e1 : (pre.length + 1 + 1) % 65536 = pre.length + 2 := Nat.mod_eq_of_lt (by omega)
  unfold exec_op
  simp only [byte_at_append_zero, e0, e1, hb]
  simp only [byte_at, OP_ASSIGN, List.getD_cons_zero, List.getD_cons_succ, hi, if_true]

/-- Running `CONSTANT n, ASSIGN 0` followed by the code of `t + 1`. -/
theorem eval_assign_code (n : List Nat) (hn : IsLiteral n) (m : Machine)
    (hv : Int32Array m.vars) (fuel : Nat) (hf : 15 ≤ fuel) :
    ∃ m1, eval_compiled fuel
        ((Expr.lit n).code ++ ([OP_ASSIGN, 0] ++ (Expr.bin .add (.var .t) (.lit [1])).code))
        15 m = some (wrap32 (Int.ofNat (decimal n) + 1), m1) ∧
      m1.vars 0 = Int.ofNat (decimal n) ∧ ∀ i, i ≠ 0 → m1.vars i = m.vars i := by
  have hrange : InRange (Int.ofNat (decimal n)) := by
    have := hn.2.2
    simp only [InRange, Int.ofNat_eq_coe]
    omega
  have hl1 : (Expr.lit n).code.length = 5 := by simp [Expr.code, constant_bytes]
  have hl2 : (Expr.bin .add (.var .t) (.lit [1])).code.length = 8 := by
    simp [Expr.code, constant_bytes]
  -- the literal
  obtain ⟨k1, m1, hk1, hrun1, p1, p2, p3, p4⟩ := run_code (Expr.lit n) []
    ([OP_ASSIGN, 0] ++ (Expr.bin .add (.var .t) (.lit [1])).code) 15
    { m with eval_stack_pointer := 0 } hn hv trivial (by simp [Expr.slots])
    (by simp [hl1]) (by decide)
  simp only [List.nil_append, List.length_nil, Nat.zero_add, hl1] at hrun1 hk1
  simp only [Expr.value] at p2
  -- the assignment
  have hpop : stack_pop m1 = (Int.ofNat (decimal n), { m1 with eval_stack_pointer := 0 }) := by
    simp only [stack_pop, p1, Nat.zero_add, gt_iff_lt, zero_lt_one, if_true, Nat.sub_self, p2]
  have hasg := exec_op_assign (Expr.lit n).code (Expr.bin .add (.var .t) (.lit [1])).code 0 m1
    (by rw [hl1]; decide) (by unfold Machine.vars_size MAX_VAR; omega)
  rw [hl1, hpop] at hasg
  -- the final expression
  have hv2 : Int32Array (store m1.vars 0 (Int.ofNat (decimal n))) := by
    intro i
    simp only [store]
    split_ifs
    · exact hrange
    · rw [p4]; exact hv i
  obtain ⟨k2, m3, hk2, hrun2, q1, q2, q3, q4⟩ := run_code (Expr.bin .add (.var .t) (.lit [1]))
    ((Expr.lit n).code ++ [OP_ASSIGN, 0]) [] 15
    { m1 with eval_stack_pointer := 0, vars := store m1.vars 0 (Int.ofNat (decimal n)) }
    ⟨trivial, by decide, by decide, by decide⟩ hv2 (by simp [Expr.Defined])
    (by simp [Expr.slots]) (by simp [hl1, hl2]) (by decide)
  simp only [List.append_nil, List.length_append, hl1, hl2, List.length_cons, List.length_nil,
    List.append_assoc] at hrun2 hk2
  simp only [Expr.value, BinOp.value, Var.slot, store, if_true, decimal, List.foldl_cons,
    List.foldl_nil] at q2
  -- the whole run
  have hrun : eval_steps ((Expr.lit n).code ++
      ([OP_ASSIGN, 0] ++ (Expr.bin .add (.var .t) (.lit [1])).code)) 15 (k1 + (1 + k2))
      (0, { m with eval_stack_pointer := 0 }) = some (15, m3) := by
    rw [eval_steps_trans _ _ _ _ _ _ hrun1, eval_steps_add,
      eval_steps_one _ _ _ _ (by decide)]
    simp only [List.cons_append, List.nil_append] at hasg ⊢
    rw [hasg, Option.some_bind]
    simp only [List.cons_append, List.nil_append] at hrun2
    rw [hrun2]
  refine ⟨{ m3 with eval_stack_pointer := 0 }, ?_, ?_, ?_⟩
  · rw [eval_compiled_of_steps _ _ _ fuel m _ hrun (by simp) (by omega)]
    simp only [stack_pop, q1, Nat.zero_add, gt_iff_lt, zero_lt_one, if_true, Nat.sub_self]
    rw [q2]
    rfl
  · simp only [q4, store, if_true]
  · intro i hi
    simp only [q4, store, if_neg hi, p4]

/-- C7. Assignment sequencing: for a decimal literal `n` below 2^31, a buffer of
at least 15 bytes and every `int32_t` variable array, `parse_exp` succeeds on
`: t = n ; t + 1`, `eval_compiled` returns `n + 1` (32-bit wraparound), and
afterwards slot 0 (`t`) holds `n` while every other slot is unchanged. -/
theorem assignment_sequencing (n : List Nat) (buffer_len : Nat) (hn : IsLiteral n)
    (hcap : 15 ≤ buffer_len) :
    ∃ r, parse_exp (58 :: 32 :: 116 :: 32 :: 61 :: 32 ::
          (literal_text n ++ [32, 59, 32, 116, 32, 43, 32, 49])) buffer_len = some r ∧
      r.final.got_parser_error = false ∧ r.ret = 15 ∧
      ∀ m : Machine, Int32Array m.vars → ∀ fuel, 15 ≤ fuel →
        ∃ m1, eval_compiled fuel r.final.written r.ret m =
            some (wrap32 (Int.ofNat (decimal n) + 1), m1) ∧
          m1.vars 0 = Int.ofNat (decimal n) ∧ ∀ i, i ≠ 0 → m1.vars i = m.vars i := by
  obtain ⟨c, rfl⟩ : ∃ c, buffer_len = c + 15 := ⟨buffer_len - 15, by omega⟩
  obtain ⟨s, hs, he, hw⟩ := parse_assign_text n hn c
  have hlen : s.written.length = 15 := by
    rw [hw]; simp [Expr.code, constant_bytes]
  unfold parse_exp
  rw [hs, Option.map_some']
  refine ⟨_, rfl, ?_⟩
  simp only [he, Bool.false_eq_true, if_false, hlen, Nat.reduceMod, true_and]
  intro m hv fuel hf
  rw [hw]
  exact eval_assign_code n hn m hv fuel hf

/-- Witness for C7: `: t = 5 ; t + 1` gives 6 and leaves 5 in `t`. -/
theorem assignment_sequencing_witness :
    ∃ r, parse_exp (text ": t = 5 ; t + 1") 256 = some r ∧
      r.final.got_parser_error = false ∧ r.ret = 15 ∧
      ∀ m : Machine, Int32Array m.vars → ∀ fuel, 15 ≤ fuel →
        ∃ m1, eval_compiled fuel r.final.written r.ret m = some (6, m1) ∧
          m1.vars 0 = 5 ∧ ∀ i, i ≠ 0 → m1.vars i = m.vars i :=
  assignment_sequencing [5] 256 ⟨by decide, by decide, by decide⟩ (by decide)

/-- The turns of the interpreter loop whose behaviour is undefined in C: an
`OP_VAR` or `OP_ASSIGN` whose operand is not an index of the caller's array,
and an `OP_DIVIDE` or `OP_MODULO` that pops `-1` and then `INT32_MIN`. -/
theorem exec_op_none_iff (compiled_exp : List Nat) (pc : Nat) (m : Machine) :
    exec_op compiled_exp pc m = none ↔
      ((byte_at compiled_exp pc = OP_VAR ∨ byte_at compiled_exp pc = OP_ASSIGN) ∧
        m.vars_size ≤ byte_at compiled_exp ((pc + 1) % 65536)) ∨
      ((byte_at compiled_exp pc = OP_DIVIDE ∨ byte_at compiled_exp pc = OP_MODULO) ∧
        (stack_pop (stack_pop m).2).1 = -2147483648 ∧ (stack_pop m).1 = -1 ) := by
  unfold exec_op
  dsimp only
  generalize byte_at compiled_exp pc = op
  generalize byte_at compiled_exp ((pc + 1) % 65536) = i
  by_cases hop : op < 22
  · interval_cases op
    · simp [OP_VAR, OP_ASSIGN, OP_DIVIDE, OP_MODULO]
    · simp only [OP_VAR, OP_ASSIGN, OP_DIVIDE, OP_MODULO]
      by_cases hi : i < m.vars_size
      · simp [hi]
      · simp [hi]; omega
    · simp [OP_VAR, OP_ASSIGN, OP_DIVIDE, OP_MODULO]
    · simp [OP_VAR, OP_ASSIGN, OP_DIVIDE, OP_MODULO]
    · simp [OP_VAR, OP_ASSIGN, OP_DIVIDE, OP_MODULO]
    · simp [OP_VAR, OP_ASSIGN, OP_DIVIDE, OP_MODULO]
    · simp only [OP_VAR, OP_ASSIGN, OP_DIVIDE, OP_MODULO, exec_division, c_div,
        Option.map_eq_none']
      by_cases h2 : (stack_pop m).1 = 0
      · simp [h2]
      · by_cases h1 : (stack_pop (stack_pop m).2).1 = -2147483648 ∧ (stack_pop m).1 = -1
        · simp [h2, h1]
        · simp [h2, h1]
    · simp only [OP_VAR, OP_ASSIGN, OP_DIVIDE, OP_MODULO, exec_division, c_mod,
        Option.map_eq_none']
      by_cases h2 : (stack_pop m).1 = 0
      · simp [h2]
      · by_cases h1 : (stack_pop (stack_pop m).2).1 = -2147483648 ∧ (stack_pop m).1 = -1
        · simp [h2, h1]
        · simp [h2, h1]
    · simp [OP_VAR, OP_ASSIGN, OP_DIVIDE, OP_MODULO]
    · simp [OP_VAR, OP_ASSIGN, OP_DIVIDE, OP_MODULO]
    · simp [OP_VAR, OP_ASSIGN, OP_DIVIDE, OP_MODULO]
    · simp [OP_VAR, OP_ASSIGN, OP_DIVIDE, OP_MODULO]
    · simp [OP_VAR, OP_ASSIGN, OP_DIVIDE, OP_MODULO]
    · simp [OP_VAR, OP_ASSIGN, OP_DIVIDE, OP_MODULO]
    · simp [OP_VAR, OP_ASSIGN, OP_DIVIDE, OP_MODULO]
    · simp [OP_VAR, OP_ASSIGN, OP_DIVIDE, OP_MODULO]
    · simp [OP_VAR, OP_ASSIGN, OP_DIVIDE, OP_MODULO]
    · simp [OP_VAR, OP_ASSIGN, OP_DIVIDE, OP_MODULO]
    · simp [OP_VAR, OP_ASSIGN, OP_DIVIDE, OP_MODULO]
    · simp [OP_VAR, OP_ASSIGN, OP_DIVIDE, OP_MODULO]
    · simp [OP_VAR, OP_ASSIGN, OP_DIVIDE, OP_MODULO]
    · simp only [OP_VAR, OP_ASSIGN, OP_DIVIDE, OP_MODULO]
      by_cases hi : i < m.vars_size
      · simp [hi]
      · simp [hi]; omega
  · obtain ⟨k, rfl⟩ : ∃ k, op = k + 22 := ⟨op - 22, by omega⟩
    simp [OP_VAR, OP_ASSIGN, OP_DIVIDE, OP_MODULO]

/-- C9, as the code has it. Popping an empty stack leaves the pointer at 0 and
yields what slot 0 of the stack array holds, not 0: when the loop of
`eval_compiled` ends with the stack pointer at 0, the value returned is the
content of slot 0 at that moment (what the last push at pointer 0 of this or of
an earlier evaluation stored there), and the memory is left as it is. -/
theorem pop_empty_returns_slot_zero (fuel : Nat) (compiled_exp : List Nat)
    (compiled_len : Nat) (m : Machine) (st : Nat × Machine)
    (hrun : eval_steps compiled_exp compiled_len fuel
      (0, { m with eval_stack_pointer := 0 }) = some st)
    (hend : ¬ st.1 < compiled_len) (h0 : st.2.eval_stack_pointer = 0) :
    eval_compiled fuel compiled_exp compiled_len m = some (st.2.eval_stack 0, st.2) := by
  unfold eval_compiled
  rw [hrun, Option.some_bind, if_neg hend]
  simp only [stack_pop, h0, gt_iff_lt, lt_self_iff_false, if_false]

/-- Witness for C9: the stream `CONSTANT 5, ASSIGN 0` ends with the pointer at
0 and returns the 5 left in slot 0. -/
theorem pop_empty_returns_slot_zero_witness :
    eval_steps [0, 5, 0, 0, 0, 21, 0] 7 2 (0, ⟨fun _ => 0, 0, fun _ => 0, 0⟩) =
      some (7, ⟨store (fun _ => 0) 0 5, 0, store (fun _ => 0) 0 5, 0⟩) ∧
    eval_compiled 2 [0, 5, 0, 0, 0, 21, 0] 7 ⟨fun _ => 0, 0, fun _ => 0, 0⟩ =
      some (5, ⟨store (fun _ => 0) 0 5, 0, store (fun _ => 0) 0 5, 0⟩) :=
  ⟨rfl,
    pop_empty_returns_slot_zero 2 [0, 5, 0, 0, 0, 21, 0] 7 ⟨fun _ => 0, 0, fun _ => 0, 0⟩
      (7, ⟨store (fun _ => 0) 0 5, 0, store (fun _ => 0) 0 5, 0⟩) rfl (by decide) rfl⟩

/-- C9 as stated fails: the stream `CONSTANT 5, ASSIGN 0` ends with the stack
pointer at 0 and `eval_compiled` returns 5; the empty stream, run after an
evaluation that left 7 in slot 0, returns 7. -/
theorem pop_empty_counterexample :
    (eval_compiled 2 [0, 5, 0, 0, 0, 21, 0] 7 ⟨fun _ => 0, 0, fun _ => 0, 0⟩).map
      (fun r => (r.1, r.2.eval_stack_pointer)) = some (5, 0) ∧
    (eval_compiled 0 [] 0 ⟨fun _ => 7, 3, fun _ => 0, 0⟩).map
      (fun r => (r.1, r.2.eval_stack_pointer)) = some (7, 0) := by
  decide

/-- Witness for C2: the text `1+2` with a buffer of 3 bytes, too small. -/
theorem parse_exp_return_witness :
    (3 : Nat) < 65536 ∧
    ∃ r, parse_exp (text "1+2") 3 = some r ∧
      (r.ret = 0 ↔ r.final.got_parser_error = true) ∧
      (r.final.got_parser_error = false →
        r.ret = r.final.written.length ∧ 0 < r.ret ∧ r.ret ≤ 3) :=
  ⟨by decide, parse_exp_return (text "1+2") 3 (by decide)⟩

/-- An instance of `compile_eval_agree`: the tree `(-(t))+((2)*(3))` compiles
to 15 bytes and evaluates to `-t + 6`. -/
theorem compile_eval_agree_witness :
    (Expr.bin .add (.un .neg (.var .t)) (.bin .mul (.lit [2]) (.lit [3]))).render =
      text "(-(t))+((2)*(3))" ∧
    ∃ r, parse_exp (text "(-(t))+((2)*(3))") 256 = some r ∧
      r.final.got_parser_error = false ∧ r.ret = 15 ∧
      ∀ m : Machine, Int32Array m.vars → ∀ fuel, 15 ≤ fuel →
        ∃ m1, eval_compiled fuel r.final.written r.ret m =
          some (wrap32 (wrap32 (-(m.vars 0)) + 6), m1) := by
  refine ⟨by decide, ?_⟩
  obtain ⟨r, h1, h2, h3, _, h5⟩ := compile_eval_agree
    (Expr.bin .add (.un .neg (.var .t)) (.bin .mul (.lit [2]) (.lit [3]))) 256
    ⟨trivial, ⟨by decide, by decide, by decide⟩, ⟨by decide, by decide, by decide⟩⟩
    (by decide) (by decide)
  refine ⟨r, h1, h2, h3, fun m hv fuel hf => ?_⟩
  exact h5 m hv (by simp [Expr.Defined]) (by decide) fuel (by rw [h3]; exact hf)

theorem exp0_loop_rules {L E : PState → PState → Prop} (hL : AssignRules L E) (n : Nat)
    (exp6 : PState → Option PState)
    (h6 : ∀ s, tokens_left s < n →
      ∃ s1, exp6 s = some s1 ∧ E s s1 ∧ tokens_left s1 ≤ tokens_left s) :
    ∀ k s0 s, L s0 s → tokens_left s ≤ k → tokens_left s < n →
      ∃ s1, parse_exp0_loop exp6 k s = some s1 ∧ L s0 s1 ∧
        tokens_left s1 ≤ tokens_left s := by
  intro k
  induction k with
  | zero =>
    intro s0 s h0 hk hn
    unfold parse_exp0_loop
    have ht := tokens_left_zero s (by omega)
    rw [parse_accept_ne 58 s (by rw [ht]; decide)]
    exact ⟨s, by simp, h0, le_refl _⟩
  | succ k ih =>
    intro s0 s h0 hk hn
    unfold parse_exp0_loop
    by_cases hc : s.current_token = 58
    · rw [parse_accept_eq 58 s hc (by decide)]
      dsimp only
      rw [if_pos rfl]
      have hlt := tokens_left_next s (by rw [hc]; decide)
      by_cases hv : (next_token s).current_token = 86
      · rw [parse_expect_eq 86 _ hv (by decide)]
        dsimp only
        rw [if_pos rfl]
        have hlt2 := tokens_left_next (next_token s) (by rw [hv]; decide)
        by_cases ha : (next_token (next_token s)).current_token = 65
        · rw [parse_expect_eq 65 _ ha (by decide)]
          dsimp only
          rw [if_pos rfl]
          have hlt3 := tokens_left_next (next_token (next_token s)) (by rw [ha]; decide)
          obtain ⟨s3, h3, hE3, hm3⟩ := h6 (next_token (next_token (next_token s))) (by omega)
          rw [h3]
          dsimp only
          by_cases hsc : s3.current_token = 59
          · rw [parse_expect_eq 59 _ hsc (by decide)]
            dsimp only
            rw [if_pos rfl]
            have hlt4 := tokens_left_next s3 (by rw [hsc]; decide)
            obtain ⟨s4, h4, hL4, hm4⟩ := ih s0 _ (hL.assign s0 s s3 h0 hc hv ha hE3 hsc)
              (by rw [tokens_left_emit]; omega) (by rw [tokens_left_emit]; omega)
            rw [tokens_left_emit] at hm4
            exact ⟨s4, h4, hL4, by omega⟩
          · rw [parse_expect_ne 59 _ hsc]
            dsimp only
            rw [if_neg (by decide)]
            obtain ⟨s4, h4, hL4, hm4⟩ := ih s0 _ (hL.no_semicolon s0 s s3 h0 hc hv ha hE3 hsc)
              (by rw [tokens_left_error]; omega) (by rw [tokens_left_error]; omega)
            rw [tokens_left_error] at hm4
            exact ⟨s4, h4, hL4, by omega⟩
        · rw [parse_expect_ne 65 _ ha]
          dsimp only
          rw [if_neg (by decide)]
          obtain ⟨s4, h4, hL4, hm4⟩ := ih s0 _ (hL.no_equals s0 s h0 hc hv ha)
            (by rw [tokens_left_error]; omega) (by rw [tokens_left_error]; omega)
          rw [tokens_left_error] at hm4
          exact ⟨s4, h4, hL4, by omega⟩
      · rw [parse_expect_ne 86 _ hv]
        dsimp only
        rw [if_neg (by decide)]
        obtain ⟨s4, h4, hL4, hm4⟩ := ih s0 _ (hL.no_var s0 s h0 hc hv)
          (by rw [tokens_left_error]; omega) (by rw [tokens_left_error]; omega)
        rw [tokens_left_error] at hm4
        exact ⟨s4, h4, hL4, by omega⟩
    · rw [parse_accept_ne 58 s hc]
      exact ⟨s, by simp, h0, le_refl _⟩

/-- Induction over a whole compilation, statement by statement: `start_parse`
returns, the assignment statements are related by `L`, the final expression
by `E`. -/
theorem start_parse_program {L E : PState → PState → Prop} (hL : AssignRules L E)
    (hE : ExprRules E) (s : PState) (n : Nat) (hn : s.exp_to_parse.length < n) :
    ∃ s1 s2, start_parse n s = some (parse_expect 0 s2).2 ∧
      L (next_token s) s1 ∧ E s1 s2 := by
  have hf := tokens_left_first s
  obtain ⟨s1, h1, hL1, hm1⟩ := exp0_loop_rules hL n (parse_exp6 n)
    (parse_exp6_rules hE n) n (next_token s) (next_token s) (hL.refl _)
    (by omega) (by omega)
  obtain ⟨s2, h2, hE2, hm2⟩ := parse_exp6_rules hE n s1 (by omega)
  refine ⟨s1, s2, ?_, hL1, hE2⟩
  unfold start_parse parse_exp0
  simp only [h1, Option.some_bind, h2, Option.map_some']

theorem ite_split {α : Type} (P : α → Prop) (c : Prop) [Decidable c] (a b : α)
    (ha : c → P a) (hb : ¬ c → P b) : P (if c then a else b) := by
  split_ifs with h
  · exact ha h
  · exact hb h

theorem scan_token_var (chars : List Nat) (off : Nat)
    (h : (scan_token chars off).token = 86) :
    ∃ v, (scan_token chars off).value = some v ∧ 0 ≤ v ∧ v ≤ 3 := by
  have key : ∀ Q : Scanned → Prop,
      (∀ t v p, t ≠ 86 → Q ⟨t, v, p⟩) →
      (∀ v p, 0 ≤ v → v ≤ 3 → Q ⟨86, some v, p⟩) → Q (scan_token chars off) := by
    intro Q h1 h2
    unfold scan_token
    dsimp only
    repeat' first | apply ite_split Q | intro _
    all_goals first
      | exact h1 _ _ _ (by decide)
      | exact h2 _ _ (by decide) (by decide)
      | skip
    rename_i hc
    apply h1
    intro h86
    rw [h86] at hc
    revert hc
    decide
  refine key (fun r => r.token = 86 → ∃ v, r.value = some v ∧ 0 ≤ v ∧ v ≤ 3) ?_ ?_ h
  · intro t v p ht h86
    exact absurd h86 ht
  · intro v p h0 h3 _
    exact ⟨v, rfl, h0, h3⟩

theorem tokenOK_next (s : PState) : TokenOK (next_token s) := by
  intro h
  obtain ⟨v, hv, h0, h3⟩ := scan_token_var s.exp_to_parse s.exp_offset h
  show 0 ≤ (scan_token s.exp_to_parse s.exp_offset).value.getD s.current_token_value ∧
    (scan_token s.exp_to_parse s.exp_offset).value.getD s.current_token_value ≤ 3
  rw [hv]
  exact ⟨h0, h3⟩

theorem tokenOK_emit (op : Nat) (arg : Int) (s : PState) (h : TokenOK s) :
    TokenOK (emit_op op arg s) := by
  unfold TokenOK
  rw [emit_op_token, emit_op_token_value]
  exact h

theorem tokenOK_error (s : PState) (h : TokenOK s) : TokenOK (parse_error s) := by
  unfold TokenOK
  rw [parse_error_token, parse_error_token_value]
  exact h

/-- When `emit_op` leaves the error flag clear, it has appended the whole
instruction. -/
theorem emit_op_ok (op : Nat) (arg : Int) (s : PState)
    (h : (emit_op op arg s).got_parser_error = false) :
    s.got_parser_error = false ∧
    (emit_op op arg s).written = s.written ++ instr_bytes op arg := by
  unfold emit_op at h ⊢
  unfold instr_bytes
  dsimp only at h ⊢
  split_ifs at h ⊢ with h1 h2 h3 h4 h5
  all_goals first
    | (rw [parse_error_flag] at h; exact absurd h (by decide))
    | exact ⟨h, by simp [constant_bytes]⟩

theorem steps_flag (s s1 : PState) (h : Steps s s1) (he : s1.got_parser_error = false) :
    s.got_parser_error = false := by
  cases hs : s.got_parser_error with
  | false => rfl
  | true => rw [(h.1 hs).1] at he; exact absurd he (by decide)

theorem genExpr_next (s s1 : PState) (h0 : s.current_token ≠ 0)
    (h : GenExpr (next_token s) s1) : TokenOK s1 ∧ Steps s s1 ∧
      (s1.got_parser_error = false → ∃ c, ExprCode c ∧ s1.written = s.written ++ c) := by
  obtain ⟨a, b, c⟩ := h (tokenOK_next s)
  exact ⟨a, steps_trans _ _ _ (stepRules_steps.next s h0) b, c⟩

theorem exprRules_gen : ExprRules GenExpr where
  var s hs := by
    intro hok
    refine ⟨tokenOK_emit _ _ _ (tokenOK_next s),
      steps_trans _ _ _ (stepRules_steps.next s (by rw [hs]; decide))
        (stepRules_steps.emit _ _ _), fun he => ?_⟩
    obtain ⟨_, hw⟩ := emit_op_ok _ _ _ he
    obtain ⟨h0, h3⟩ := hok hs
    refine ⟨_, ExprCode.var (s.current_token_value.toNat) (by omega), ?_⟩
    rw [hw, next_token_written]
    congr 1
    simp only [instr_bytes, OP_VAR, true_or, if_true]
    congr 1
    simp only [List.cons.injEq, and_true]
    unfold toU32
    omega
  const s hs := by
    intro hok
    refine ⟨tokenOK_emit _ _ _ (tokenOK_next s),
      steps_trans _ _ _ (stepRules_steps.next s (by rw [hs]; decide))
        (stepRules_steps.emit _ _ _), fun he => ?_⟩
    obtain ⟨_, hw⟩ := emit_op_ok _ _ _ he
    refine ⟨_, ExprCode.constant s.current_token_value, ?_⟩
    rw [hw, next_token_written]
    rfl
  paren s s1 hs h1 hc := by
    intro _
    obtain ⟨a, b, c⟩ := genExpr_next s s1 (by rw [hs]; decide) h1
    exact ⟨tokenOK_next s1,
      steps_trans _ _ _ b (stepRules_steps.next s1 (by rw [hc]; decide)), fun he => c he⟩
  unclosed s s1 hs h1 _ := by
    intro _
    obtain ⟨a, b, c⟩ := genExpr_next s s1 (by rw [hs]; decide) h1
    exact ⟨tokenOK_error _ a, steps_trans _ _ _ b (steps_error s1),
      fun he => absurd he (by simp)⟩
  bad s _ _ _ := by
    intro hok
    exact ⟨tokenOK_error _ hok, steps_error s, fun he => absurd he (by simp)⟩
  plus s s1 hs h1 := by
    intro _
    exact genExpr_next s s1 (by rw [hs]; decide) h1
  unary s s1 op h0 hlo hhi h1 := by
    intro _
    obtain ⟨a, b, c⟩ := genExpr_next s s1 h0 h1
    refine ⟨tokenOK_emit _ _ _ a, steps_trans _ _ _ b (stepRules_steps.emit _ _ _),
      fun he => ?_⟩
    obtain ⟨he1, hw⟩ := emit_op_ok _ _ _ he
    obtain ⟨c1, hc1, hw1⟩ := c he1
    refine ⟨_, ExprCode.unary op c1 hlo hhi hc1, ?_⟩
    rw [hw, hw1, List.append_assoc]
    congr 2
    unfold instr_bytes OP_VAR OP_ASSIGN OP_CONSTANT
    rw [if_neg (by omega), if_neg (by omega)]
  binary s s1 s2 op h1 h0 hlo hhi h2 := by
    intro hok
    obtain ⟨a1, b1, c1⟩ := h1 hok
    obtain ⟨a2, b2, c2⟩ := genExpr_next s1 s2 h0 h2
    refine ⟨tokenOK_emit _ _ _ a2,
      steps_trans _ _ _ (steps_trans _ _ _ b1 b2) (stepRules_steps.emit _ _ _), fun he => ?_⟩
    obtain ⟨he2, hw⟩ := emit_op_ok _ _ _ he
    obtain ⟨r, hr, hwr⟩ := c2 he2
    obtain ⟨l, hl, hwl⟩ := c1 (steps_flag _ _ b2 he2)
    refine ⟨_, ExprCode.binary op l r hlo hhi hl hr, ?_⟩
    rw [hw, hwr, hwl, List.append_assoc, List.append_assoc]
    congr 3
    unfold instr_bytes OP_VAR OP_ASSIGN OP_CONSTANT
    rw [if_neg (by omega), if_neg (by omega)]

theorem genAssign_fail (s0 s s1 : PState) (h : GenAssign s0 s) (hs : TokenOK s → TokenOK s1)
    (hst : Steps s s1) (he : s1.got_parser_error = true) : GenAssign s0 s1 := by
  intro hok
  obtain ⟨a, b, _⟩ := h hok
  exact ⟨hs a, steps_trans _ _ _ b hst, fun hf => by rw [he] at hf; exact absurd hf (by decide)⟩

theorem assignRules_gen : AssignRules GenAssign GenExpr where
  refl s := fun hok => ⟨hok, stepRules_steps.refl s, fun _ => ⟨[], AssignCode.nil, by simp⟩⟩
  assign s0 s s3 h0 hc hv ha hE hsc := by
    intro hok
    obtain ⟨a, b, c⟩ := h0 hok
    have n1 := stepRules_steps.next s (by rw [hc]; decide)
    have n2 := stepRules_steps.next (next_token s) (by rw [hv]; decide)
    obtain ⟨a3, b3, c3⟩ := genExpr_next (next_token (next_token s)) s3 (by rw [ha]; decide) hE
    have n3 := stepRules_steps.next s3 (by rw [hsc]; decide)
    have hall : Steps s (next_token s3) :=
      steps_trans _ _ _ (steps_trans _ _ _ (steps_trans _ _ _ n1 n2) b3) n3
    refine ⟨tokenOK_emit _ _ _ (tokenOK_next s3),
      steps_trans _ _ _ (steps_trans _ _ _ b hall) (stepRules_steps.emit _ _ _), fun he => ?_⟩
    obtain ⟨he3, hw⟩ := emit_op_ok _ _ _ he
    rw [next_token_flag] at he3
    obtain ⟨e, hce, hwe⟩ := c3 he3
    have hes : s.got_parser_error = false :=
      steps_flag _ _ (steps_trans _ _ _ (steps_trans _ _ _ n1 n2) b3) he3
    obtain ⟨pre, hpre, hwp⟩ := c hes
    obtain ⟨v0, v3⟩ := tokenOK_next s hv
    refine ⟨_, AssignCode.snoc pre e (next_token s).current_token_value.toNat (by omega)
      hpre hce, ?_⟩
    rw [hw, next_token_written, hwe, next_token_written, next_token_written, hwp,
      List.append_assoc, List.append_assoc]
    congr 3
    simp only [instr_bytes, OP_ASSIGN, or_true, if_true, List.cons.injEq, and_true, true_and]
    unfold toU32
    simp only [Int.ofNat_eq_coe]
    omega
  no_var s0 s h0 hc hv :=
    genAssign_fail s0 s _ h0 (fun _ => tokenOK_error _ (tokenOK_next s))
      (steps_trans _ _ _ (stepRules_steps.next s (by rw [hc]; decide)) (steps_error _))
      (parse_error_flag _)
  no_equals s0 s h0 hc hv ha :=
    genAssign_fail s0 s _ h0 (fun _ => tokenOK_error _ (tokenOK_next _))
      (steps_trans _ _ _ (steps_trans _ _ _ (stepRules_steps.next s (by rw [hc]; decide))
        (stepRules_steps.next _ (by rw [hv]; decide))) (steps_error _))
      (parse_error_flag _)
  no_semicolon s0 s s3 h0 hc hv ha hE hsc := by
    obtain ⟨a3, b3, c3⟩ := genExpr_next (next_token (next_token s)) s3 (by rw [ha]; decide) hE
    exact genAssign_fail s0 s _ h0 (fun _ => tokenOK_error _ a3)
      (steps_trans _ _ _ (steps_trans _ _ _ (steps_trans _ _ _
        (stepRules_steps.next s (by rw [hc]; decide))
        (stepRules_steps.next _ (by rw [hv]; decide))) b3) (steps_error _))
      (parse_error_flag _)

/-- The shape of every compiled stream: a compilation always ends, and when it
ends without error the bytes written are the code of assignment statements
followed by the code of one expression. -/
theorem compiled_program (exp : List Nat) (buffer_len : Nat) :
    ∃ s, start_parse (exp.length + 1) (parse_init exp buffer_len) = some s ∧
      s.written.length + s.compile_remain_loc = buffer_len ∧
      (s.got_parser_error = false →
        ∃ pre c, AssignCode pre ∧ ExprCode c ∧ s.written = pre ++ c) := by
  obtain ⟨s1, s2, h, hL, hE⟩ := start_parse_program assignRules_gen exprRules_gen
    (parse_init exp buffer_len) (exp.length + 1) (by simp [parse_init])
  obtain ⟨a1, b1, c1⟩ := hL (tokenOK_next _)
  obtain ⟨a2, b2, c2⟩ := hE a1
  have b3 := (expect_step stepRules_steps 0 s2).1
  have hall := steps_trans _ _ _ (steps_trans _ _ _ b1 b2) b3
  refine ⟨_, h, ?_, fun he => ?_⟩
  · have := hall.2.1
    simpa [parse_init] using this
  · have he2 := steps_flag _ _ b3 he
    have he1 := steps_flag _ _ b2 he2
    obtain ⟨pre, hpre, hw1⟩ := c1 he1
    obtain ⟨c, hc, hw2⟩ := c2 he2
    refine ⟨pre, c, hpre, hc, ?_⟩
    have hw3 : (parse_expect 0 s2).2.written = s2.written := by
      unfold parse_expect parse_accept
      dsimp only
      split_ifs <;> simp
    rw [hw3, hw2, hw1]
    simp [parse_init]

theorem exec_op_pc (compiled_exp : List Nat) (pc : Nat) (m : Machine) (st : Nat × Machine)
    (h : exec_op compiled_exp pc m = some st) :
    st.1 = ((pc + 1) % 65536 + operand_count (byte_at compiled_exp pc)) % 65536 := by
  unfold exec_op at h
  dsimp only at h
  generalize byte_at compiled_exp pc = op at h ⊢
  by_cases hop : op < 22
  · interval_cases op <;>
      first
      | (cases h; simp [operand_count, OP_CONSTANT, OP_VAR, OP_ASSIGN]; done)
      | (dsimp only at h; split_ifs at h; cases h
         simp [operand_count, OP_CONSTANT, OP_VAR, OP_ASSIGN]; done)
      | (obtain ⟨m1, -, rfl⟩ := Option.map_eq_some'.mp h
         simp [operand_count, OP_CONSTANT, OP_VAR, OP_ASSIGN])
  · obtain ⟨k, rfl⟩ : ∃ k, op = k + 22 := ⟨op - 22, by omega⟩
    cases h
    simp [operand_count, OP_CONSTANT, OP_VAR, OP_ASSIGN]

theorem byte_at_head (pre rest : List Nat) (op : Nat) :
    byte_at (pre ++ op :: rest) pre.length = op := by
  rw [byte_at_append_zero]; rfl

theorem byte_at_second (pre rest : List Nat) (op i : Nat) :
    byte_at (pre ++ op :: i :: rest) (pre.length + 1) = i := by
  rw [byte_at_append]; rfl

/-- One turn of the loop at the start of an instruction of a well-formed
stream: the turn stays in bounds, and the program counter moves forward to the
start of the next instruction or to the end of the stream. -/
theorem wf_next (pre suffix : List Nat) (hwf : well_formed suffix = true)
    (hne : suffix ≠ []) (hlen : (pre ++ suffix).length ≤ 65535) :
    turn_in_bounds (pre ++ suffix) (pre ++ suffix).length pre.length ∧
    pre.length < ((pre.length + 1) % 65536 +
      operand_count (byte_at (pre ++ suffix) pre.length)) % 65536 ∧
    AtInstr (pre ++ suffix) (((pre.length + 1) % 65536 +
      operand_count (byte_at (pre ++ suffix) pre.length)) % 65536) := by
  cases suffix with
  | nil => exact absurd rfl hne
  | cons op rest =>
    rw [byte_at_head]
    unfold turn_in_bounds
    rw [byte_at_head]
    unfold well_formed at hwf
    by_cases h0 : op = OP_CONSTANT
    · rw [if_pos h0] at hwf
      subst h0
      obtain ⟨b0, b1, b2, b3, rest4, rfl⟩ :
          ∃ b0 b1 b2 b3 rest4, rest = b0 :: b1 :: b2 :: b3 :: rest4 := by
        rcases rest with _ | ⟨b0, _ | ⟨b1, _ | ⟨b2, _ | ⟨b3, rest4⟩⟩⟩⟩
        · simp at hwf
        · simp at hwf
        · simp at hwf
        · simp at hwf
        · exact ⟨_, _, _, _, _, rfl⟩
      simp only [List.length_append, List.length_cons] at hlen ⊢
      have hpc : (pre.length + 1) % 65536 = pre.length + 1 := Nat.mod_eq_of_lt (by omega)
      have hpc5 : (pre.length + 1 + 4) % 65536 = pre.length + 5 := Nat.mod_eq_of_lt (by omega)
      simp only [operand_count, OP_CONSTANT, OP_VAR, OP_ASSIGN, if_true, hpc, hpc5]
      refine ⟨⟨by omega, fun _ => by omega, fun h => by omega⟩, by omega,
        pre ++ [0, b0, b1, b2, b3], rest4, by simp, by simp, hwf⟩
    · rw [if_neg h0] at hwf
      by_cases h1 : op = OP_VAR ∨ op = OP_ASSIGN
      · rw [if_pos h1] at hwf
        rcases rest with _ | ⟨i, rest1⟩
        · simp at hwf
        · simp only [Bool.and_eq_true, decide_eq_true_eq] at hwf
          simp only [List.length_append, List.length_cons] at hlen ⊢
          have hpc : (pre.length + 1) % 65536 = pre.length + 1 := Nat.mod_eq_of_lt (by omega)
          have hpc2 : (pre.length + 1 + 1) % 65536 = pre.length + 2 :=
            Nat.mod_eq_of_lt (by omega)
          rw [byte_at_second]
          simp only [operand_count, if_neg h0, if_pos h1, hpc, hpc2]
          refine ⟨⟨?_, fun h => absurd h h0, fun _ => ⟨by omega, hwf.1⟩⟩, by omega,
            pre ++ [op, i], rest1, by simp, by simp, hwf.2⟩
          rcases h1 with h | h <;> rw [h] <;> decide
      · rw [if_neg h1] at hwf
        simp only [Bool.and_eq_true, decide_eq_true_eq] at hwf
        simp only [List.length_append, List.length_cons] at hlen ⊢
        have hpc : (pre.length + 1) % 65536 = pre.length + 1 := Nat.mod_eq_of_lt (by omega)
        simp only [operand_count, if_neg h0, if_neg h1, hpc, Nat.add_zero]
        exact ⟨⟨hwf.1, fun h => absurd h h0, fun h => absurd h h1⟩, by omega,
          pre ++ [op], rest, by simp, by simp, hwf.2⟩

theorem atInstr_le (code : List Nat) (pc : Nat) (h : AtInstr code pc) : pc ≤ code.length := by
  obtain ⟨pre, suffix, rfl, rfl, _⟩ := h
  simp

theorem wf_turn (pre suffix : List Nat) (m : Machine) (hwf : well_formed suffix = true)
    (hne : suffix ≠ []) (hlen : (pre ++ suffix).length ≤ 65535) :
    turn_in_bounds (pre ++ suffix) (pre ++ suffix).length pre.length ∧
    ∀ st, exec_op (pre ++ suffix) pre.length m = some st →
      pre.length < st.1 ∧ AtInstr (pre ++ suffix) st.1 := by
  obtain ⟨h1, h2, h3⟩ := wf_next pre suffix hwf hne hlen
  refine ⟨h1, fun st hst => ?_⟩
  rw [exec_op_pc _ _ _ _ hst]
  exact ⟨h2, h3⟩

theorem atInstr_turn (code : List Nat) (pc : Nat) (m : Machine) (h : AtInstr code pc)
    (hpc : pc < code.length) (hlen : code.length ≤ 65535) :
    turn_in_bounds code code.length pc ∧
    ∀ st, exec_op code pc m = some st → pc < st.1 ∧ AtInstr code st.1 := by
  obtain ⟨pre, suffix, rfl, rfl, hwf⟩ := h
  have hne : suffix ≠ [] := by
    intro h0
    rw [h0] at hpc
    simp at hpc
  exact wf_turn pre suffix m hwf hne hlen

/-- A turn that stays in bounds has undefined behaviour only as a division or
modulo of `INT32_MIN` by `-1`: its access to the variable array is inside the
array. -/
theorem turn_none (code : List Nat) (len pc : Nat) (m : Machine)
    (hb : turn_in_bounds code len pc) (hlen : len ≤ 65535)
    (h : exec_op code pc m = none) :
    (byte_at code pc = OP_DIVIDE ∨ byte_at code pc = OP_MODULO) ∧
    (stack_pop (stack_pop m).2).1 = -2147483648 ∧ (stack_pop m).1 = -1 := by
  rcases (exec_op_none_iff code pc m).mp h with ⟨hop, hi⟩ | hd
  · have h2 := hb.2.2 hop
    have : (pc + 1) % 65536 = pc + 1 := Nat.mod_eq_of_lt (by omega)
    rw [this] at hi
    unfold Machine.vars_size MAX_VAR at hi
    omega
  · exact hd

/-- Running a well-formed stream: after any number of turns the program counter
is at the start of an instruction or at the end, and has moved forward by at
least the number of turns unless the end is reached. -/
theorem eval_steps_wf (code : List Nat) (hlen : code.length ≤ 65535) (k : Nat) :
    ∀ st : Nat × Machine, AtInstr code st.1 →
      ∀ st1, eval_steps code code.length k st = some st1 →
        AtInstr code st1.1 ∧ (st.1 + k ≤ st1.1 ∨ code.length ≤ st1.1) := by
  induction k with
  | zero =>
    intro st h st1 h1
    cases h1
    exact ⟨h, Or.inl (le_refl _)⟩
  | succ k ih =>
    intro st h st1 h1
    unfold eval_steps at h1
    split_ifs at h1 with hpc
    · obtain ⟨st2, h2, h3⟩ := Option.bind_eq_some.mp h1
      obtain ⟨hlt, hat⟩ := (atInstr_turn code st.1 st.2 h hpc hlen).2 st2 h2
      obtain ⟨a, b⟩ := ih st2 hat st1 h3
      refine ⟨a, ?_⟩
      rcases b with b | b
      · left; omega
      · right; exact b
    · cases h1
      exact ⟨h, Or.inr (by omega)⟩

/-- A run of a well-formed stream that is allowed as many turns as the stream
has bytes, and whose turns all have defined behaviour, reaches the end. -/
theorem eval_steps_end (code : List Nat) (hlen : code.length ≤ 65535) (k : Nat)
    (hk : code.length ≤ k) (st st1 : Nat × Machine) (h : AtInstr code st.1)
    (h1 : eval_steps code code.length k st = some st1) : st1.1 = code.length := by
  obtain ⟨a, b⟩ := eval_steps_wf code hlen k st h st1 h1
  have := atInstr_le code st1.1 a
  omega

theorem well_formed_cons (op : Nat) (rest : List Nat) :
    well_formed (op :: rest) =
      if op = OP_CONSTANT then
        match rest with
        | _ :: _ :: _ :: _ :: rest4 => well_formed rest4
        | _ => false
      else if op = OP_VAR ∨ op = OP_ASSIGN then
        match rest with
        | i :: rest1 => decide (i ≤ 3) && well_formed rest1
        | _ => false
      else decide (op ≤ 21) && well_formed rest := by
  conv_lhs => unfold well_formed
  all_goals rfl

theorem well_formed_constant (b0 b1 b2 b3 : Nat) (rest : List Nat) :
    well_formed (0 :: b0 :: b1 :: b2 :: b3 :: rest) = well_formed rest := by
  rw [well_formed_cons, if_pos (show (0 : Nat) = OP_CONSTANT from rfl)]

theorem well_formed_operand (op i : Nat) (rest : List Nat) (h : op = 1 ∨ op = 21)
    (hi : i ≤ 3) : well_formed (op :: i :: rest) = well_formed rest := by
  rw [well_formed_cons, if_neg (by unfold OP_CONSTANT; omega),
    if_pos (show op = OP_VAR ∨ op = OP_ASSIGN from h)]
  simp [hi]

theorem well_formed_plain (op : Nat) (rest : List Nat) (hlo : 2 ≤ op) (hhi : op ≤ 20) :
    well_formed (op :: rest) = well_formed rest := by
  rw [well_formed_cons, if_neg (by unfold OP_CONSTANT; omega),
    if_neg (by unfold OP_VAR OP_ASSIGN; omega)]
  have : op ≤ 21 := by omega
  simp [this]

theorem exprCode_wf (c : List Nat) (h : ExprCode c) :
    ∀ rest, well_formed (c ++ rest) = well_formed rest := by
  induction h with
  | constant v => intro rest; exact well_formed_constant _ _ _ _ rest
  | var i hi => intro rest; exact well_formed_operand 1 i rest (Or.inl rfl) hi
  | unary op c hlo hhi _ ih =>
    intro rest
    rw [List.append_assoc, ih]
    exact well_formed_plain op rest hlo (by omega)
  | binary op l r hlo hhi _ _ ihl ihr =>
    intro rest
    rw [List.append_assoc, ihl, List.append_assoc, ihr]
    exact well_formed_plain op rest (by omega) hhi

theorem assignCode_wf (c : List Nat) (h : AssignCode c) :
    ∀ rest, well_formed (c ++ rest) = well_formed rest := by
  induction h with
  | nil => intro rest; rfl
  | snoc pre c i hi _ hc ih =>
    intro rest
    rw [List.append_assoc, ih, List.append_assoc, exprCode_wf c hc]
    exact well_formed_operand 21 i rest (Or.inr rfl) hi

theorem program_wf (pre c : List Nat) (hp : AssignCode pre) (hc : ExprCode c) :
    well_formed (pre ++ c) = true := by
  have := exprCode_wf c hc []
  rw [assignCode_wf pre hp]
  rw [List.append_nil] at this
  rw [this]
  rfl

/-- What `parse_exp` returns in terms of the final state of the compilation. -/
theorem parse_exp_program (exp : List Nat) (buffer_len : Nat) (hcap : buffer_len < 65536) :
    ∃ r, parse_exp exp buffer_len = some r ∧
      (0 < r.ret ↔ r.final.got_parser_error = false) ∧
      (r.final.got_parser_error = false →
        r.ret = r.final.written.length ∧ r.ret ≤ 65535 ∧ r.error_pos = 0 ∧
        ∃ pre c, AssignCode pre ∧ ExprCode c ∧ r.final.written = pre ++ c) := by
  obtain ⟨s, h, hsum, hprog⟩ := compiled_program exp buffer_len
  obtain ⟨s', h', _, hpos⟩ := start_parse_end exp buffer_len
  rw [h] at h'
  cases h'
  unfold parse_exp
  rw [h, Option.map_some']
  refine ⟨_, rfl, ?_⟩
  cases he : s.got_parser_error with
  | true => simp [he]
  | false =>
    have hp := hpos he
    have hm : s.written.length % 65536 = s.written.length := Nat.mod_eq_of_lt (by omega)
    simp only [he, Bool.false_eq_true, if_false, hm, forall_const, true_and, iff_true]
    exact ⟨hp, by omega, hprog he⟩

/-- C12. Every successfully compiled stream is well formed. For every text and
every capacity (a `uint16_t`), when `parse_exp` returns `n > 0` the `n` bytes
written decode as a sequence of complete instructions ending exactly at `n`,
each opcode one of the 22 defined ones, `OP_CONSTANT` with its 4 operand bytes
and `OP_VAR` / `OP_ASSIGN` with 1 operand byte in 0..3. Hence, from every
memory and wherever the loop of `eval_compiled` stands after any number of
turns, the program counter is at most `n`, and when it is below `n` the turn it
starts executes a defined opcode, reads no byte at an index `>= n` and indexes
the variable array inside 0..3, so inside the caller's array: the behaviour of
that turn is defined unless it is a division or modulo of `INT32_MIN` by
`-1`. -/
theorem compiled_well_formed (exp : List Nat) (buffer_len : Nat)
    (hcap : buffer_len < 65536) :
    ∃ r, parse_exp exp buffer_len = some r ∧
      (0 < r.ret →
        r.ret = r.final.written.length ∧ well_formed r.final.written = true ∧
        ∀ (m : Machine) (k : Nat) (st : Nat × Machine),
          eval_steps r.final.written r.ret k
            (0, { m with eval_stack_pointer := 0 }) = some st →
          st.1 ≤ r.ret ∧
          (st.1 < r.ret →
            turn_in_bounds r.final.written r.ret st.1 ∧
            (exec_op r.final.written st.1 st.2 = none →
              (byte_at r.final.written st.1 = OP_DIVIDE ∨
                byte_at r.final.written st.1 = OP_MODULO) ∧
              (stack_pop (stack_pop st.2).2).1 = -2147483648 ∧ (stack_pop st.2).1 = -1 ))) := by
  obtain ⟨r, hr, hiff, hok⟩ := parse_exp_program exp buffer_len hcap
  refine ⟨r, hr, fun hpos => ?_⟩
  obtain ⟨hlen, h16, _, pre, c, hpre, hc, hw⟩ := hok (hiff.mp hpos)
  have hwf : well_formed r.final.written = true := by
    rw [hw]; exact program_wf pre c hpre hc
  refine ⟨hlen, hwf, fun m k st hst => ?_⟩
  rw [hlen] at hst ⊢
  have h0 : AtInstr r.final.written 0 := ⟨[], r.final.written, rfl, rfl, hwf⟩
  obtain ⟨hat, _⟩ := eval_steps_wf r.final.written (by omega) k
    (0, { m with eval_stack_pointer := 0 }) h0 st hst
  refine ⟨atInstr_le _ _ hat, fun hlt => ?_⟩
  have hb := (atInstr_turn _ _ m hat hlt (by omega)).1
  exact ⟨hb, fun hn => turn_none _ _ _ _ hb (by omega) hn⟩

theorem stack_depth_cons (op : Nat) (rest : List Nat) (d : Nat) :
    stack_depth (op :: rest) d =
      if op = OP_CONSTANT then
        match rest with
        | _ :: _ :: _ :: _ :: rest4 => stack_depth rest4 (d + 1)
        | _ => none
      else if op = OP_VAR then
        match rest with
        | _ :: rest1 => stack_depth rest1 (d + 1)
        | _ => none
      else if op = OP_ASSIGN then
        match rest with
        | _ :: rest1 => if 1 ≤ d then stack_depth rest1 (d - 1) else none
        | _ => none
      else if OP_NEGATE ≤ op ∧ op ≤ OP_LOGICAL_NOT then
        if 1 ≤ d then stack_depth rest d else none
      else if OP_MULTIPLY ≤ op ∧ op ≤ OP_LOGICAL_OR then
        if 2 ≤ d then stack_depth rest (d - 1) else none
      else none := by
  conv_lhs => unfold stack_depth
  all_goals rfl

/-- The code of an expression never pops below the depth it starts from and
leaves one more value on the stack. -/
theorem exprCode_depth (c : List Nat) (h : ExprCode c) :
    ∀ rest d, stack_depth (c ++ rest) d = stack_depth rest (d + 1) := by
  induction h with
  | constant v =>
    intro rest d
    show stack_depth (OP_CONSTANT :: _ :: _ :: _ :: _ :: rest) d = _
    rw [stack_depth_cons, if_pos rfl]
  | var i hi =>
    intro rest d
    show stack_depth (OP_VAR :: i :: rest) d = _
    rw [stack_depth_cons, if_neg (by decide), if_pos rfl]
  | unary op c hlo hhi _ ih =>
    intro rest d
    rw [List.append_assoc, ih]
    show stack_depth (op :: rest) (d + 1) = _
    rw [stack_depth_cons, if_neg (by unfold OP_CONSTANT; omega),
      if_neg (by unfold OP_VAR; omega), if_neg (by unfold OP_ASSIGN; omega),
      if_pos (by unfold OP_NEGATE OP_LOGICAL_NOT; omega), if_pos (by omega)]
  | binary op l r hlo hhi _ _ ihl ihr =>
    intro rest d
    rw [List.append_assoc, ihl, List.append_assoc, ihr]
    show stack_depth (op :: rest) (d + 1 + 1) = _
    rw [stack_depth_cons, if_neg (by unfold OP_CONSTANT; omega),
      if_neg (by unfold OP_VAR; omega), if_neg (by unfold OP_ASSIGN; omega),
      if_neg (by unfold OP_NEGATE OP_LOGICAL_NOT; omega),
      if_pos (by unfold OP_MULTIPLY OP_LOGICAL_OR; omega), if_pos (by omega)]
    rfl

/-- The code of assignment statements never pops below the depth it starts
from and leaves the depth as it was. -/
theorem assignCode_depth (c : List Nat) (h : AssignCode c) :
    ∀ rest d, stack_depth (c ++ rest) d = stack_depth rest d := by
  induction h with
  | nil => intro rest d; rfl
  | snoc pre c i hi _ hc ih =>
    intro rest d
    rw [List.append_assoc, ih, List.append_assoc, exprCode_depth c hc]
    show stack_depth (OP_ASSIGN :: i :: rest) (d + 1) = _
    rw [stack_depth_cons, if_neg (by decide), if_neg (by decide), if_pos rfl]
    simp

theorem push_depth (v : Int) (m : Machine) (h : m.eval_stack_pointer < STACK_SIZE) :
    (stack_push v m).eval_stack_pointer = m.eval_stack_pointer + 1 := by
  unfold stack_push
  rw [if_pos h]

theorem pop_depth (m : Machine) :
    (stack_pop m).2.eval_stack_pointer = m.eval_stack_pointer - 1 := by
  unfold stack_pop
  dsimp only
  split_ifs with h
  · rfl
  · omega

theorem unary_depth (f : Int → Int) (m : Machine) (h1 : 1 ≤ m.eval_stack_pointer)
    (h : m.eval_stack_pointer ≤ STACK_SIZE) :
    (exec_unary f m).eval_stack_pointer = m.eval_stack_pointer := by
  unfold exec_unary
  dsimp only
  rw [push_depth _ _ (by rw [pop_depth]; omega), pop_depth]
  omega

theorem binary_depth (f : Int → Int → Int) (m : Machine) (h2 : 2 ≤ m.eval_stack_pointer)
    (h : m.eval_stack_pointer ≤ STACK_SIZE) :
    (exec_binary f m).eval_stack_pointer = m.eval_stack_pointer - 1 := by
  unfold exec_binary
  dsimp only
  rw [push_depth _ _ (by rw [pop_depth, pop_depth]; omega), pop_depth, pop_depth]
  omega

theorem division_depth (f : Int → Int → Option Int) (m m1 : Machine)
    (h2 : 2 ≤ m.eval_stack_pointer) (h : m.eval_stack_pointer ≤ STACK_SIZE)
    (h1 : exec_division f m = some m1) :
    m1.eval_stack_pointer = m.eval_stack_pointer - 1 := by
  unfold exec_division at h1
  obtain ⟨v, -, rfl⟩ := Option.map_eq_some'.mp h1
  exact binary_depth (fun _ _ => v) m h2 h

/-- The effect of one turn of the interpreter loop on the stack pointer, while
the stack neither overflows nor underflows: `OP_CONSTANT` and `OP_VAR` add one,
a unary opcode leaves it, a binary opcode and `OP_ASSIGN` take one off. This is
the table `stack_depth` follows. -/
theorem exec_op_depth (compiled_exp : List Nat) (pc : Nat) (m : Machine)
    (st : Nat × Machine) (h : m.eval_stack_pointer ≤ STACK_SIZE)
    (hst : exec_op compiled_exp pc m = some st) :
    ((byte_at compiled_exp pc = OP_CONSTANT ∨ byte_at compiled_exp pc = OP_VAR) →
      m.eval_stack_pointer < STACK_SIZE →
      st.2.eval_stack_pointer = m.eval_stack_pointer + 1) ∧
    (OP_NEGATE ≤ byte_at compiled_exp pc ∧ byte_at compiled_exp pc ≤ OP_LOGICAL_NOT →
      1 ≤ m.eval_stack_pointer →
      st.2.eval_stack_pointer = m.eval_stack_pointer) ∧
    (OP_MULTIPLY ≤ byte_at compiled_exp pc ∧ byte_at compiled_exp pc ≤ OP_LOGICAL_OR →
      2 ≤ m.eval_stack_pointer →
      st.2.eval_stack_pointer = m.eval_stack_pointer - 1) ∧
    (byte_at compiled_exp pc = OP_ASSIGN →
      st.2.eval_stack_pointer = m.eval_stack_pointer - 1) := by
  unfold exec_op at hst
  dsimp only at hst
  generalize byte_at compiled_exp pc = op at hst ⊢
  simp only [OP_CONSTANT, OP_VAR, OP_NEGATE, OP_LOGICAL_NOT, OP_MULTIPLY, OP_LOGICAL_OR,
    OP_ASSIGN]
  refine ⟨fun hop hlt => ?_, fun hop h1 => ?_, fun hop h2 => ?_, fun hop => ?_⟩
  · rcases hop with rfl | rfl
    · cases hst
      exact push_depth _ m hlt
    · dsimp only at hst
      split_ifs at hst
      cases hst
      exact push_depth _ m hlt
  · obtain ⟨lo, hi⟩ := hop
    interval_cases op
    · cases hst; exact unary_depth c_neg m h1 h
    · cases hst; exact unary_depth c_not m h1 h
    · cases hst; exact unary_depth c_compl m h1 h
  · obtain ⟨lo, hi⟩ := hop
    interval_cases op
    · cases hst; exact binary_depth c_mul m h2 h
    · obtain ⟨m1, h1, rfl⟩ := Option.map_eq_some'.mp hst
      exact division_depth _ m m1 h2 h h1
    · obtain ⟨m1, h1, rfl⟩ := Option.map_eq_some'.mp hst
      exact division_depth _ m m1 h2 h h1
    · cases hst; exact binary_depth c_add m h2 h
    · cases hst; exact binary_depth c_sub m h2 h
    · cases hst; exact binary_depth c_shl m h2 h
    · cases hst; exact binary_depth c_shr m h2 h
    · cases hst; exact binary_depth c_lt m h2 h
    · cases hst; exact binary_depth c_le m h2 h
    · cases hst; exact binary_depth c_gt m h2 h
    · cases hst; exact binary_depth c_ge m h2 h
    · cases hst; exact binary_depth c_eq m h2 h
    · cases hst; exact binary_depth c_ne m h2 h
    · cases hst; exact binary_depth c_and m h2 h
    · cases hst; exact binary_depth c_xor m h2 h
    · cases hst; exact binary_depth c_or m h2 h
  · subst hop
    dsimp only at hst
    split_ifs at hst
    cases hst
    exact pop_depth m

/-- C15. Stack balance of compiled code. For every text and capacity, when
`parse_exp` succeeds the stream it wrote is the code of assignment statements
followed by the code of the trailing expression; tracking the stack depth over
its instructions on an unbounded stack (`stack_depth`), no instruction pops
more values than are present, each group of assignment statements leaves the
depth unchanged, the trailing expression adds one, and the depth at the end of
the stream, started from 0, is exactly 1. The depth table is the one of the
interpreter: while its stack neither overflows nor underflows, a turn of its
loop (one whose behaviour is defined, so that there is a memory after it)
moves the stack pointer by +1 for `OP_CONSTANT` and `OP_VAR`, by 0 for a
unary opcode, by -1 for a binary opcode and for `OP_ASSIGN`. -/
theorem compiled_stack_balance (exp : List Nat) (buffer_len : Nat) :
    (∃ r, parse_exp exp buffer_len = some r ∧
      (r.final.got_parser_error = false →
        stack_depth r.final.written 0 = some 1 ∧
        ∃ pre c, r.final.written = pre ++ c ∧
          (∀ rest d, stack_depth (pre ++ rest) d = stack_depth rest d) ∧
          (∀ rest d, stack_depth (c ++ rest) d = stack_depth rest (d + 1)))) ∧
    (∀ (compiled_exp : List Nat) (pc : Nat) (m : Machine) (st : Nat × Machine),
      m.eval_stack_pointer ≤ STACK_SIZE →
      exec_op compiled_exp pc m = some st →
      ((byte_at compiled_exp pc = OP_CONSTANT ∨ byte_at compiled_exp pc = OP_VAR) →
        m.eval_stack_pointer < STACK_SIZE →
        st.2.eval_stack_pointer = m.eval_stack_pointer + 1) ∧
      (OP_NEGATE ≤ byte_at compiled_exp pc ∧ byte_at compiled_exp pc ≤ OP_LOGICAL_NOT →
        1 ≤ m.eval_stack_pointer →
        st.2.eval_stack_pointer = m.eval_stack_pointer) ∧
      (OP_MULTIPLY ≤ byte_at compiled_exp pc ∧ byte_at compiled_exp pc ≤ OP_LOGICAL_OR →
        2 ≤ m.eval_stack_pointer →
        st.2.eval_stack_pointer = m.eval_stack_pointer - 1) ∧
      (byte_at compiled_exp pc = OP_ASSIGN →
        st.2.eval_stack_pointer = m.eval_stack_pointer - 1)) := by
  refine ⟨?_, exec_op_depth⟩
  obtain ⟨s, h, _, hprog⟩ := compiled_program exp buffer_len
  have hf : ∀ (c : Prop) [Decidable c] (a b x y : Nat),
      (if c then (⟨a, x, s⟩ : ParseResult) else ⟨b, y, s⟩).final = s := by
    intros; split_ifs <;> rfl
  unfold parse_exp
  rw [h, Option.map_some']
  refine ⟨_, rfl, ?_⟩
  rw [hf]
  intro he
  obtain ⟨pre, c, hpre, hc, hw⟩ := hprog he
  refine ⟨?_, pre, c, hw, assignCode_depth pre hpre, exprCode_depth c hc⟩
  have := exprCode_depth c hc [] 0
  rw [List.append_nil] at this
  rw [hw, assignCode_depth pre hpre, this]
  rfl

theorem sameRun_push (v : Int) (m m' : Machine) (h : SameRun m m') :
    SameRun (stack_push v m) (stack_push v m') := by
  obtain ⟨hsp, hv, hst⟩ := h
  unfold stack_push
  rw [← hsp]
  split_ifs with hlt
  · refine ⟨rfl, hv, fun i hi => ?_⟩
    simp only [store]
    split_ifs with hi2
    · rfl
    · exact hst i (by simp only [lt_max_iff] at hi ⊢; omega)
  · exact ⟨hsp, hv, hst⟩

theorem sameRun_pop (m m' : Machine) (h : SameRun m m') :
    (stack_pop m).1 = (stack_pop m').1 ∧ SameRun (stack_pop m).2 (stack_pop m').2 := by
  obtain ⟨hsp, hv, hst⟩ := h
  unfold stack_pop
  rw [← hsp]
  dsimp only
  split_ifs with hlt
  · refine ⟨hst _ (by simp only [lt_max_iff]; omega), rfl, hv, fun i hi => ?_⟩
    exact hst i (by simp only [lt_max_iff] at hi ⊢; omega)
  · exact ⟨by rw [← hsp]; exact hst _ (by simp only [lt_max_iff]; omega), hsp, hv, hst⟩

theorem sameRun_unary (f : Int → Int) (m m' : Machine) (h : SameRun m m') :
    SameRun (exec_unary f m) (exec_unary f m') := by
  obtain ⟨e, h1⟩ := sameRun_pop m m' h
  unfold exec_unary
  dsimp only
  rw [e]
  exact sameRun_push _ _ _ h1

theorem sameRun_binary (f : Int → Int → Int) (m m' : Machine) (h : SameRun m m') :
    SameRun (exec_binary f m) (exec_binary f m') := by
  obtain ⟨e2, h2⟩ := sameRun_pop m m' h
  obtain ⟨e1, h1⟩ := sameRun_pop _ _ h2
  unfold exec_binary
  dsimp only
  rw [e2, e1]
  exact sameRun_push _ _ _ h1

theorem sameRun_division (f : Int → Int → Option Int) (m m' : Machine) (h : SameRun m m')
    (pc : Nat) :
    SameOutcome ((exec_division f m).map (fun m1 => (pc, m1)))
      ((exec_division f m').map (fun m1 => (pc, m1))) := by
  obtain ⟨e2, h2⟩ := sameRun_pop m m' h
  obtain ⟨e1, h1⟩ := sameRun_pop _ _ h2
  unfold exec_division
  dsimp only
  rw [e2, e1]
  cases f (stack_pop (stack_pop m').2).1 (stack_pop m').1 with
  | none => exact Or.inl ⟨rfl, rfl⟩
  | some v => exact Or.inr ⟨_, _, rfl, rfl, rfl, sameRun_push _ _ _ h1⟩

theorem sameRun_assign (i : Nat) (m m' : Machine) (h : SameRun m m') :
    SameRun { (stack_pop m).2 with vars := store (stack_pop m).2.vars i (stack_pop m).1 }
      { (stack_pop m').2 with vars := store (stack_pop m').2.vars i (stack_pop m').1 } := by
  obtain ⟨e, hsp, hv, hst⟩ := sameRun_pop m m' h
  exact ⟨hsp, ⟨by dsimp only; rw [e, hv.1], hv.2⟩, hst⟩

theorem sameOutcome_some (pc : Nat) (m m' : Machine) (h : SameRun m m') :
    SameOutcome (some (pc, m)) (some (pc, m')) :=
  Or.inr ⟨_, _, rfl, rfl, rfl, h⟩

theorem sameRun_exec (code : List Nat) (pc : Nat) (m m' : Machine) (h : SameRun m m') :
    SameOutcome (exec_op code pc m) (exec_op code pc m') := by
  have hsz : m.vars_size = m'.vars_size := by
    unfold Machine.vars_size
    rw [h.2.1.2]
  unfold exec_op
  dsimp only
  generalize byte_at code pc = op
  by_cases hop : op < 22
  · interval_cases op
    · exact sameOutcome_some _ _ _ (sameRun_push _ m m' h)
    · have hv : m.vars = m'.vars := h.2.1.1
      dsimp only
      rw [hv, hsz]
      split_ifs
      · exact sameOutcome_some _ _ _ (sameRun_push _ m m' h)
      · exact Or.inl ⟨rfl, rfl⟩
    · exact sameOutcome_some _ _ _ (sameRun_unary c_neg m m' h)
    · exact sameOutcome_some _ _ _ (sameRun_unary c_not m m' h)
    · exact sameOutcome_some _ _ _ (sameRun_unary c_compl m m' h)
    · exact sameOutcome_some _ _ _ (sameRun_binary c_mul m m' h)
    · exact sameRun_division c_div m m' h _
    · exact sameRun_division c_mod m m' h _
    · exact sameOutcome_some _ _ _ (sameRun_binary c_add m m' h)
    · exact sameOutcome_some _ _ _ (sameRun_binary c_sub m m' h)
    · exact sameOutcome_some _ _ _ (sameRun_binary c_shl m m' h)
    · exact sameOutcome_some _ _ _ (sameRun_binary c_shr m m' h)
    · exact sameOutcome_some _ _ _ (sameRun_binary c_lt m m' h)
    · exact sameOutcome_some _ _ _ (sameRun_binary c_le m m' h)
    · exact sameOutcome_some _ _ _ (sameRun_binary c_gt m m' h)
    · exact sameOutcome_some _ _ _ (sameRun_binary c_ge m m' h)
    · exact sameOutcome_some _ _ _ (sameRun_binary c_eq m m' h)
    · exact sameOutcome_some _ _ _ (sameRun_binary c_ne m m' h)
    · exact sameOutcome_some _ _ _ (sameRun_binary c_and m m' h)
    · exact sameOutcome_some _ _ _ (sameRun_binary c_xor m m' h)
    · exact sameOutcome_some _ _ _ (sameRun_binary c_or m m' h)
    · dsimp only
      rw [hsz]
      split_ifs
      · exact sameOutcome_some _ _ _ (sameRun_assign _ m m' h)
      · exact Or.inl ⟨rfl, rfl⟩
  · obtain ⟨k, rfl⟩ : ∃ k, op = k + 22 := ⟨op - 22, by omega⟩
    exact sameOutcome_some _ _ _ h

theorem sameRun_steps (code : List Nat) (len k : Nat) :
    ∀ (pc : Nat) (m m' : Machine), SameRun m m' →
      SameOutcome (eval_steps code len k (pc, m)) (eval_steps code len k (pc, m')) := by
  induction k with
  | zero => intro pc m m' h; exact sameOutcome_some _ _ _ h
  | succ k ih =>
    intro pc m m' h
    unfold eval_steps
    dsimp only
    split_ifs with hpc
    · rcases sameRun_exec code pc m m' h with ⟨e1, e2⟩ | ⟨st, st', e1, e2, e3, hs⟩
      · rw [e1, e2]
        exact Or.inl ⟨rfl, rfl⟩
      · rw [e1, e2, Option.some_bind, Option.some_bind]
        have := ih st.1 st.2 st'.2 hs
        rw [show (st.1, st'.2) = st' from by rw [e3]] at this
        exact this
    · exact sameOutcome_some _ _ _ h

/-- The first turn on a stream that starts with `OP_CONSTANT` or `OP_VAR`,
from an empty stack: whatever the stack array held, the two memories cannot be
told apart afterwards. -/
theorem sameRun_first (code : List Nat) (m m' : Machine) (hv : m.vars = m'.vars)
    (hx : m.vars_extra = m'.vars_extra)
    (hsp : m.eval_stack_pointer = 0) (hsp' : m'.eval_stack_pointer = 0)
    (hop : byte_at code 0 = OP_CONSTANT ∨ byte_at code 0 = OP_VAR) :
    SameOutcome (exec_op code 0 m) (exec_op code 0 m') := by
  have hsz : m.vars_size = m'.vars_size := by
    unfold Machine.vars_size
    rw [hx]
  have key : ∀ v, SameRun (stack_push v m) (stack_push v m') := by
    intro v
    unfold stack_push
    rw [hsp, hsp']
    simp only [STACK_SIZE]
    refine ⟨rfl, ⟨hv, hx⟩, fun i hi => ?_⟩
    have : i = 0 := by simp at hi; omega
    subst this
    simp [store]
  unfold exec_op
  dsimp only
  rcases hop with h | h
  · rw [h]
    exact sameOutcome_some _ _ _ (key _)
  · rw [h]
    dsimp only [OP_VAR]
    rw [hv, hsz]
    split_ifs
    · exact sameOutcome_some _ _ _ (key _)
    · exact Or.inl ⟨rfl, rfl⟩

theorem exprCode_first (c : List Nat) (h : ExprCode c) :
    ∃ op rest, c = op :: rest ∧ (op = OP_CONSTANT ∨ op = OP_VAR) := by
  induction h with
  | constant v => exact ⟨_, _, rfl, Or.inl rfl⟩
  | var i hi => exact ⟨_, _, rfl, Or.inr rfl⟩
  | unary op c _ _ _ ih =>
    obtain ⟨o, rest, rfl, ho⟩ := ih
    exact ⟨o, rest ++ [op], rfl, ho⟩
  | binary op l r _ _ _ _ ihl _ =>
    obtain ⟨o, rest, rfl, ho⟩ := ihl
    exact ⟨o, rest ++ (r ++ [op]), rfl, ho⟩

theorem assignCode_first (c : List Nat) (h : AssignCode c) :
    c = [] ∨ ∃ op rest, c = op :: rest ∧ (op = OP_CONSTANT ∨ op = OP_VAR) := by
  induction h with
  | nil => exact Or.inl rfl
  | snoc pre c i hi _ hc ih =>
    right
    rcases ih with rfl | ⟨o, rest, rfl, ho⟩
    · obtain ⟨o, rest, rfl, ho⟩ := exprCode_first c hc
      exact ⟨o, rest ++ [OP_ASSIGN, i], rfl, ho⟩
    · exact ⟨o, rest ++ (c ++ [OP_ASSIGN, i]), rfl, ho⟩

/-- Every compiled stream starts by pushing a value. -/
theorem program_first (pre c : List Nat) (hp : AssignCode pre) (hc : ExprCode c) :
    byte_at (pre ++ c) 0 = OP_CONSTANT ∨ byte_at (pre ++ c) 0 = OP_VAR := by
  rcases assignCode_first pre hp with rfl | ⟨o, rest, rfl, ho⟩
  · obtain ⟨o, rest, rfl, ho⟩ := exprCode_first c hc
    exact ho
  · exact ho

/-- Evaluating a stream that starts with a push, from two memories with the
same variable array: after the same number of turns (at least one) the two
runs went the same way. -/
theorem sameRun_eval (code : List Nat) (len k : Nat) (m m' : Machine) (hv : m.vars = m'.vars)
    (hx : m.vars_extra = m'.vars_extra) (hlen : 0 < len)
    (hop : byte_at code 0 = OP_CONSTANT ∨ byte_at code 0 = OP_VAR) :
    SameOutcome (eval_steps code len (k + 1) (0, { m with eval_stack_pointer := 0 }))
      (eval_steps code len (k + 1) (0, { m' with eval_stack_pointer := 0 })) := by
  unfold eval_steps
  dsimp only
  rw [if_pos hlen, if_pos hlen]
  rcases sameRun_first code { m with eval_stack_pointer := 0 }
    { m' with eval_stack_pointer := 0 } hv hx rfl rfl hop with
    ⟨e1, e2⟩ | ⟨st, st', e1, e2, e3, hs⟩
  · rw [e1, e2]
    exact Or.inl ⟨rfl, rfl⟩
  · rw [e1, e2, Option.some_bind, Option.some_bind]
    have := sameRun_steps code len k st.1 st.2 st'.2 hs
    rw [show (st.1, st'.2) = st' from by rw [e3]] at this
    exact this

/-- A run whose behaviour is undefined: the turn where it becomes so. -/
theorem eval_steps_none (code : List Nat) (len n : Nat) (st : Nat × Machine)
    (h : eval_steps code len n st = none) :
    ∃ k st1, k < n ∧ eval_steps code len k st = some st1 ∧ st1.1 < len ∧
      exec_op code st1.1 st1.2 = none := by
  induction n with
  | zero => cases h
  | succ n ih =>
    rw [eval_steps_succ] at h
    cases hn : eval_steps code len n st with
    | none =>
      obtain ⟨k, st1, hk, h1, h2, h3⟩ := ih hn
      exact ⟨k, st1, by omega, h1, h2, h3⟩
    | some st1 =>
      rw [hn, Option.some_bind] at h
      by_cases hpc : st1.1 < len
      · rw [eval_steps_one _ _ _ _ hpc] at h
        exact ⟨n, st1, by omega, hn, hpc, h⟩
      · rw [eval_steps_done _ _ _ _ hpc] at h
        cases h

/-- Evaluating a well-formed stream with as many turns as it has bytes: no
value is returned only when the behaviour of some turn is undefined, and that
turn is a division or modulo of `INT32_MIN` by `-1`. -/
theorem eval_compiled_none (code : List Nat) (fuel : Nat) (m : Machine)
    (hwf : well_formed code = true) (hlen : code.length ≤ 65535) (hf : code.length ≤ fuel)
    (h : eval_compiled fuel code code.length m = none) :
    ∃ k st, k < code.length ∧
      eval_steps code code.length k (0, { m with eval_stack_pointer := 0 }) = some st ∧
      st.1 < code.length ∧
      (byte_at code st.1 = OP_DIVIDE ∨ byte_at code st.1 = OP_MODULO) ∧
      (stack_pop (stack_pop st.2).2).1 = -2147483648 ∧ (stack_pop st.2).1 = -1 := by
  have h0 : AtInstr code 0 := ⟨[], code, rfl, rfl, hwf⟩
  unfold eval_compiled at h
  cases hrun : eval_steps code code.length fuel (0, { m with eval_stack_pointer := 0 }) with
  | some st =>
    rw [hrun, Option.some_bind] at h
    have := eval_steps_end code hlen fuel hf _ st h0 hrun
    rw [if_neg (by omega)] at h
    cases h
  | none =>
    obtain ⟨k, st1, hk, h1, h2, h3⟩ := eval_steps_none _ _ _ _ hrun
    obtain ⟨hat, hprog⟩ := eval_steps_wf code hlen k _ h0 st1 h1
    have hb := (atInstr_turn code st1.1 st1.2 hat h2 hlen).1
    refine ⟨k, st1, ?_, h1, h2, turn_none _ _ _ _ hb hlen h3⟩
    dsimp only at hprog
    omega

/-- C11. Determinism across calls. For every text and every capacity (a
`uint16_t`), when `parse_exp` succeeds (returns `n > 0`), `eval_compiled` on
the compiled stream, given at least `n` turns, does the same from two memories
with the same variable array, whatever the global stack array and stack pointer
held before: either it returns from both, the same value, and leaves the same
variable array, or it returns from neither. What earlier evaluations left
behind has no effect. It returns from every memory but those where the
behaviour of a turn is undefined, and such a turn is a division or modulo of
`INT32_MIN` by `-1`. -/
theorem eval_ignores_leftover_stack (exp : List Nat) (buffer_len : Nat)
    (hcap : buffer_len < 65536) :
    ∃ r, parse_exp exp buffer_len = some r ∧
      (0 < r.ret → ∀ (m m' : Machine), m.vars = m'.vars → m.vars_extra = m'.vars_extra →
        ∀ fuel, r.ret ≤ fuel →
          (eval_compiled fuel r.final.written r.ret m).map (fun x => (x.1, x.2.vars)) =
            (eval_compiled fuel r.final.written r.ret m').map (fun x => (x.1, x.2.vars)) ∧
          (eval_compiled fuel r.final.written r.ret m = none →
            ∃ k st, k < r.ret ∧
              eval_steps r.final.written r.ret k
                (0, { m with eval_stack_pointer := 0 }) = some st ∧
              st.1 < r.ret ∧
              (byte_at r.final.written st.1 = OP_DIVIDE ∨
                byte_at r.final.written st.1 = OP_MODULO) ∧
              (stack_pop (stack_pop st.2).2).1 = -2147483648 ∧ (stack_pop st.2).1 = -1 )) := by
  obtain ⟨r, hr, hiff, hok⟩ := parse_exp_program exp buffer_len hcap
  refine ⟨r, hr, fun hpos m m' hv hx fuel hfuel => ?_⟩
  obtain ⟨hlen, h16, _, pre, c, hpre, hc, hw⟩ := hok (hiff.mp hpos)
  have hwf : well_formed r.final.written = true := by
    rw [hw]; exact program_wf pre c hpre hc
  have hop : byte_at r.final.written 0 = OP_CONSTANT ∨ byte_at r.final.written 0 = OP_VAR := by
    rw [hw]; exact program_first pre c hpre hc
  constructor
  · obtain ⟨k, rfl⟩ : ∃ k, fuel = k + 1 := ⟨fuel - 1, by omega⟩
    unfold eval_compiled
    rcases sameRun_eval r.final.written r.ret k m m' hv hx hpos hop with
      ⟨e1, e2⟩ | ⟨st, st', e1, e2, e3, hs⟩
    · rw [e1, e2]
    · rw [e1, e2, Option.some_bind, Option.some_bind, ← e3]
      obtain ⟨e, _, hvars, _⟩ := sameRun_pop _ _ hs
      split_ifs
      · rfl
      · simp only [Option.map_some', e, hvars.1]
  · intro hnone
    rw [hlen] at hnone ⊢
    exact eval_compiled_none r.final.written fuel m hwf (by omega) (by omega) hnone

/-- Witness for C11: `t+1` compiled into a buffer of 256 bytes, evaluated from
an all-zero stack with pointer 0 and from a stack full of 77 with pointer 20. -/
theorem eval_ignores_leftover_stack_witness :
    (256 : Nat) < 65536 ∧
    ∃ r, parse_exp (text "t+1") 256 = some r ∧ r.ret = 8 ∧
      (eval_compiled 8 r.final.written r.ret ⟨fun _ => 0, 0, fun _ => 5, 0⟩).map
          (fun x => (x.1, x.2.vars)) =
        (eval_compiled 8 r.final.written r.ret ⟨fun _ => 77, 20, fun _ => 5, 0⟩).map
          (fun x => (x.1, x.2.vars)) := by
  obtain ⟨r, hr, h⟩ := eval_ignores_leftover_stack (text "t+1") 256 (by decide)
  have hret : r.ret = 8 := by
    have : (parse_exp (text "t+1") 256).map (fun r => r.ret) = some 8 := by decide
    rw [hr] at this
    simpa using this
  exact ⟨by decide, r, hr, hret,
    (h (by omega) ⟨fun _ => 0, 0, fun _ => 5, 0⟩ ⟨fun _ => 77, 20, fun _ => 5, 0⟩ rfl rfl 8
      (by omega)).1⟩

/-- Witness for C12: `: t = 5 ; t + 1` compiled into a buffer of 256 bytes. -/
theorem compiled_well_formed_witness :
    (256 : Nat) < 65536 ∧
    ∃ r, parse_exp (text ": t = 5 ; t + 1") 256 = some r ∧ r.ret = 15 ∧
      well_formed r.final.written = true ∧
      ∀ (m : Machine) (k : Nat) (st : Nat × Machine),
        eval_steps r.final.written r.ret k (0, { m with eval_stack_pointer := 0 }) = some st →
        st.1 ≤ 15 := by
  obtain ⟨r, hr, h⟩ := compiled_well_formed (text ": t = 5 ; t + 1") 256 (by decide)
  have hret : r.ret = 15 := by
    have : (parse_exp (text ": t = 5 ; t + 1") 256).map (fun r => r.ret) = some 15 := by decide
    rw [hr] at this
    simpa using this
  obtain ⟨_, hwf, hk⟩ := h (by omega)
  refine ⟨by decide, r, hr, hret, hwf, fun m k st hst => ?_⟩
  have := (hk m k st hst).1
  omega

theorem chain_ample (op1 op2 : BinOp) (c : Nat) (hlevel : op1.level = op2.level)
    (hno : 9 ≤ op1.level ∧ op1.level ≤ 11) :
    ∃ r, parse_exp (chain_text op1 op2) (c + 5) = some r ∧ r.ret = 0 ∧
      r.final.got_parser_error = true ∧
      r.final.written = [OP_VAR, 1, OP_VAR, 2, op1.opcode] ∧
      r.final.current_token = op2.token ∧
      r.error_pos = 5 + op1.text.length + op2.text.length := by
  cases op1 <;> simp [BinOp.level] at hno <;> cases op2 <;> simp [BinOp.level] at hlevel <;>
  simp [chain_text, BinOp.text, BinOp.token, BinOp.opcode,
    parse_exp, parse_init, start_parse, next_token_mk, parse_error_mk,
    parse_expect_mk, parse_exp16_mk, parse_exp15_mk, while_binary_mk, if_binary_mk,
    parse_exp13_mk, parse_exp12_mk, parse_exp11_mk, parse_exp10_mk, parse_exp9_mk, parse_exp8_mk,
    parse_exp7_mk, parse_exp6_mk, parse_exp0_loop_mk, parse_exp0_mk,
    ops6, ops7, ops8, ops9, ops10, ops11, ops12, ops13,
    scan_token, skip_space, scan_number, Cursor.peek, Cursor.inc, one_char_token,
    emit_op_var, emit_op_plain, OP_LEFT_SHIFT, OP_RIGHT_SHIFT, OP_LESS_THAN,
    OP_LESS_THAN_OR_EQUAL, OP_GREATER_THAN, OP_GREATER_THAN_OR_EQUAL, OP_EQUAL, OP_NOT_EQUAL,
    toU32]

set_option maxRecDepth 100000 in
theorem chain_tight : ∀ cap ∈ [0, 1, 2, 3, 4], ∀ p ∈ chain_pairs,
    (parse_exp (chain_text p.1 p.2) cap).map
      (fun r => (r.ret, r.final.got_parser_error)) = some (0, true) := by
  decide

theorem chain_pairs_mem (op1 op2 : BinOp) (hlevel : op1.level = op2.level)
    (hno : 9 ≤ op1.level ∧ op1.level ≤ 11) : (op1, op2) ∈ chain_pairs := by
  cases op1 <;> simp [BinOp.level] at hno <;> cases op2 <;> simp [BinOp.level] at hlevel <;>
  decide

/-- C13. The shift, relational and equality levels do not chain. For two
operators `op1`, `op2` of the same level among `<< >>`, `< <= > >=` and
`== !=`, `parse_exp` on the text `a op1 b op2 c` fails for every capacity; once
the buffer holds the 5 bytes of `a op1 b`, these are what is written, the
parse stops with the second operator as current token (trailing input for the
final `parse_expect('\0')`), and the reported offset is the one just after the
second operator. -/
theorem no_chaining (op1 op2 : BinOp) (buffer_len : Nat) (hlevel : op1.level = op2.level)
    (hno : 9 ≤ op1.level ∧ op1.level ≤ 11) :
    ∃ r, parse_exp (chain_text op1 op2) buffer_len = some r ∧ r.ret = 0 ∧
      r.final.got_parser_error = true ∧
      (5 ≤ buffer_len →
        r.final.written = [OP_VAR, 1, OP_VAR, 2, op1.opcode] ∧
        r.final.current_token = op2.token ∧
        r.error_pos = 5 + op1.text.length + op2.text.length) := by
  by_cases h5 : 5 ≤ buffer_len
  · obtain ⟨c, rfl⟩ : ∃ c, buffer_len = c + 5 := ⟨buffer_len - 5, by omega⟩
    obtain ⟨r, hr, h0, he, hrest⟩ := chain_ample op1 op2 c hlevel hno
    exact ⟨r, hr, h0, he, fun _ => hrest⟩
  · have hm : buffer_len ∈ [0, 1, 2, 3, 4] := by
      simp only [List.mem_cons, List.mem_singleton, List.not_mem_nil, or_false]
      omega
    have := chain_tight buffer_len hm (op1, op2) (chain_pairs_mem op1 op2 hlevel hno)
    obtain ⟨r, hr⟩ := parse_exp_total (chain_text op1 op2) buffer_len
    rw [hr] at this
    simp only [Option.map_some', Option.some.injEq, Prod.mk.injEq] at this
    exact ⟨r, hr, this.1, this.2, fun h => absurd h h5⟩

/-- Witness for C13: `a < b < c` with a buffer of 256 bytes. -/
theorem no_chaining_witness :
    ∃ r, parse_exp (text "a < b < c") 256 = some r ∧ r.ret = 0 ∧
      r.final.got_parser_error = true ∧
      r.final.written = [1, 1, 1, 2, 12] ∧ r.final.current_token = 60 ∧ r.error_pos = 7 := by
  obtain ⟨r, hr, h0, he, h⟩ := no_chaining .lt .lt 256 rfl (by decide)
  exact ⟨r, hr, h0, he, h (by decide)⟩

theorem parse_neg_mul (x y : List Nat) (hx : IsLiteral x) (hy : IsLiteral y) (c : Nat) :
    ∃ s, start_parse ((45 :: (literal_text x ++ 42 :: literal_text y)).length + 1)
        (parse_init (45 :: (literal_text x ++ 42 :: literal_text y)) (c + 12)) = some s ∧
      s.got_parser_error = false ∧
      s.written = (Expr.bin .mul (.un .neg (.lit x)) (.lit y)).code := by
  have hx1 : 1 ≤ x.length := List.length_pos.mpr hx.1
  obtain ⟨N, hN⟩ : ∃ N, (45 :: (literal_text x ++ 42 :: literal_text y)).length + 1 = N + 4 :=
    ⟨x.length + y.length - 1, by simp [literal_text]; omega⟩
  rw [hN]
  simp [parse_init, start_parse, next_token_mk, parse_error_mk,
    parse_expect_mk, parse_exp16_mk, parse_exp15_mk, while_binary_mk, if_binary_mk,
    parse_exp13_mk, parse_exp12_mk, parse_exp11_mk, parse_exp10_mk, parse_exp9_mk, parse_exp8_mk,
    parse_exp7_mk, parse_exp6_mk, parse_exp0_loop_mk, parse_exp0_mk,
    ops6, ops7, ops8, ops9, ops10, ops11, ops12, ops13,
    scan_token_literal, scan_token_literal_end, scan_token_plain, scan_token_nil, plain_char,
    NoDigit, hx, hy,
    emit_op_constant, emit_op_plain, OP_NEGATE, OP_MULTIPLY, Expr.code, BinOp.opcode,
    UnOp.opcode]

/-- C16. A unary prefix binds tighter than a multiplicative operator: for
decimal literals `x`, `y` below 2^31 and a buffer of at least 12 bytes,
`parse_exp` on `-x*y` writes exactly `CONSTANT x, NEGATE, CONSTANT y,
MULTIPLY`, the code of `(-x)*y`, which is not the code of `-(x*y)`; and
`eval_compiled` returns `(-x)*y` in 32-bit wraparound arithmetic. -/
theorem unary_binds_tighter (x y : List Nat) (buffer_len : Nat) (hx : IsLiteral x)
    (hy : IsLiteral y) (hcap : 12 ≤ buffer_len) :
    ∃ r, parse_exp (45 :: (literal_text x ++ 42 :: literal_text y)) buffer_len = some r ∧
      r.final.got_parser_error = false ∧ r.ret = 12 ∧
      r.final.written =
        OP_CONSTANT :: constant_bytes (Int.ofNat (decimal x)) ++ [OP_NEGATE] ++
          (OP_CONSTANT :: constant_bytes (Int.ofNat (decimal y))) ++ [OP_MULTIPLY] ∧
      r.final.written = (Expr.bin .mul (.un .neg (.lit x)) (.lit y)).code ∧
      r.final.written ≠ (Expr.un .neg (.bin .mul (.lit x) (.lit y))).code ∧
      ∀ m : Machine, Int32Array m.vars → ∀ fuel, 12 ≤ fuel →
        ∃ m1, eval_compiled fuel r.final.written r.ret m =
          some (wrap32 (wrap32 (-Int.ofNat (decimal x)) * Int.ofNat (decimal y)), m1) := by
  obtain ⟨c, rfl⟩ : ∃ c, buffer_len = c + 12 := ⟨buffer_len - 12, by omega⟩
  obtain ⟨s, hs, he, hw⟩ := parse_neg_mul x y hx hy c
  obtain ⟨r, hr, h1, h2, h3, h4⟩ := compiled_as _ _ _ s hs he hw ⟨hx, hy⟩
    (by simp [Expr.code_size])
  refine ⟨r, hr, h1, h2, ?_, h3, ?_, fun m hv fuel hf => ?_⟩
  · rw [h3]
    simp [Expr.code, UnOp.opcode, BinOp.opcode]
  · rw [h3]
    simp [Expr.code, UnOp.opcode, BinOp.opcode, constant_bytes, OP_CONSTANT, OP_NEGATE,
      OP_MULTIPLY]
  · exact h4 m hv (by simp [Expr.Defined]) (by simp [Expr.slots]) fuel hf

/-- Witness for C16: `-2*3` gives the bytes 0,2,0,0,0, 2, 0,3,0,0,0, 5 and the
value -6. -/
theorem unary_binds_tighter_witness :
    ∃ r, parse_exp (text "-2*3") 256 = some r ∧ r.final.got_parser_error = false ∧
      r.ret = 12 ∧ r.final.written = [0, 2, 0, 0, 0, 2, 0, 3, 0, 0, 0, 5] ∧
      ∀ m : Machine, Int32Array m.vars → ∀ fuel, 12 ≤ fuel →
        ∃ m1, eval_compiled fuel r.final.written r.ret m = some (-6, m1) := by
  obtain ⟨r, hr, he, hret, hw, _, _, hev⟩ :=
    unary_binds_tighter [2] [3] 256 ⟨by decide, by decide, by decide⟩
      ⟨by decide, by decide, by decide⟩ (by decide)
  exact ⟨r, hr, he, hret, hw, hev⟩

theorem errorKept_of_steps (s s1 : PState) (he : s.got_parser_error = true)
    (h : Steps s s1) : ErrorKept s s1 :=
  ⟨(h.1 he).1, (h.1 he).2, h.2.2, h.2.1⟩

/-- C17, as the code has it. Once the error flag is set, every later parse
action keeps it set and keeps the recorded error location, never changes a byte
already written and keeps the sum of bytes written and capacity left: this
holds for `emit_op`, `next_token`, `parse_error`, `parse_accept`,
`parse_expect`, for `parse_exp6` (which returns) and for the rest of
`parse_exp0`. The actions are not no-ops: tokens are still consumed and bytes
still appended while the buffer has room. -/
theorem error_is_sticky (s : PState) (he : s.got_parser_error = true) :
    (∀ op arg, ErrorKept s (emit_op op arg s)) ∧
    ErrorKept s (next_token s) ∧
    ErrorKept s (parse_error s) ∧
    (∀ tok, ErrorKept s (parse_accept tok s).2 ∧ ErrorKept s (parse_expect tok s).2) ∧
    (∀ n, tokens_left s < n →
      (∃ s1, parse_exp6 n s = some s1 ∧ ErrorKept s s1) ∧
      (∃ s1, parse_exp0 n s = some s1 ∧ ErrorKept s s1)) := by
  refine ⟨fun op arg => errorKept_of_steps _ _ he (stepRules_steps.emit op arg s),
    errorKept_of_steps _ _ he ⟨fun h => ⟨h, rfl⟩, rfl, [], by simp⟩,
    errorKept_of_steps _ _ he (steps_error s),
    fun tok => ⟨errorKept_of_steps _ _ he (accept_step stepRules_steps tok s).1,
      errorKept_of_steps _ _ he (expect_step stepRules_steps tok s).1⟩,
    fun n hn => ⟨?_, ?_⟩⟩
  · obtain ⟨s1, h1, hs, _⟩ := parse_exp6_rules stepRules_steps.toExprRules n s hn
    exact ⟨s1, h1, errorKept_of_steps _ _ he hs⟩
  · obtain ⟨s1, h1, hs1, hm1⟩ := exp0_loop_steps stepRules_steps n (parse_exp6 n)
      (parse_exp6_rules stepRules_steps.toExprRules n) n s s (stepRules_steps.refl s)
      (by omega) hn
    obtain ⟨s2, h2, hs2, _⟩ := parse_exp6_rules stepRules_steps.toExprRules n s1 (by omega)
    refine ⟨s2, ?_, errorKept_of_steps _ _ he (steps_trans _ _ _ hs1 hs2)⟩
    unfold parse_exp0
    rw [h1, Option.some_bind, h2]

set_option maxRecDepth 100000 in
/-- Witness for C17: the state in which the first error of `1+2` with a buffer
of 3 bytes is raised (the operand bytes of the first constant do not fit). -/
theorem error_is_sticky_witness :
    (emit_op OP_CONSTANT 1
      (next_token (next_token (parse_init (text "1+2") 3)))).got_parser_error = true ∧
    ErrorKept (emit_op OP_CONSTANT 1 (next_token (next_token (parse_init (text "1+2") 3))))
      (next_token
        (emit_op OP_CONSTANT 1 (next_token (next_token (parse_init (text "1+2") 3))))) :=
  ⟨by decide,
    (error_is_sticky
      (emit_op OP_CONSTANT 1 (next_token (next_token (parse_init (text "1+2") 3))))
      (by decide)).2.1⟩

set_option maxRecDepth 100000 in
/-- C17 as stated fails. On `1+2` with a buffer of 3 bytes the first error is
raised by `emit_op` for the first constant, with the text pointer at offset 2,
one byte written and 2 bytes of capacity left. After that `next_token` still
moves the text pointer (to 3) and `emit_op` still appends a byte; at the end of
the compilation the pointer is at 4, three bytes are written and no capacity is
left, while the reported offset is 2. -/
theorem error_not_noop_counterexample :
    ((fun s : PState => (s.got_parser_error, s.exp_offset, s.written, s.compile_remain_loc))
      (emit_op OP_CONSTANT 1 (next_token (next_token (parse_init (text "1+2") 3)))) =
        (true, 2, [0], 2)) ∧
    ((fun s : PState => (s.got_parser_error, s.exp_offset, s.written, s.compile_remain_loc))
      (next_token
        (emit_op OP_CONSTANT 1 (next_token (next_token (parse_init (text "1+2") 3))))) =
        (true, 3, [0], 2)) ∧
    ((fun s : PState => (s.got_parser_error, s.exp_offset, s.written, s.compile_remain_loc))
      (emit_op OP_PLUS 0
        (emit_op OP_CONSTANT 1 (next_token (next_token (parse_init (text "1+2") 3))))) =
        (true, 2, [0, 8], 1)) ∧
    (parse_exp (text "1+2") 3).map
      (fun r => (r.ret, r.error_pos, r.final.exp_offset, r.final.written,
        r.final.compile_remain_loc)) = some (0, 2, 4, [0, 0, 8], 0) := by
  decide

set_option maxRecDepth 100000 in
/-- C14 fails on the code. The text `t/a` compiles (5 bytes), and with
`t = INT32_MIN` and `a = -1` in the variable array the third turn of
`eval_compiled` is `OP_DIVIDE` with operands `INT32_MIN` and `-1`: the divisor
is not 0, so the guard of the source lets `arg1 / arg2` run, and its quotient
2^31 is not an `int32_t`: the behaviour of that turn is undefined. The same
happens without any variable on the text of 2147483648 divided by -1, whose
literal is stored as `INT32_MIN`; and `t%a` runs `INT32_MIN % -1`. -/
theorem division_overflow_executed :
    (parse_exp (text "t/a") 256).bind (fun r =>
      (eval_steps r.final.written r.ret 2
        (0, ⟨fun _ => 0, 0, fun i => if i = 0 then -2147483648 else -1, 0⟩)).map (fun st =>
          ((r.ret, r.final.got_parser_error, st.1), division_operands r.final.written 4 st.2,
            (exec_op r.final.written st.1 st.2).isNone))) =
      some ((5, false, 4), some (-2147483648, -1), true) ∧
    (parse_exp (text "t%a") 256).bind (fun r =>
      (eval_steps r.final.written r.ret 2
        (0, ⟨fun _ => 0, 0, fun i => if i = 0 then -2147483648 else -1, 0⟩)).map (fun st =>
          ((r.ret, r.final.got_parser_error, st.1), division_operands r.final.written 4 st.2,
            (exec_op r.final.written st.1 st.2).isNone))) =
      some ((5, false, 4), some (-2147483648, -1), true) ∧
    (parse_exp (text "2147483648/-1") 256).bind (fun r =>
      (eval_steps r.final.written r.ret 3 (0, ⟨fun _ => 0, 0, fun _ => 0, 0⟩)).map (fun st =>
          ((r.ret, r.final.got_parser_error, st.1), division_operands r.final.written 11 st.2,
            (exec_op r.final.written st.1 st.2).isNone))) =
      some ((12, false, 11), some (-2147483648, -1), true) :=
  ⟨by decide, by decide, by decide⟩

set_option maxRecDepth 100000 in
/-- C1 fails on the code, by the defect of C14. The tree `(t)%(a)` meets every
proviso of the claim for the variable array with `t = INT32_MIN` and `a = -1`:
it needs 2 stack slots and has no literal, no shift and no division; its value
under 32-bit two's-complement semantics is the remainder 0. `parse_exp`
succeeds on its text and writes its 5 bytes of code, and the third turn of
`eval_compiled` is `OP_MODULO` with operands `INT32_MIN` and `-1`: the divisor
is not 0, so the guard of the source lets `arg1 % arg2` run, whose behaviour is
undefined in C. There is no state after that turn and `eval_compiled` returns
no value, where the claim has it return 0. -/
theorem modulo_overflow_undefined :
    (Expr.bin .mod (.var .t) (.var .a)).render = text "(t)%(a)" ∧
    (Expr.bin .mod (.var .t) (.var .a)).Literals ∧
    (Expr.bin .mod (.var .t) (.var .a)).slots = 2 ∧
    (Expr.bin .mod (.var .t) (.var .a)).value
      (fun i => if i = 0 then -2147483648 else -1) = 0 ∧
    (parse_exp (text "(t)%(a)") 256).bind (fun r =>
      (eval_steps r.final.written r.ret 2
        (0, ⟨fun _ => 0, 0, fun i => if i = 0 then -2147483648 else -1, 0⟩)).map (fun st =>
          ((r.ret, r.final.got_parser_error, r.final.written, st.1),
            division_operands r.final.written 4 st.2,
            (exec_op r.final.written st.1 st.2).isNone))) =
      some ((5, false, [1, 0, 1, 1, 7], 4), some (-2147483648, -1), true) ∧
    (parse_exp (text "(t)%(a)") 256).map (fun r =>
      ((eval_steps r.final.written r.ret 3
        (0, ⟨fun _ => 0, 0, fun i => if i = 0 then -2147483648 else -1, 0⟩)).isNone,
        (eval_compiled 5 r.final.written r.ret
          ⟨fun _ => 0, 0, fun i => if i = 0 then -2147483648 else -1, 0⟩).isNone)) =
      some (true, true) :=
  ⟨by decide, ⟨trivial, trivial⟩, by decide, by decide, by decide, by decide⟩

set_option maxRecDepth 100000 in
theorem nested_sum_bytes :
    (∀ j, j < 21 → byte_at nested_sum_code (5 * j) = 0 ∧
      byte_at nested_sum_code (5 * j + 1) = 1 ∧ byte_at nested_sum_code (5 * j + 1 + 1) = 0 ∧
      byte_at nested_sum_code (5 * j + 1 + 2) = 0 ∧
      byte_at nested_sum_code (5 * j + 1 + 3) = 0) ∧
    (∀ j, j < 20 → byte_at nested_sum_code (105 + j) = 8) := by
  decide

theorem nested_sum_constant (j : Nat) (hj : j < 21) (m : Machine) :
    exec_op nested_sum_code (5 * j) m = some (5 * j + 5, stack_push 1 m) := by
  obtain ⟨b0, b1, b2, b3, b4⟩ := nested_sum_bytes.1 j hj
  have e0 : (5 * j + 1) % 65536 = 5 * j + 1 := Nat.mod_eq_of_lt (by omega)
  have e1 : (5 * j + 1 + 4) % 65536 = 5 * j + 5 := Nat.mod_eq_of_lt (by omega)
  have hv : wrap32 (Int.ofNat (1 ||| (0 <<< 8) ||| (0 <<< 16) ||| (0 <<< 24))) = 1 := by decide
  unfold exec_op
  simp only [b0, e0, e1, b1, b2, b3, b4, hv]

theorem nested_sum_plus (j : Nat) (hj : j < 20) (m : Machine) :
    exec_op nested_sum_code (105 + j) m = some (105 + j + 1, exec_binary c_add m) := by
  have b0 := nested_sum_bytes.2 j hj
  have e0 : (105 + j + 1) % 65536 = 105 + j + 1 := Nat.mod_eq_of_lt (by omega)
  unfold exec_op
  simp only [b0, e0]

/-- A binary opcode on a stack of at least two values. -/
theorem binary_top (f : Int → Int → Int) (m : Machine) (k : Nat) (x y : Int)
    (hsp : m.eval_stack_pointer = k + 2) (hk : k + 2 ≤ 20)
    (hx : m.eval_stack k = x) (hy : m.eval_stack (k + 1) = y) :
    (exec_binary f m).eval_stack_pointer = k + 1 ∧
    (exec_binary f m).eval_stack k = f x y ∧
    ∀ i, i < k → (exec_binary f m).eval_stack i = m.eval_stack i := by
  have h1 : k + 2 - 1 = k + 1 := by omega
  have h2 : k < 20 := by omega
  unfold exec_binary stack_push stack_pop STACK_SIZE
  simp only [hsp, gt_iff_lt, Nat.zero_lt_succ, ↓reduceIte, h1, Nat.add_sub_cancel, h2, store,
    hx, hy, true_and]
  intro i hi
  rw [if_neg (by omega)]

/-- A binary opcode on a stack of one value: the second pop reads the same
slot 0 again. -/
theorem binary_one (f : Int → Int → Int) (m : Machine) (x : Int)
    (hsp : m.eval_stack_pointer = 1) (hx : m.eval_stack 0 = x) :
    (stack_pop (exec_binary f m)).1 = f x x := by
  unfold exec_binary stack_push stack_pop STACK_SIZE
  simp [hsp, store, hx]

theorem nested_sum_pushes (m : Machine) (j : Nat) (hj : j ≤ 20) :
    ∃ m1, eval_steps nested_sum_code 125 j (0, { m with eval_stack_pointer := 0 }) =
        some (5 * j, m1) ∧
      m1.eval_stack_pointer = j ∧ ∀ i, i < j → m1.eval_stack i = 1 := by
  induction j with
  | zero => exact ⟨_, rfl, rfl, fun i hi => absurd hi (Nat.not_lt_zero i)⟩
  | succ j ih =>
    obtain ⟨m1, h1, h2, h3⟩ := ih (by omega)
    refine ⟨stack_push 1 m1, ?_, ?_, ?_⟩
    · rw [eval_steps_trans _ _ j 1 _ _ h1, eval_steps_one _ _ _ _ (by omega),
        nested_sum_constant j (by omega)]
      rfl
    · rw [(pushed_push m1 1 (by omega)).1, h2]
    · intro i hi
      obtain ⟨_, p2, p3, _⟩ := pushed_push m1 1 (by omega)
      by_cases hij : i = j
      · rw [hij, ← h2]; exact p2
      · rw [p3 i (by omega)]
        exact h3 i (by omega)

theorem nested_sum_adds (m : Machine) (t : Nat) (ht : t ≤ 19) :
    ∃ m1, eval_steps nested_sum_code 125 (21 + t) (0, { m with eval_stack_pointer := 0 }) =
        some (105 + t, m1) ∧
      m1.eval_stack_pointer = 20 - t ∧ m1.eval_stack (19 - t) = 1 + (t : Int) ∧
      ∀ i, i < 19 - t → m1.eval_stack i = 1 := by
  induction t with
  | zero =>
    obtain ⟨m1, h1, h2, h3⟩ := nested_sum_pushes m 20 (le_refl _)
    refine ⟨m1, ?_, h2, ?_, fun i hi => h3 i (by omega)⟩
    · rw [eval_steps_trans _ _ 20 1 _ _ h1, eval_steps_one _ _ _ _ (by omega),
        nested_sum_constant 20 (by omega)]
      simp [stack_push, h2, STACK_SIZE]
    · simpa using h3 19 (by omega)
  | succ t ih =>
    obtain ⟨m1, h1, h2, h3, h4⟩ := ih (by omega)
    obtain ⟨k, hk⟩ : ∃ k, 18 - t = k := ⟨_, rfl⟩
    obtain ⟨q1, q2, q3⟩ := binary_top c_add m1 k 1 (1 + (t : Int)) (by omega) (by omega)
      (h4 k (by omega)) (by rw [show k + 1 = 19 - t from by omega]; exact h3)
    refine ⟨exec_binary c_add m1, ?_, ?_, ?_, ?_⟩
    · rw [show 21 + (t + 1) = 21 + t + 1 from rfl, eval_steps_trans _ _ (21 + t) 1 _ _ h1,
        eval_steps_one _ _ _ _ (by omega), nested_sum_plus t (by omega)]
      rfl
    · omega
    · rw [show 19 - (t + 1) = k from by omega, q2]
      unfold c_add
      rw [wrap32_of_range _ (by unfold InRange; omega)]
      push_cast
      ring
    · intro i hi
      rw [q3 i (by omega)]
      exact h4 i (by omega)

theorem nested_sum_steps (m : Machine) :
    (eval_steps nested_sum_code 125 41 (0, { m with eval_stack_pointer := 0 })).map
      (fun st => (st.1, (stack_pop st.2).1)) = some (125, 40) := by
  obtain ⟨m1, h1, h2, h3, _⟩ := nested_sum_adds m 19 (le_refl _)
  rw [eval_steps_trans _ _ (21 + 19) 1 _ _ h1, eval_steps_one _ _ _ _ (by decide),
    nested_sum_plus 19 (by decide), Option.map_some',
    binary_one c_add m1 _ (by simpa using h2) (by simpa using h3)]
  rfl

theorem nested_sum_eval (m : Machine) (fuel : Nat) (hf : 41 ≤ fuel) :
    ∃ m1, eval_compiled fuel nested_sum_code 125 m = some (40, m1) := by
  obtain ⟨st, hst, h⟩ := Option.map_eq_some'.mp (nested_sum_steps m)
  simp only [Prod.mk.injEq] at h
  rw [eval_compiled_of_steps _ _ 41 fuel m st hst (by omega) hf]
  exact ⟨_, by rw [← h.2]⟩

set_option maxRecDepth 100000 in
theorem nested_sum_parse :
    (parse_exp (nested_sum_text 19) 256).map
      (fun r => (r.ret, r.final.got_parser_error, r.final.written)) =
      some (125, false, nested_sum_code) := by
  decide!

/-- C20. Silent wrong result beyond 20 stack slots. The right-nested sum of 21
ones compiles successfully (into a buffer of 256 bytes) to 21 `OP_CONSTANT 1`
and 20 `OP_PLUS` instructions, the postfix code of the tree of that sum, whose
value is 21 and which needs 21 stack slots; `eval_compiled`, from every memory
and given at least 41 turns, returns 40: the compiler does not check the stack
depth and `stack_push` drops the 21st push. -/
theorem deep_nesting_wrong_result :
    nested_sum_text 19 = text
      "1+(1+(1+(1+(1+(1+(1+(1+(1+(1+(1+(1+(1+(1+(1+(1+(1+(1+(1+(1+1)))))))))))))))))))" ∧
    (nested_sum_tree 19).slots = 21 ∧
    (∀ vars, (nested_sum_tree 19).value vars = 21) ∧
    ∃ r, parse_exp (nested_sum_text 19) 256 = some r ∧
      r.final.got_parser_error = false ∧ r.ret = 125 ∧
      r.final.written = nested_sum_code ∧
      r.final.written = (nested_sum_tree 19).code ∧
      ∀ (m : Machine) (fuel : Nat), 41 ≤ fuel →
        ∃ m1, eval_compiled fuel r.final.written r.ret m = some (40, m1) := by
  refine ⟨by decide, by decide, fun vars => ?_, ?_⟩
  · simp [nested_sum_tree, Expr.value, BinOp.value, decimal, wrap32]
  have hp := nested_sum_parse
  obtain ⟨r, hr⟩ := parse_exp_total (nested_sum_text 19) 256
  rw [hr] at hp
  simp only [Option.map_some', Option.some.injEq, Prod.mk.injEq] at hp
  obtain ⟨h1, h2, h3⟩ := hp
  refine ⟨r, hr, h2, h1, h3, ?_, fun m fuel hf => ?_⟩
  · rw [h3]; decide
  · rw [h3, h1]
    exact nested_sum_eval m fuel hf

theorem skip_space_sum (l : List Nat) : ∀ off,
    (skip_space l off).off + (skip_space l off).chars.length = off + l.length := by
  induction l with
  | nil => intro off; rfl
  | cons c cs ih =>
    intro off
    unfold skip_space
    split_ifs
    · rw [ih]; simp; omega
    · rfl

theorem skip_space_suffix (l : List Nat) : ∀ off, (skip_space l off).chars <:+ l := by
  induction l with
  | nil => intro off; exact List.suffix_refl _
  | cons c cs ih =>
    intro off
    unfold skip_space
    split_ifs
    · exact (ih _).trans (List.suffix_cons c cs)
    · exact List.suffix_refl _

theorem scan_number_sum (l : List Nat) : ∀ v off,
    (scan_number v l off).2.off + (scan_number v l off).2.chars.length = off + l.length := by
  induction l with
  | nil => intro v off; rfl
  | cons c cs ih =>
    intro v off
    unfold scan_number
    split_ifs
    · rw [ih]; simp; omega
    · rfl

theorem scan_number_suffix (l : List Nat) : ∀ v off, (scan_number v l off).2.chars <:+ l := by
  induction l with
  | nil => intro v off; exact List.suffix_refl _
  | cons c cs ih =>
    intro v off
    unfold scan_number
    split_ifs
    · exact (ih _ _).trans (List.suffix_cons c cs)
    · exact List.suffix_refl _

/-- Where `next_token` leaves the text pointer. At the end of the text (after
white space) the token is end-of-input and the pointer ends one position past
the terminator. Otherwise the pointer stays inside the text, offset and
remaining characters together still accounting for the whole text, and the
token is end-of-input only if the character read is a NUL. -/
theorem scan_token_cursor (chars : List Nat) (off : Nat) :
    ((skip_space chars off).chars = [] →
      (scan_token chars off).token = 0 ∧ (scan_token chars off).p.chars = [] ∧
      (scan_token chars off).p.off = off + chars.length + 1) ∧
    (∀ c rest, (skip_space chars off).chars = c :: rest →
      (c ≠ 0 → (scan_token chars off).token ≠ 0) ∧
      (scan_token chars off).p.off + (scan_token chars off).p.chars.length =
        off + chars.length ∧
      (scan_token chars off).p.chars <:+ chars) := by
  have hsum := skip_space_sum chars off
  have hsuf := skip_space_suffix chars off
  constructor
  · intro h
    rw [h] at hsum
    have : scan_token chars off = ⟨0, none, ⟨[], (skip_space chars off).off + 1⟩⟩ := by
      unfold scan_token
      simp [Cursor.peek, Cursor.inc, h, one_char_token]
    rw [this]
    simp at hsum ⊢
    omega
  · intro c rest h
    rw [h] at hsum hsuf
    have hrest : rest <:+ chars := (List.suffix_cons c rest).trans hsuf
    have key : ∀ Q : Scanned → Prop,
        (∀ t v, (c ≠ 0 → t ≠ 0) → Q ⟨t, v, ⟨rest, (skip_space chars off).off + 1⟩⟩) →
        (∀ t v d rest2, rest = d :: rest2 → t ≠ 0 →
          Q ⟨t, v, ⟨rest2, (skip_space chars off).off + 1 + 1⟩⟩) →
        (∀ v, Q ⟨48, v, (scan_number (c - 48) rest ((skip_space chars off).off + 1)).2⟩) →
        Q (scan_token chars off) := by
      intro Q h1 h2 h3
      unfold scan_token
      simp only [Cursor.peek, Cursor.inc, h, List.headD_cons, List.tail_cons]
      repeat' first | apply ite_split Q | intro _
      all_goals first
        | exact h3 _
        | exact h1 _ _ (by intro; decide)
        | exact h1 _ _ id
        | skip
      all_goals
        rename_i hd
        cases rest with
        | nil => simp at hd
        | cons d rest2 => exact h2 _ _ d rest2 rfl (by decide)
    refine key (fun r => (c ≠ 0 → r.token ≠ 0) ∧
      r.p.off + r.p.chars.length = off + chars.length ∧ r.p.chars <:+ chars) ?_ ?_ ?_
    · intro t v ht
      exact ⟨ht, by simp at hsum ⊢; omega, hrest⟩
    · intro t v d rest2 hr ht
      subst hr
      exact ⟨fun _ => ht, by simp at hsum ⊢; omega, (List.suffix_cons d rest2).trans hrest⟩
    · intro v
      have h1 := scan_number_sum rest (c - 48) ((skip_space chars off).off + 1)
      have h2 := scan_number_suffix rest (c - 48) ((skip_space chars off).off + 1)
      refine ⟨fun _ => ?_, ?_, h2.trans hrest⟩
      · show (48 : Nat) ≠ 0
        decide
      · simp only [List.length_cons] at hsum
        show (scan_number (c - 48) rest ((skip_space chars off).off + 1)).2.off +
          (scan_number (c - 48) rest ((skip_space chars off).off + 1)).2.chars.length = _
        omega

theorem parse_error_location_eq (s : PState) :
    (parse_error s).parser_error_location =
      if s.got_parser_error = true then s.parser_error_location else s.exp_offset := by
  unfold parse_error
  split_ifs <;> rfl

theorem parse_error_cases (s : PState) :
    ((parse_error s).got_parser_error = s.got_parser_error ∧
      (parse_error s).parser_error_location = s.parser_error_location) ∨
    (s.got_parser_error = false ∧ (parse_error s).got_parser_error = true ∧
      (parse_error s).parser_error_location = s.exp_offset) := by
  unfold parse_error
  split_ifs with h
  · exact Or.inl ⟨rfl, rfl⟩
  · exact Or.inr ⟨by simpa using h, rfl, rfl⟩

/-- What `emit_op` does to the error flag and the recorded location: nothing,
or it raises the first error and records the text pointer. -/
theorem emit_op_cases (op : Nat) (arg : Int) (s : PState) :
    ((emit_op op arg s).got_parser_error = s.got_parser_error ∧
      (emit_op op arg s).parser_error_location = s.parser_error_location) ∨
    (s.got_parser_error = false ∧ (emit_op op arg s).got_parser_error = true ∧
      (emit_op op arg s).parser_error_location = s.exp_offset) := by
  unfold emit_op
  dsimp only
  split_ifs
  · exact parse_error_cases s
  · exact parse_error_cases _
  · exact Or.inl ⟨rfl, rfl⟩
  · exact parse_error_cases _
  · exact Or.inl ⟨rfl, rfl⟩
  · exact Or.inl ⟨rfl, rfl⟩

theorem emit_op_flag_of (op : Nat) (arg : Int) (s : PState) (h : s.got_parser_error = true) :
    (emit_op op arg s).got_parser_error = true :=
  ((stepRules_steps.emit op arg s).1 h).1

theorem cursorInv_next (exp : List Nat) (s : PState) (h0 : s.current_token ≠ 0)
    (h : CursorInv exp s) : CursorInv exp (next_token s) := by
  obtain ⟨hsuf, hoff, hsum, herr, hnul⟩ := h
  rw [if_neg h0] at hsum
  obtain ⟨hnil, hcons⟩ := scan_token_cursor s.exp_to_parse s.exp_offset
  have hlt := scan_token_off s.exp_to_parse s.exp_offset
  show (scan_token s.exp_to_parse s.exp_offset).p.chars <:+ exp ∧
    1 ≤ (scan_token s.exp_to_parse s.exp_offset).p.off ∧
    (scan_token s.exp_to_parse s.exp_offset).p.off +
      (scan_token s.exp_to_parse s.exp_offset).p.chars.length ≤
      exp.length + (if (scan_token s.exp_to_parse s.exp_offset).token = 0 then 1 else 0) ∧
    (s.got_parser_error = true →
      1 ≤ s.parser_error_location ∧ s.parser_error_location ≤ exp.length + 1) ∧
    ((∀ c ∈ exp, c ≠ 0) →
      ((scan_token s.exp_to_parse s.exp_offset).token = 0 →
        (scan_token s.exp_to_parse s.exp_offset).p.off = exp.length + 1) ∧
      ((scan_token s.exp_to_parse s.exp_offset).token ≠ 0 →
        (scan_token s.exp_to_parse s.exp_offset).p.off +
          (scan_token s.exp_to_parse s.exp_offset).p.chars.length = exp.length))
  cases hsk : (skip_space s.exp_to_parse s.exp_offset).chars with
  | nil =>
    obtain ⟨ht, hc, ho⟩ := hnil hsk
    rw [ht, hc, ho]
    refine ⟨List.nil_suffix, by omega, by simp; omega, herr, fun hn => ?_⟩
    have := (hnul hn).2 h0
    exact ⟨fun _ => by omega, fun hne => absurd rfl hne⟩
  | cons c rest =>
    obtain ⟨ht, hs, hsf⟩ := hcons c rest hsk
    refine ⟨hsf.trans hsuf, by omega, ?_, herr, fun hn => ?_⟩
    · rw [hs]
      split_ifs <;> omega
    · have hc : c ≠ 0 := by
        apply hn
        have h1 : c ∈ (skip_space s.exp_to_parse s.exp_offset).chars := by
          rw [hsk]; exact List.mem_cons_self _ _
        exact hsuf.subset ((skip_space_suffix _ _).subset h1)
      have := (hnul hn).2 h0
      exact ⟨fun h0' => absurd h0' (ht hc), fun _ => by omega⟩

theorem cursorInv_error (exp : List Nat) (s : PState) (h : CursorInv exp s) :
    CursorInv exp (parse_error s) := by
  obtain ⟨hsuf, hoff, hsum, herr, hnul⟩ := h
  unfold CursorInv
  rw [parse_error_exp_to_parse, parse_error_exp_offset, parse_error_token,
    parse_error_location_eq]
  refine ⟨hsuf, hoff, hsum, fun _ => ?_, hnul⟩
  split_ifs with he
  · exact herr he
  · split_ifs at hsum <;> omega

theorem cursorInv_emit (exp : List Nat) (op : Nat) (arg : Int) (s : PState)
    (h : CursorInv exp s) : CursorInv exp (emit_op op arg s) := by
  obtain ⟨hsuf, hoff, hsum, herr, hnul⟩ := h
  unfold CursorInv
  rw [emit_op_exp_to_parse, emit_op_exp_offset, emit_op_token]
  refine ⟨hsuf, hoff, hsum, fun he => ?_, hnul⟩
  rcases emit_op_cases op arg s with ⟨e1, e2⟩ | ⟨_, _, e⟩
  · rw [e2]
    exact herr (by rw [← e1]; exact he)
  · rw [e]
    split_ifs at hsum <;> omega

theorem stepRules_cursor (exp : List Nat) : StepRules (KeepsCursor exp) where
  refl _ := fun h => h
  trans _ _ _ h1 h2 := fun h => h2 (h1 h)
  next s h0 := cursorInv_next exp s h0
  emit op arg s := cursorInv_emit exp op arg s
  error s := cursorInv_error exp s

theorem cursorInv_first (exp : List Nat) (buffer_len : Nat) :
    CursorInv exp (next_token (parse_init exp buffer_len)) := by
  obtain ⟨hnil, hcons⟩ := scan_token_cursor exp 0
  have hlt := scan_token_off exp 0
  show (scan_token exp 0).p.chars <:+ exp ∧ 1 ≤ (scan_token exp 0).p.off ∧
    (scan_token exp 0).p.off + (scan_token exp 0).p.chars.length ≤
      exp.length + (if (scan_token exp 0).token = 0 then 1 else 0) ∧
    (false = true → _) ∧
    ((∀ c ∈ exp, c ≠ 0) →
      ((scan_token exp 0).token = 0 → (scan_token exp 0).p.off = exp.length + 1) ∧
      ((scan_token exp 0).token ≠ 0 →
        (scan_token exp 0).p.off + (scan_token exp 0).p.chars.length = exp.length))
  cases hsk : (skip_space exp 0).chars with
  | nil =>
    obtain ⟨ht, hc, ho⟩ := hnil hsk
    rw [ht, hc, ho]
    exact ⟨List.nil_suffix, by omega, by simp, fun h => absurd h (by decide),
      fun _ => ⟨fun _ => by omega, fun hne => absurd rfl hne⟩⟩
  | cons c rest =>
    obtain ⟨ht, hs, hsf⟩ := hcons c rest hsk
    refine ⟨hsf, by omega, ?_, fun h => absurd h (by decide), fun hn => ?_⟩
    · rw [hs]
      split_ifs <;> omega
    · have hc : c ≠ 0 := by
        apply hn
        have h1 : c ∈ (skip_space exp 0).chars := by
          rw [hsk]; exact List.mem_cons_self _ _
        exact (skip_space_suffix _ _).subset h1
      exact ⟨fun h0 => absurd h0 (ht hc), fun _ => by omega⟩

/-- The cursor invariant holds at the end of every compilation. -/
theorem cursorInv_final (exp : List Nat) (buffer_len : Nat) :
    ∃ s, start_parse (exp.length + 1) (parse_init exp buffer_len) = some s ∧
      CursorInv exp s := by
  obtain ⟨s1, s2, h, hR, hE⟩ := start_parse_rules (stepRules_cursor exp)
    (stepRules_cursor exp).toExprRules (parse_init exp buffer_len) (exp.length + 1)
    (by simp [parse_init])
  have h3 := (expect_step (stepRules_cursor exp) 0 s2).1
  exact ⟨_, h, h3 (hE (hR (cursorInv_first exp buffer_len)))⟩

/-- C18. Range of the reported error offset. For every text of length
`len < 65535` and every capacity, `parse_exp` returns; when it fails (the error
flag is set) the reported offset satisfies `1 <= offset <= len + 1`, so the
reported offset is 0 exactly when the compilation succeeds; the text pointer
ends at most one position past the terminator and the cursor invariant
`CursorInv` holds at the end, as it does after every parse action. When the
text is a C string of that length (no NUL inside), an error detected at end of
input, that is raised by `parse_error` or by `emit_op` in a state of the
invariant whose current token is end-of-input, is recorded at `len + 1`. -/
theorem error_offset_range (exp : List Nat) (buffer_len : Nat) (hlen : exp.length < 65535) :
    ∃ r, parse_exp exp buffer_len = some r ∧
      (r.final.got_parser_error = true → 1 ≤ r.error_pos ∧ r.error_pos ≤ exp.length + 1) ∧
      (r.error_pos = 0 ↔ r.final.got_parser_error = false) ∧
      r.final.exp_offset ≤ exp.length + 1 ∧
      CursorInv exp r.final ∧
      ((∀ c ∈ exp, c ≠ 0) → ∀ s, CursorInv exp s → s.current_token = 0 →
        s.got_parser_error = false →
        (parse_error s).parser_error_location = exp.length + 1 ∧
        ∀ op arg, (emit_op op arg s).got_parser_error = true →
          (emit_op op arg s).parser_error_location = exp.length + 1) := by
  obtain ⟨s, h, hinv⟩ := cursorInv_final exp buffer_len
  have hf : ∀ (c : Prop) [Decidable c] (a b x y : Nat),
      (if c then (⟨a, x, s⟩ : ParseResult) else ⟨b, y, s⟩).final = s := by
    intros; split_ifs <;> rfl
  unfold parse_exp
  rw [h, Option.map_some']
  refine ⟨_, rfl, ?_⟩
  rw [hf]
  obtain ⟨hsuf, hoff, hsum, herr, hnul⟩ := hinv
  refine ⟨fun he => ?_, ?_, ?_, ⟨hsuf, hoff, hsum, herr, hnul⟩, fun hn s0 h0 ht he => ?_⟩
  · obtain ⟨h1, h2⟩ := herr he
    rw [if_pos he]
    show 1 ≤ s.parser_error_location % 65536 ∧ s.parser_error_location % 65536 ≤ _
    rw [Nat.mod_eq_of_lt (by omega)]
    exact ⟨h1, h2⟩
  · cases he : s.got_parser_error with
    | true =>
      obtain ⟨h1, h2⟩ := herr he
      rw [if_pos rfl]
      show s.parser_error_location % 65536 = 0 ↔ _
      rw [Nat.mod_eq_of_lt (by omega)]
      constructor
      · intro h0; omega
      · intro h0; exact absurd h0 (by decide)
    | false => simp
  · split_ifs at hsum <;> omega
  · obtain ⟨_, _, _, _, hnul0⟩ := h0
    have hat := (hnul0 hn).1 ht
    refine ⟨?_, fun op arg hop => ?_⟩
    · rw [parse_error_location_eq, if_neg (by rw [he]; decide)]
      exact hat
    · rcases emit_op_cases op arg s0 with ⟨e1, _⟩ | ⟨_, _, e⟩
      · rw [e1, he] at hop
        exact absurd hop (by decide)
      · rw [e]; exact hat

set_option maxRecDepth 100000 in
/-- Witness for C18: `1+` (length 2) fails at end of input and reports offset
3; its first error is raised by `parse_error` in a state whose current token is
end-of-input. -/
theorem error_offset_range_witness :
    (text "1+").length < 65535 ∧
    ∃ r, parse_exp (text "1+") 256 = some r ∧ r.final.got_parser_error = true ∧
      r.error_pos = 3 ∧ 1 ≤ r.error_pos ∧ r.error_pos ≤ (text "1+").length + 1 := by
  obtain ⟨r, hr, hrange, _⟩ := error_offset_range (text "1+") 256 (by decide)
  have h3 : r.final.got_parser_error = true ∧ r.error_pos = 3 := by
    have : (parse_exp (text "1+") 256).map
        (fun r => (r.final.got_parser_error, r.error_pos)) = some (true, 3) := by decide
    rw [hr] at this
    simpa using this
  exact ⟨by decide, r, hr, h3.1, h3.2, hrange h3.1⟩

theorem instr_bytes_length (op : Nat) (arg : Int) :
    (instr_bytes op arg).length = 1 + operand_count op := by
  unfold instr_bytes operand_count
  by_cases h0 : op = OP_CONSTANT
  · subst h0
    simp [OP_CONSTANT, OP_VAR, OP_ASSIGN, constant_bytes]
  · by_cases h1 : op = OP_VAR ∨ op = OP_ASSIGN
    · simp [h0, h1]
    · simp [h0, h1]

/-- With room for the whole instruction and no earlier error, `emit_op` raises
no error. -/
theorem emit_op_fits (op : Nat) (arg : Int) (s : PState) (he : s.got_parser_error = false)
    (h : 1 + operand_count op ≤ s.compile_remain_loc) :
    (emit_op op arg s).got_parser_error = false := by
  unfold operand_count at h
  by_cases h0 : op = OP_CONSTANT
  · subst h0
    rw [if_pos rfl] at h
    rw [emit_op_constant arg s (by omega)]
    exact he
  · rw [if_neg h0] at h
    by_cases h1 : op = OP_VAR
    · subst h1
      rw [if_pos (Or.inl rfl)] at h
      rw [emit_op_var arg s (by omega)]
      exact he
    · by_cases h21 : op = OP_ASSIGN
      · subst h21
        rw [if_pos (Or.inr rfl)] at h
        rw [emit_op_assign arg s (by omega)]
        exact he
      · rw [emit_op_plain op arg s (by omega) h0 h1 h21]
        exact he

theorem capSim_next (M : Nat) (a b : PState) (h : CapSim M a b) :
    CapSim M (next_token a) (next_token b) := by
  obtain ⟨⟨h1, h2, h3, h4⟩, hsum, hw, he⟩ := h
  refine ⟨⟨?_, ?_, ?_, ?_⟩, hsum, hw, he⟩
  · show (scan_token a.exp_to_parse a.exp_offset).p.chars =
      (scan_token b.exp_to_parse b.exp_offset).p.chars
    rw [h1, h2]
  · show (scan_token a.exp_to_parse a.exp_offset).p.off =
      (scan_token b.exp_to_parse b.exp_offset).p.off
    rw [h1, h2]
  · show (scan_token a.exp_to_parse a.exp_offset).token =
      (scan_token b.exp_to_parse b.exp_offset).token
    rw [h1, h2]
  · show (scan_token a.exp_to_parse a.exp_offset).value.getD a.current_token_value =
      (scan_token b.exp_to_parse b.exp_offset).value.getD b.current_token_value
    rw [h1, h2, h4]

theorem capSim_error (M : Nat) (a b : PState) (h : CapSim M a b) :
    CapSim M (parse_error a) (parse_error b) := by
  obtain ⟨⟨h1, h2, h3, h4⟩, hsum, hw, he⟩ := h
  refine ⟨⟨?_, ?_, ?_, ?_⟩, ?_, ?_, ?_⟩
  · rw [parse_error_exp_to_parse, parse_error_exp_to_parse]; exact h1
  · rw [parse_error_exp_offset, parse_error_exp_offset]; exact h2
  · rw [parse_error_token, parse_error_token]; exact h3
  · rw [parse_error_token_value, parse_error_token_value]; exact h4
  · rw [parse_error_written, parse_error_remain]; exact hsum
  · intro hf; rw [parse_error_flag] at hf; exact absurd hf (by decide)
  · intro hf; rw [parse_error_flag] at hf; exact absurd hf (by decide)

theorem capSim_emit (M : Nat) (op : Nat) (arg : Int) (a b : PState) (h : CapSim M a b) :
    CapSim M (emit_op op arg a) (emit_op op arg b) := by
  obtain ⟨⟨h1, h2, h3, h4⟩, hsum, hw, he⟩ := h
  have hb := (stepRules_steps.emit op arg b).2.1
  refine ⟨⟨?_, ?_, ?_, ?_⟩, by omega, fun ha1 hb1 => ?_, fun ha1 hlen => ?_⟩
  · rw [emit_op_exp_to_parse, emit_op_exp_to_parse]; exact h1
  · rw [emit_op_exp_offset, emit_op_exp_offset]; exact h2
  · rw [emit_op_token, emit_op_token]; exact h3
  · rw [emit_op_token_value, emit_op_token_value]; exact h4
  · obtain ⟨ea, wa⟩ := emit_op_ok op arg a ha1
    obtain ⟨eb, wb⟩ := emit_op_ok op arg b hb1
    rw [wa, wb, hw ea eb]
  · obtain ⟨ea, wa⟩ := emit_op_ok op arg a ha1
    rw [wa, List.length_append, instr_bytes_length] at hlen
    have eb := he ea (by omega)
    have hwb := hw ea eb
    apply emit_op_fits op arg b eb
    rw [hwb] at hsum
    omega

theorem capSim_accept (M : Nat) (tok : Nat) (a b : PState) (h : CapSim M a b) :
    (parse_accept tok a).1 = (parse_accept tok b).1 ∧
    CapSim M (parse_accept tok a).2 (parse_accept tok b).2 := by
  have ht : a.current_token = b.current_token := h.1.2.2.1
  unfold parse_accept
  rw [← ht]
  split_ifs with h1 h2
  · exact ⟨rfl, capSim_next M a b h⟩
  · exact ⟨rfl, h⟩
  · exact ⟨rfl, h⟩

theorem capSim_expect (M : Nat) (tok : Nat) (a b : PState) (h : CapSim M a b) :
    (parse_expect tok a).1 = (parse_expect tok b).1 ∧
    CapSim M (parse_expect tok a).2 (parse_expect tok b).2 := by
  obtain ⟨e, hs⟩ := capSim_accept M tok a b h
  unfold parse_expect
  dsimp only
  rw [← e]
  split_ifs
  · exact ⟨rfl, hs⟩
  · exact ⟨rfl, capSim_error M _ _ hs⟩

theorem resp_bind (M : Nat) (f g : PState → Option PState) (hf : Resp M f) (hg : Resp M g) :
    Resp M (fun s => (f s).bind g) := by
  intro a b a2 h ha
  dsimp only at ha ⊢
  cases hfa : f a with
  | none => rw [hfa] at ha; exact absurd ha (by simp)
  | some a1 =>
    rw [hfa, Option.some_bind] at ha
    obtain ⟨b1, hb1, h1⟩ := hf a b a1 h hfa
    obtain ⟨b2, hb2, h2⟩ := hg a1 b1 a2 h1 ha
    exact ⟨b2, by rw [hb1, Option.some_bind, hb2], h2⟩

theorem resp_map (M : Nat) (f : PState → Option PState) (g : PState → PState)
    (hf : Resp M f) (hg : ∀ a b, CapSim M a b → CapSim M (g a) (g b)) :
    Resp M (fun s => (f s).map g) := by
  intro a b a2 h ha
  dsimp only at ha ⊢
  cases hfa : f a with
  | none => rw [hfa] at ha; exact absurd ha (by simp)
  | some a1 =>
    rw [hfa, Option.map_some'] at ha
    obtain ⟨b1, hb1, h1⟩ := hf a b a1 h hfa
    cases ha
    exact ⟨g b1, by rw [hb1, Option.map_some'], hg _ _ h1⟩

theorem resp16 (M : Nat) (exp6 : PState → Option PState) (h6 : Resp M exp6) :
    Resp M (parse_exp16 exp6) := by
  intro a b a1 h ha
  have hv : a.current_token_value = b.current_token_value := h.1.2.2.2
  obtain ⟨e1, s1⟩ := capSim_accept M 86 a b h
  obtain ⟨e2, s2⟩ := capSim_accept M 48 _ _ s1
  obtain ⟨e3, s3⟩ := capSim_expect M 40 _ _ s2
  unfold parse_exp16 at ha ⊢
  dsimp only at ha ⊢
  rw [← e1, ← hv]
  by_cases c1 : (parse_accept 86 a).1 = true
  · rw [if_pos c1] at ha ⊢
    cases ha
    exact ⟨_, rfl, capSim_emit M _ _ _ _ s1⟩
  · rw [if_neg c1] at ha ⊢
    rw [← e2]
    by_cases c2 : (parse_accept 48 (parse_accept 86 a).2).1 = true
    · rw [if_pos c2] at ha ⊢
      cases ha
      exact ⟨_, rfl, capSim_emit M _ _ _ _ s2⟩
    · rw [if_neg c2] at ha ⊢
      rw [← e3]
      by_cases c3 : (parse_expect 40 (parse_accept 48 (parse_accept 86 a).2).2).1 = true
      · rw [if_pos c3] at ha ⊢
        exact resp_map M exp6 _ h6 (fun x y hxy => (capSim_expect M 41 x y hxy).2) _ _ a1 s3 ha
      · rw [if_neg c3] at ha ⊢
        cases ha
        exact ⟨_, rfl, s3⟩

theorem resp15 (M : Nat) (exp6 : PState → Option PState) (h6 : Resp M exp6) :
    Resp M (parse_exp15 exp6) := by
  intro a b a1 h ha
  have h16 := resp16 M exp6 h6
  have hun : ∀ op, Resp M (fun s => (parse_exp16 exp6 s).map (emit_op op 0)) :=
    fun op => resp_map M _ _ h16 (fun x y hxy => capSim_emit M op 0 x y hxy)
  obtain ⟨e1, s1⟩ := capSim_accept M 43 a b h
  obtain ⟨e2, s2⟩ := capSim_accept M 45 _ _ s1
  obtain ⟨e3, s3⟩ := capSim_accept M 33 _ _ s2
  obtain ⟨e4, s4⟩ := capSim_accept M 126 _ _ s3
  unfold parse_exp15 at ha ⊢
  dsimp only at ha ⊢
  rw [← e1]
  by_cases c1 : (parse_accept 43 a).1 = true
  · rw [if_pos c1] at ha ⊢
    exact h16 _ _ a1 s1 ha
  · rw [if_neg c1] at ha ⊢
    rw [← e2]
    by_cases c2 : (parse_accept 45 (parse_accept 43 a).2).1 = true
    · rw [if_pos c2] at ha ⊢
      exact hun _ _ _ a1 s2 ha
    · rw [if_neg c2] at ha ⊢
      rw [← e3]
      by_cases c3 : (parse_accept 33 (parse_accept 45 (parse_accept 43 a).2).2).1 = true
      · rw [if_pos c3] at ha ⊢
        exact hun _ _ _ a1 s3 ha
      · rw [if_neg c3] at ha ⊢
        rw [← e4]
        by_cases c4 : (parse_accept 126
            (parse_accept 33 (parse_accept 45 (parse_accept 43 a).2).2).2).1 = true
        · rw [if_pos c4] at ha ⊢
          exact hun _ _ _ a1 s4 ha
        · rw [if_neg c4] at ha ⊢
          exact h16 _ _ a1 s4 ha

theorem resp_while (M : Nat) (ops : Nat → Option Nat) (sub : PState → Option PState)
    (hsub : Resp M sub) : ∀ n, Resp M (while_binary ops sub n) := by
  intro n
  induction n with
  | zero =>
    intro a b a1 h ha
    have ht : a.current_token = b.current_token := h.1.2.2.1
    unfold while_binary at ha ⊢
    rw [← ht]
    cases hop : ops a.current_token with
    | none =>
      rw [hop] at ha
      cases ha
      exact ⟨b, rfl, h⟩
    | some op => rw [hop] at ha; exact absurd ha (by simp)
  | succ n ih =>
    intro a b a1 h ha
    have ht : a.current_token = b.current_token := h.1.2.2.1
    unfold while_binary at ha ⊢
    rw [← ht]
    cases hop : ops a.current_token with
    | none =>
      rw [hop] at ha
      cases ha
      exact ⟨b, rfl, h⟩
    | some op =>
      rw [hop] at ha
      dsimp only at ha ⊢
      cases hs : sub (next_token a) with
      | none => rw [hs] at ha; exact absurd ha (by simp)
      | some a2 =>
        rw [hs] at ha
        obtain ⟨b2, hb2, h2⟩ := hsub _ _ a2 (capSim_next M a b h) hs
        rw [hb2]
        exact ih _ _ a1 (capSim_emit M op 0 _ _ h2) ha

theorem resp_if (M : Nat) (ops : Nat → Option Nat) (sub : PState → Option PState)
    (hsub : Resp M sub) : Resp M (if_binary ops sub) := by
  intro a b a1 h ha
  have ht : a.current_token = b.current_token := h.1.2.2.1
  unfold if_binary at ha ⊢
  rw [← ht]
  cases hop : ops a.current_token with
  | none =>
    rw [hop] at ha
    cases ha
    exact ⟨b, rfl, h⟩
  | some op =>
    rw [hop] at ha
    exact resp_map M sub _ hsub (fun x y hxy => capSim_emit M op 0 x y hxy) _ _ a1
      (capSim_next M a b h) ha

theorem resp7 (M n : Nat) (exp6 : PState → Option PState) (h6 : Resp M exp6) :
    Resp M (parse_exp7 n exp6) := by
  have h15 := resp15 M exp6 h6
  have h13 : Resp M (parse_exp13 n exp6) := resp_bind M _ _ h15 (resp_while M ops13 _ h15 n)
  have h12 : Resp M (parse_exp12 n exp6) := resp_bind M _ _ h13 (resp_while M ops12 _ h13 n)
  have h11 : Resp M (parse_exp11 n exp6) := resp_bind M _ _ h12 (resp_if M ops11 _ h12)
  have h10 : Resp M (parse_exp10 n exp6) := resp_bind M _ _ h11 (resp_if M ops10 _ h11)
  have h9 : Resp M (parse_exp9 n exp6) := resp_bind M _ _ h10 (resp_if M ops9 _ h10)
  have h8 : Resp M (parse_exp8 n exp6) := resp_bind M _ _ h9 (resp_while M ops8 _ h9 n)
  exact resp_bind M _ _ h8 (resp_while M ops7 _ h8 n)

theorem resp6 (M : Nat) : ∀ n, Resp M (parse_exp6 n) := by
  intro n
  induction n with
  | zero => intro a b a1 _ ha; exact absurd ha (by simp [parse_exp6])
  | succ n ih =>
    have h7 := resp7 M n (parse_exp6 n) ih
    exact resp_bind M _ _ h7 (resp_while M ops6 _ h7 n)

theorem resp_loop (M : Nat) (exp6 : PState → Option PState) (h6 : Resp M exp6) :
    ∀ k, Resp M (parse_exp0_loop exp6 k) := by
  intro k
  induction k with
  | zero =>
    intro a b a1 h ha
    obtain ⟨e, _⟩ := capSim_accept M 58 a b h
    unfold parse_exp0_loop at ha ⊢
    rw [← e]
    split_ifs at ha ⊢ with hc
    cases ha
    exact ⟨b, rfl, h⟩
  | succ k ih =>
    intro a b a1 h ha
    have hv : ∀ x y, CapSim M x y → x.current_token_value = y.current_token_value :=
      fun x y hxy => hxy.1.2.2.2
    obtain ⟨e0, s0⟩ := capSim_accept M 58 a b h
    obtain ⟨e1, s1⟩ := capSim_expect M 86 _ _ s0
    obtain ⟨e2, s2⟩ := capSim_expect M 65 _ _ s1
    unfold parse_exp0_loop at ha ⊢
    dsimp only at ha ⊢
    rw [← e0]
    by_cases c0 : (parse_accept 58 a).1 = true
    · rw [if_pos c0] at ha ⊢
      rw [← e1]
      by_cases c1 : (parse_expect 86 (parse_accept 58 a).2).1 = true
      · rw [if_pos c1] at ha ⊢
        rw [← e2]
        by_cases c2 : (parse_expect 65 (parse_expect 86 (parse_accept 58 a).2).2).1 = true
        · rw [if_pos c2] at ha ⊢
          cases h3 : exp6 (parse_expect 65 (parse_expect 86 (parse_accept 58 a).2).2).2 with
          | none => rw [h3] at ha; exact absurd ha (by simp)
          | some a3 =>
            rw [h3] at ha
            obtain ⟨b3, hb3, s3⟩ := h6 _ _ a3 s2 h3
            rw [hb3]
            dsimp only at ha ⊢
            obtain ⟨e4, s4⟩ := capSim_expect M 59 _ _ s3
            rw [← e4, ← hv _ _ s0]
            by_cases c4 : (parse_expect 59 a3).1 = true
            · rw [if_pos c4] at ha ⊢
              exact ih _ _ a1 (capSim_emit M _ _ _ _ s4) ha
            · rw [if_neg c4] at ha ⊢
              exact ih _ _ a1 s4 ha
        · rw [if_neg c2] at ha ⊢
          exact ih _ _ a1 s2 ha
      · rw [if_neg c1] at ha ⊢
        exact ih _ _ a1 s1 ha
    · rw [if_neg c0] at ha ⊢
      cases ha
      exact ⟨_, rfl, s0⟩

theorem resp_start (M n : Nat) : Resp M (start_parse n) := by
  have h6 := resp6 M n
  have h0 : Resp M (parse_exp0 n) := resp_bind M _ _ (resp_loop M _ h6 n) h6
  have hm := resp_map M (parse_exp0 n) (fun s1 => (parse_expect 0 s1).2) h0
    (fun x y hxy => (capSim_expect M 0 x y hxy).2)
  intro a b a1 h ha
  exact hm _ _ a1 (capSim_next M a b h) ha

/-- Two compilations of one text with buffers of `A` and of `M` bytes: both
end, in states related by `CapSim M`. -/
theorem capSim_final (exp : List Nat) (A M : Nat) :
    ∃ a b, start_parse (exp.length + 1) (parse_init exp A) = some a ∧
      start_parse (exp.length + 1) (parse_init exp M) = some b ∧ CapSim M a b ∧
      a.written.length + a.compile_remain_loc = A ∧
      (a.got_parser_error = false → 0 < a.written.length) := by
  obtain ⟨a, ha, hsum, hpos⟩ := start_parse_end exp A
  have h0 : CapSim M (parse_init exp A) (parse_init exp M) :=
    ⟨⟨rfl, rfl, rfl, rfl⟩, by simp [parse_init], fun _ _ => rfl, fun _ _ => rfl⟩
  obtain ⟨b, hb, h⟩ := resp_start M (exp.length + 1) _ _ a h0 ha
  exact ⟨a, b, ha, hb, h, hsum, hpos⟩

/-- C19. Capacity independence. For every text, a capacity `A` (a `uint16_t`)
and any other capacity `M`: both compilations return and read the text the
same way, ending with the same text pointer and current token; and when the
compilation with capacity `A` succeeds and writes `k` bytes, the one with
capacity `M` succeeds and writes the same `k` bytes if `M >= k`, and fails if
`M < k`. -/
theorem capacity_independence (exp : List Nat) (A M : Nat) (hA : A < 65536) :
    ∃ ra rm, parse_exp exp A = some ra ∧ parse_exp exp M = some rm ∧
      SameParse ra.final rm.final ∧
      (0 < ra.ret →
        ra.final.got_parser_error = false ∧ ra.ret = ra.final.written.length ∧
        (ra.ret ≤ M →
          rm.ret = ra.ret ∧ rm.final.got_parser_error = false ∧
          rm.final.written = ra.final.written) ∧
        (M < ra.ret → rm.ret = 0 ∧ rm.final.got_parser_error = true)) := by
  obtain ⟨a, b, ha, hb, ⟨hsame, hsum, hw, he⟩, hsumA, hpos⟩ := capSim_final exp A M
  unfold parse_exp
  rw [ha, hb, Option.map_some', Option.map_some']
  refine ⟨_, _, rfl, rfl, ?_, ?_⟩
  · split_ifs <;> exact hsame
  · cases hea : a.got_parser_error with
    | true => simp
    | false =>
      have hk := hpos hea
      have hm : a.written.length % 65536 = a.written.length := Nat.mod_eq_of_lt (by omega)
      simp only [hea, Bool.false_eq_true, if_false, hm, hk, forall_const, true_and]
      constructor
      · intro hle
        have heb := he hea hle
        have hwb := hw hea heb
        simp only [heb, Bool.false_eq_true, if_false, hwb, hm, true_and]
      · intro hlt
        have heb : b.got_parser_error = true := by
          cases heb : b.got_parser_error with
          | true => rfl
          | false =>
            have hwb := hw hea heb
            rw [hwb] at hsum
            omega
        simp [heb]

set_option maxRecDepth 100000 in
/-- Witness for C19: `t+1` compiled with capacities 256, 8 and 7. -/
theorem capacity_independence_witness :
    (256 : Nat) < 65536 ∧
    (∃ ra rm, parse_exp (text "t+1") 256 = some ra ∧ parse_exp (text "t+1") 8 = some rm ∧
      ra.ret = 8 ∧ rm.ret = 8 ∧ rm.final.written = ra.final.written) ∧
    (∃ ra rm, parse_exp (text "t+1") 256 = some ra ∧ parse_exp (text "t+1") 7 = some rm ∧
      ra.ret = 8 ∧ rm.ret = 0) := by
  have h8 : (parse_exp (text "t+1") 256).map (fun r => r.ret) = some 8 := by decide
  refine ⟨by decide, ?_, ?_⟩
  · obtain ⟨ra, rm, ha, hm, _, h⟩ := capacity_independence (text "t+1") 256 8 (by decide)
    have hret : ra.ret = 8 := by rw [ha] at h8; simpa using h8
    obtain ⟨_, _, hge, _⟩ := h (by omega)
    obtain ⟨h1, _, h3⟩ := hge (by omega)
    exact ⟨ra, rm, ha, hm, hret, by omega, h3⟩
  · obtain ⟨ra, rm, ha, hm, _, h⟩ := capacity_independence (text "t+1") 256 7 (by decide)
    have hret : ra.ret = 8 := by rw [ha] at h8; simpa using h8
    obtain ⟨_, _, _, hlt⟩ := h (by omega)
    exact ⟨ra, rm, ha, hm, hret, (hlt (by omega)).1⟩

end ParseEval
